import Mathlib

/-!
LibChemist: basis shells, the flattened basis-set layout, atoms and sets of atoms.

A shallow embedding of `ShellTypes.cpp`, `Utilities.hpp`, `BasisShell.{hpp,cpp}`,
`BasisSet.{hpp,cpp}`, `Atom.{hpp,cpp}` and `SetOfAtoms.{hpp,cpp}`, and of the parsers
declared in `BasisSetParser.hpp` and `SetOfAtomsParser.hpp`, whose implementations
are modelled from the specification of the parsing protocol.

Conventions of the embedding.

* `std::vector<T>` is a `List T`; `v[i]` is `vget v i`, which fails with `Fault.undefined`
  when `i` is past the end (the C++ read has undefined behaviour there).
* `std::unordered_map::at` fails with `Fault.out_of_range` on a missing key
  (the C++ call throws `std::out_of_range`).
* `size_t` values are natural numbers and `int` values are integers.  Function
  counts and offsets are only added and multiplied; the subtractions of
  `binomial_coefficient` are reached with non-zero arguments only, and the
  conversions `int -> size_t -> int` in `am_2int` and `ungeneralize_basis_set` only
  see non-negative values, which they keep.  Where a statement ranges over values
  at which the machine types wrap, the function is repeated with the machine
  arithmetic: `binomial_coefficient_size_t`, `multinomial_coefficient_size_t`
  (sums and decrements modulo `2^64`) and `BasisSet.max_am_int` (the `int` product
  of `max_am`).
* `double` values are never computed with, only stored, copied and compared; the
  structures are parametrised by the type `R` of these values.  `operator_eq`
  compares values, which is the `==` of doubles as long as no NaN is stored;
  `operator_eq_ieee`, `count_ieee` and `insert_ieee` take the comparison of two
  doubles as a parameter and are used where a statement needs `x == x`, and by the
  model of `parse_SetOfAtoms_file`.  The
  concrete encoders below use integers, ten times the doubles of the unit tests
  (31 for 3.1).
* a `for(size_t i=0;i<n;++i) body` loop is `for_loop body n`, which runs `body 0`, ...,
  `body (n-1)` in this order on an explicit state and stops at the first fault.
* a range-based `for` over a vector is a fold over the list (`List.foldlM` when the
  body can fault), and a map (`std::map`, `std::unordered_map`) is an association
  list read with `List.lookup`; the maps are only read by key, never iterated.
* the two conversions between `size_t` and `double` applied to atomic numbers, and
  the look-up tables of `lut/AtomicInfo.hpp`, are parameters (`DoubleConv`,
  `AtomicTables`).
* a fault inside a `noexcept` function (`BasisShell::nfunctions`, `create_ghost`) ends
  the program in C++; the embedding reports the fault that was raised.
* the parsers read a stream as the text it holds, line by line; the reading of a
  numeric token and the table of element symbols are parameters (`TextReader`), and
  the inputs of the parser tests use exact decimals (`Decimal`).
-/

namespace LibChemist

/-- How a call can go wrong: a `std::out_of_range` thrown by a table lookup, or a
read past the end of a vector or string. -/
inductive Fault where
  | out_of_range
  | undefined
  deriving DecidableEq, Repr

/-- Type of basis shells (`ShellTypes.hpp`). -/
inductive ShellType where
  | SphericalGaussian
  | CartesianGaussian
  | Slater
  deriving DecidableEq, Repr, Inhabited

deriving instance DecidableEq for Except

/-- Read `v[i]` of a `std::vector`. -/
def vget {α : Type} (v : List α) (i : Nat) : Except Fault α :=
  match v[i]? with
  | some x => .ok x
  | none => .error .undefined

/-- The loop `for(size_t i=0;i<n;++i) body(i)` over a state. -/
def for_loop {σ : Type} (body : Nat → σ → Except Fault σ) : Nat → σ → Except Fault σ
  | 0, s => .ok s
  | n + 1, s => for_loop body n s >>= body n

/-! ## ShellTypes.cpp -/

/-- The table `detail_::toi_`. -/
def toi_ : List (String × Int) :=
  [("spdfgh", -5), ("spdfg", -4), ("spdf", -3), ("spd", -2), ("sp", -1),
   ("s", 0), ("p", 1), ("d", 2), ("f", 3), ("g", 4), ("h", 5), ("i", 6), ("j", 7),
   ("k", 8), ("l", 9), ("m", 10), ("n", 11), ("o", 12), ("q", 13), ("r", 14),
   ("t", 15), ("u", 16), ("v", 17), ("w", 18), ("x", 19), ("y", 20), ("z", 21)]

/-- The table `detail_::tostr_`. -/
def tostr_ : List (Int × String) :=
  [(-5, "spdfgh"), (-4, "spdfg"), (-3, "spdf"), (-2, "spd"), (-1, "sp"),
   (0, "s"), (1, "p"), (2, "d"), (3, "f"), (4, "g"), (5, "h"), (6, "i"), (7, "j"),
   (8, "k"), (9, "l"), (10, "m"), (11, "n"), (12, "o"), (13, "q"), (14, "r"),
   (15, "t"), (16, "u"), (17, "v"), (18, "w"), (19, "x"), (20, "y"), (21, "z")]

/-- The lookup `m.at(key)` of a `std::unordered_map` given by its entries. -/
def map_at {κ ν : Type} [DecidableEq κ] (m : List (κ × ν)) (key : κ) : Except Fault ν :=
  match m.lookup key with
  | some v => .ok v
  | none => .error .out_of_range

/-- The function `am_str2int`: the integer of an angular-momentum string. -/
def am_str2int (am : String) : Except Fault Int :=
  map_at toi_ am

/-- The function `am_int2str`: the string of an angular-momentum integer. -/
def am_int2str (am : Int) : Except Fault String :=
  map_at tostr_ am

/-- Read `s[i]` of a `std::string`: the character at `i`, the terminating null
character at `i == s.size()`, undefined behaviour beyond. -/
def string_at (s : String) (i : Nat) : Except Fault Char :=
  match s.data[i]? with
  | some c => .ok c
  | none => if i = s.data.length then .ok (Char.ofNat 0) else .error .undefined

/-- The function `am_2int`: the `i`-th angular momentum of a general contraction. -/
def am_2int (l : Int) (i : Nat) : Except Fault Nat :=
  if l < 0 then do
    let s ← am_int2str l
    let am ← string_at s i
    let v ← am_str2int (String.singleton am)
    pure v.toNat
  else
    pure l.toNat

/-! ## Utilities.hpp -/

/-- The function `binomial_coefficient<size_t>` on the natural numbers: the value that
the source computes as long as no sum reaches `2^64` (`binomial_coefficient_size_t`
has the wrapping sums).  The tests `k<0` and `n<0` of the source are kept although no
unsigned value passes them. -/
def binomial_coefficient (n k : Nat) : Nat :=
  if k = 0 ∨ k = n then 1
  else if k > n ∨ k < 0 ∨ n < 0 then 0
  else binomial_coefficient (n - 1) (k - 1) + binomial_coefficient (n - 1) k
termination_by n
decreasing_by
  all_goals simp_wf
  all_goals omega

/-- The function `multinomial_coefficient<size_t>` on the natural numbers: the value
that the source computes as long as nothing reaches `2^64`
(`multinomial_coefficient_size_t` has the wrapping arithmetic). -/
def multinomial_coefficient (n k : Nat) : Nat :=
  binomial_coefficient (n + k - 1) k

/-! ## BasisShell -/

/-- The class `BasisShell`: the private coefficient and exponent storage and the four
public members. -/
structure BasisShell (R : Type) where
  cs_ : List R
  alphas_ : List R
  type : ShellType
  l : Int
  ngen : Nat
  nprim : Nat

namespace BasisShell

variable {R : Type}

/-- The value constructors `BasisShell(type_, l_, ngen_, alphas, coefs)`. -/
def make (type_ : ShellType) (l_ : Int) (ngen_ : Nat) (alphas coefs : List R) :
    BasisShell R :=
  { cs_ := coefs, alphas_ := alphas, type := type_, l := l_, ngen := ngen_,
    nprim := alphas.length }

/-- The accessor `BasisShell::alpha`. -/
def alpha (s : BasisShell R) (i : Nat) : Except Fault R :=
  vget s.alphas_ i

/-- The accessor `BasisShell::coef`. -/
def coef (s : BasisShell R) (i j : Nat) : Except Fault R :=
  vget s.cs_ (j * s.nprim + i)

/-- The member `BasisShell::nfunctions`; it has no check of `i` against `ngen`. -/
def nfunctions (s : BasisShell R) (i : Nat) : Except Fault Nat := do
  let temp_l ← am_2int s.l i
  if s.type = ShellType.CartesianGaussian then pure (2 * temp_l + 1)
  else pure (multinomial_coefficient 3 temp_l)

end BasisShell

/-! ## BasisSet -/

/-- The struct `BasisSet`: the seven flattened arrays. -/
structure BasisSet (R : Type) where
  centers : List R
  ngens : List Nat
  nprims : List Nat
  coefs : List R
  alphas : List R
  types : List ShellType
  ls : List Int

namespace BasisSet

variable {R : Type}

/-- The default-constructed `BasisSet`. -/
def empty : BasisSet R :=
  { centers := [], ngens := [], nprims := [], coefs := [], alphas := [], types := [],
    ls := [] }

/-- The member `BasisSet::operator==`, the comparison of the seven members, with the
doubles compared as values (`BasisSet.operator_eq_ieee` takes the comparison of two
doubles as a parameter). -/
def operator_eq [DecidableEq R] (a rhs : BasisSet R) : Bool :=
  decide (a.centers = rhs.centers) && decide (a.ngens = rhs.ngens) &&
  decide (a.nprims = rhs.nprims) && decide (a.coefs = rhs.coefs) &&
  decide (a.alphas = rhs.alphas) && decide (a.types = rhs.types) &&
  decide (a.ls = rhs.ls)

/-- The member `BasisSet::operator!=`. -/
def operator_ne [DecidableEq R] (a rhs : BasisSet R) : Bool :=
  !(operator_eq a rhs)

/-- Body of the first loop of `add_shell`: `centers.push_back(center[i])`; the
pointer `center` is the three coordinates it points to. -/
def add_shell_center (center : Fin 3 → R) (i : Nat) (bs : BasisSet R) :
    Except Fault (BasisSet R) :=
  if h : i < 3 then .ok { bs with centers := bs.centers ++ [center ⟨i, h⟩] }
  else .error .undefined

/-- Body of the second loop of `add_shell`: `alphas.push_back(shell.alpha(i))`. -/
def add_shell_alpha (shell : BasisShell R) (i : Nat) (bs : BasisSet R) :
    Except Fault (BasisSet R) := do
  let a ← shell.alpha i
  pure { bs with alphas := bs.alphas ++ [a] }

/-- Body of the inner coefficient loop of `add_shell`:
`coefs.push_back(shell.coef(j,i))`. -/
def add_shell_coef (shell : BasisShell R) (i j : Nat) (bs : BasisSet R) :
    Except Fault (BasisSet R) := do
  let c ← shell.coef j i
  pure { bs with coefs := bs.coefs ++ [c] }

/-- The member `BasisSet::add_shell`; the result is the encoder after the call. -/
def add_shell (bs : BasisSet R) (center : Fin 3 → R) (shell : BasisShell R) :
    Except Fault (BasisSet R) := do
  let nprim := shell.nprim
  let ngen := shell.ngen
  let bs ← for_loop (add_shell_center center) 3 bs
  let bs ← for_loop (add_shell_alpha shell) nprim bs
  let bs ← for_loop (fun i bs => for_loop (add_shell_coef shell i) nprim bs) ngen bs
  pure { bs with
    ls := bs.ls ++ [shell.l], nprims := bs.nprims ++ [nprim],
    ngens := bs.ngens ++ [ngen], types := bs.types ++ [shell.type] }

/-- Body of the inner loop of `BasisSet::size` for shell `i` and contraction `j`. -/
def size_cont (bs : BasisSet R) (i j : Nat) (total : Nat) : Except Fault Nat := do
  let t ← vget bs.types i
  let is_cart := decide (t = ShellType.CartesianGaussian)
  let lcode ← vget bs.ls i
  let l ← am_2int lcode j
  pure (total + (if is_cart then multinomial_coefficient 3 l else 2 * l + 1))

/-- Body of the outer loop of `BasisSet::size` for shell `i`. -/
def size_shell (bs : BasisSet R) (i : Nat) (total : Nat) : Except Fault Nat := do
  let g ← vget bs.ngens i
  for_loop (size_cont bs i) g total

/-- The member `BasisSet::size`. -/
def size (bs : BasisSet R) : Except Fault Nat :=
  for_loop (size_shell bs) bs.ngens.length 0

end BasisSet

/-- The helper `detail_::vector_cat`; the result is `lhs` after the call. -/
def vector_cat {α : Type} (lhs rhs : List α) : List α :=
  lhs ++ rhs

variable {R : Type}

/-- Body of the primitive loop of `ungeneralize_basis_set`; the state is `rv` and the
running index `coef`. -/
def ungeneralize_prim (bs : BasisSet R) (offset prim : Nat) (st : BasisSet R × Nat) :
    Except Fault (BasisSet R × Nat) := do
  let a ← vget bs.alphas (offset + prim)
  let c ← vget bs.coefs (offset + st.2)
  pure ({ st.1 with alphas := st.1.alphas ++ [a], coefs := st.1.coefs ++ [c] }, st.2 + 1)

/-- Body of the center loop of `ungeneralize_basis_set`. -/
def ungeneralize_center (bs : BasisSet R) (shell i : Nat) (rv : BasisSet R) :
    Except Fault (BasisSet R) := do
  let c ← vget bs.centers (3 * shell + i)
  pure { rv with centers := rv.centers ++ [c] }

/-- Body of the contraction loop of `ungeneralize_basis_set`; the state is `rv` and
the running index `coef`. -/
def ungeneralize_cont (bs : BasisSet R) (shell offset cont : Nat)
    (st : BasisSet R × Nat) : Except Fault (BasisSet R × Nat) := do
  let rv : BasisSet R := { st.1 with ngens := st.1.ngens ++ [1] }
  let rv ← for_loop (ungeneralize_center bs shell) 3 rv
  let np ← vget bs.nprims shell
  let rv : BasisSet R := { rv with nprims := rv.nprims ++ [np] }
  let t ← vget bs.types shell
  let rv : BasisSet R := { rv with types := rv.types ++ [t] }
  let lcode ← vget bs.ls shell
  let l ← am_2int lcode cont
  let rv : BasisSet R := { rv with ls := rv.ls ++ [Int.ofNat l] }
  let np ← vget bs.nprims shell
  for_loop (ungeneralize_prim bs offset) np (rv, st.2)

/-- Body of the shell loop of `ungeneralize_basis_set`; the state is `rv` and
`offset`. -/
def ungeneralize_shell (bs : BasisSet R) (shell : Nat) (st : BasisSet R × Nat) :
    Except Fault (BasisSet R × Nat) := do
  let g ← vget bs.ngens shell
  let st' ← for_loop (ungeneralize_cont bs shell st.2) g (st.1, 0)
  let np ← vget bs.nprims shell
  pure (st'.1, st.2 + np)

/-- The function `ungeneralize_basis_set`. -/
def ungeneralize_basis_set (bs : BasisSet R) : Except Fault (BasisSet R) := do
  let nshells := bs.ngens.length
  let st ← for_loop (ungeneralize_shell bs) nshells (BasisSet.empty, 0)
  pure st.1

/-- The function `basis_set_concatenate` for two distinct objects; the result is `lhs` after the
call, which is also the returned reference.  `rhs` is a `const` reference and is
only read. -/
def basis_set_concatenate (lhs rhs : BasisSet R) : BasisSet R :=
  { centers := vector_cat lhs.centers rhs.centers,
    coefs := vector_cat lhs.coefs rhs.coefs,
    alphas := vector_cat lhs.alphas rhs.alphas,
    nprims := vector_cat lhs.nprims rhs.nprims,
    ngens := vector_cat lhs.ngens rhs.ngens,
    types := vector_cat lhs.types rhs.types,
    ls := vector_cat lhs.ls rhs.ls }

/-- The call `basis_set_concatenate(lhs, rhs)` on two distinct objects as a step on
their values: the value of `lhs` after the call, which the returned reference
designates, and the value of `rhs` after the call. -/
def basis_set_concatenate_step (lhs rhs : BasisSet R) : BasisSet R × BasisSet R :=
  (basis_set_concatenate lhs rhs, rhs)

/-- The call `*std::min_element(v.begin(), v.end())`: the first element is the
candidate and a later element replaces it when it is smaller; `none` stands for the end
iterator that an empty vector gives. -/
def min_element (v : List Int) : Option Int :=
  match v with
  | [] => none
  | first :: rest =>
    some (rest.foldl (fun smallest x => if x < smallest then x else smallest) first)

/-- The call `*std::max_element(v.begin(), v.end())`: the first element is the
candidate and a later element replaces it when the candidate is smaller; `none` stands
for the end iterator that an empty vector gives. -/
def max_element (v : List Int) : Option Int :=
  match v with
  | [] => none
  | first :: rest =>
    some (rest.foldl (fun largest x => if largest < x then x else largest) first)

/-- The call `std::max(a, b)`: `b` when `a < b`, else `a`. -/
def std_max (a b : Int) : Int :=
  if a < b then b else a

/-- The member `BasisSet::max_am`; dereferencing the end iterator of an empty `ls` is
undefined behaviour.  The `int` product `-1*min` is the exact integer, which is the
`int` that the source computes for every code but `INT_MIN` (`BasisSet.max_am_int` has
the 32-bit product); the returned `int` is then never negative and becomes the
`size_t` of the same value. -/
def BasisSet.max_am (bs : BasisSet R) : Except Fault Nat :=
  match min_element bs.ls with
  | none => .error .undefined
  | some min =>
    match max_element bs.ls with
    | none => .error .undefined
    | some max => .ok (if min < 0 then std_max (-1 * min) max else max).toNat

/-! ## Atom -/

/-- The member access `m[key]` of `std::unordered_map` followed by an update `f` of the
referenced value: a missing entry is first created with the value `dflt`. -/
def map_index_update {κ ν : Type} [DecidableEq κ] (m : List (κ × ν)) (key : κ) (dflt : ν)
    (f : ν → ν) : List (κ × ν) :=
  match m with
  | [] => [(key, f dflt)]
  | (k, v) :: rest =>
    if key = k then (k, f v) :: rest else (k, v) :: map_index_update rest key dflt f

/-- The two conversions between `size_t` and `double` that the code applies to an
atomic number: `of_size_t` in `create_atom` (a `size_t` passed for a `double`) and
`to_size_t` in `apply_basis_set` (`size_t Z=ai.Z`).  Doubles are abstract here, so
the conversions are parameters; `to_size_t` is the conversion of the stored values,
which are non-negative for atoms made by `create_atom`. -/
structure DoubleConv (R : Type) where
  of_size_t : Nat → R
  to_size_t : R → Nat

/-- An entry of the table `detail_::atomic_data_` (`lut/AtomicInfo.hpp`): the members
that `create_atom` reads. -/
structure AtomicInfo (R : Type) where
  mass : R
  multiplicity : R
  covradius : R
  vdwradius : R

/-- The look-up tables of `lut/AtomicInfo.hpp` that `create_atom` uses, as parameters:
the map `detail_::atomic_data_` and the functions `detail_::most_common_isotope` and
`detail_::isotope_mass`. -/
structure AtomicTables (R : Type) where
  atomic_data_ : List (Nat × AtomicInfo R)
  most_common_isotope : Nat → Except Fault Nat
  isotope_mass : Nat → Nat → Except Fault R

/-- The class `Atom`: the private map from basis-set names to shells and the ten public
members. -/
structure Atom (R : Type) where
  basis_sets : List (String × List (BasisShell R))
  Z : R
  isotope : Nat
  mass : R
  isotope_mass : R
  charge : R
  multiplicity : R
  nelectrons : R
  cov_radius : R
  vdw_radius : R
  coord : Fin 3 → R

namespace Atom

variable {R : Type}

/-- The constructor `Atom(xyz, Z_, isotope_, mass_, isotope_mass_, charge_,
multiplicity_, nelectrons_, cov_radius_, vdw_radius_)`; no basis set is stored. -/
def make (xyz : Fin 3 → R) (Z_ : R) (isotope_ : Nat)
    (mass_ isotope_mass_ charge_ multiplicity_ nelectrons_ cov_radius_ vdw_radius_ : R) :
    Atom R :=
  { basis_sets := [], Z := Z_, isotope := isotope_, mass := mass_,
    isotope_mass := isotope_mass_, charge := charge_, multiplicity := multiplicity_,
    nelectrons := nelectrons_, cov_radius := cov_radius_, vdw_radius := vdw_radius_,
    coord := fun i => xyz i }

/-- The member `Atom::add_shell`: `auto& bs=basis_sets[bs_name]; bs.push_back(shell);`. -/
def add_shell (a : Atom R) (bs_name : String) (shell : BasisShell R) : Atom R :=
  { a with basis_sets := map_index_update a.basis_sets bs_name [] (fun bs => bs ++ [shell]) }

/-- The member `Atom::get_basis`: the empty `BasisSet` when `bs_name` is not a key of
`basis_sets`, otherwise `rv.add_shell(coord.data(),shell)` for every stored shell. -/
def get_basis (a : Atom R) (bs_name : String) : Except Fault (BasisSet R) :=
  match a.basis_sets.lookup bs_name with
  | none => .ok BasisSet.empty
  | some shells =>
    shells.foldlM (fun rv shell => BasisSet.add_shell rv a.coord shell) BasisSet.empty

/-- The member `Atom::operator==`: the comparison of the ten tied members `Z`,
`isotope`, `mass`, `isotope_mass`, `charge`, `multiplicity`, `nelectrons`,
`cov_radius`, `vdw_radius` and `coord`, with the doubles compared as values
(`Atom.operator_eq_ieee` takes the comparison of two doubles as a parameter). -/
def operator_eq [DecidableEq R] (a rhs : Atom R) : Bool :=
  decide (a.Z = rhs.Z) && decide (a.isotope = rhs.isotope) &&
  decide (a.mass = rhs.mass) && decide (a.isotope_mass = rhs.isotope_mass) &&
  decide (a.charge = rhs.charge) && decide (a.multiplicity = rhs.multiplicity) &&
  decide (a.nelectrons = rhs.nelectrons) && decide (a.cov_radius = rhs.cov_radius) &&
  decide (a.vdw_radius = rhs.vdw_radius) &&
  decide (∀ i : Fin 3, a.coord i = rhs.coord i)

/-- The member `Atom::operator!=`. -/
def operator_ne [DecidableEq R] (a rhs : Atom R) : Bool :=
  !(operator_eq a rhs)

end Atom

variable {R : Type}

/-- The function `create_atom(xyz, Z, isonum)`; `atomic_data_.at(Z)` throws
`std::out_of_range` for an unknown `Z`, and `0.0` is the converted `0`. -/
def create_atom_isonum (conv : DoubleConv R) (tables : AtomicTables R) (xyz : Fin 3 → R)
    (Z isonum : Nat) : Except Fault (Atom R) := do
  let ai ← map_at tables.atomic_data_ Z
  let isotope_mass ← tables.isotope_mass Z isonum
  pure (Atom.make xyz (conv.of_size_t Z) isonum ai.mass isotope_mass (conv.of_size_t 0)
    ai.multiplicity (conv.of_size_t Z) ai.covradius ai.vdwradius)

/-- The function `create_atom(xyz, Z)`. -/
def create_atom (conv : DoubleConv R) (tables : AtomicTables R) (xyz : Fin 3 → R)
    (Z : Nat) : Except Fault (Atom R) := do
  let isonum ← tables.most_common_isotope Z
  create_atom_isonum conv tables xyz Z isonum

/-- The function `create_ghost`: `Atom rv=create_atom(atom.coord,0); return rv;`.  The
function is `noexcept`, so a fault of `create_atom` ends the program. -/
def create_ghost (conv : DoubleConv R) (tables : AtomicTables R) (atom : Atom R) :
    Except Fault (Atom R) :=
  create_atom conv tables atom.coord 0

/-! ## SetOfAtoms -/

/-- The class `SetOfAtoms`: the vector of atoms, the charge and the multiplicity. -/
structure SetOfAtoms (R : Type) where
  atoms_ : List (Atom R)
  charge : R
  multiplicity : R

namespace SetOfAtoms

/-- The member `SetOfAtoms::count`: `std::find(begin, end, atom) != end`, the search
comparing each stored atom with `Atom::operator==`. -/
def count [DecidableEq R] (s : SetOfAtoms R) (atom : Atom R) : Bool :=
  (s.atoms_.find? (fun x => Atom.operator_eq x atom)).isSome

/-- The member `SetOfAtoms::size`. -/
def size (s : SetOfAtoms R) : Nat :=
  s.atoms_.length

/-- The member `SetOfAtoms::insert`: `if(!count(atom)) atoms_.push_back(atom);`. -/
def insert [DecidableEq R] (s : SetOfAtoms R) (atom : Atom R) : SetOfAtoms R :=
  if !(count s atom) then { s with atoms_ := s.atoms_ ++ [atom] } else s

/-- The member `SetOfAtoms::operator[]`. -/
def get (s : SetOfAtoms R) (i : Nat) : Except Fault (Atom R) :=
  vget s.atoms_ i

end SetOfAtoms

/-- The function `get_general_basis`:
`for(ai: atoms) rv=basis_set_concatenate(rv,ai.get_basis(name));`. -/
def get_general_basis (name : String) (atoms : SetOfAtoms R) : Except Fault (BasisSet R) :=
  atoms.atoms_.foldlM (fun rv ai => do
    let b ← Atom.get_basis ai name
    pure (basis_set_concatenate rv b)) BasisSet.empty

/-- The function `get_basis`:
`for(ai: atoms) rv=basis_set_concatenate(rv,ungeneralize_basis_set(ai.get_basis(name)));`. -/
def get_basis (name : String) (atoms : SetOfAtoms R) : Except Fault (BasisSet R) :=
  atoms.atoms_.foldlM (fun rv ai => do
    let b ← Atom.get_basis ai name
    let u ← ungeneralize_basis_set b
    pure (basis_set_concatenate rv u)) BasisSet.empty

/-- The function `apply_basis_set`: on a copy of `atoms`, every atom whose converted
atomic number is a key of `bs` gets `ai.add_shell(name,si)` for each `si` of `bs.at(Z)`. -/
def apply_basis_set (conv : DoubleConv R) (name : String)
    (bs : List (Nat × List (BasisShell R))) (atoms : SetOfAtoms R) : SetOfAtoms R :=
  { atoms with atoms_ := atoms.atoms_.map (fun ai =>
      match bs.lookup (conv.to_size_t ai.Z) with
      | none => ai
      | some shells => shells.foldl (fun a si => Atom.add_shell a name si) ai) }

/-! ## Vocabulary of the statements -/

/-- The Cartesian d shell `Cart` of the unit tests. -/
def test_Cart : BasisShell Int :=
  BasisShell.make .CartesianGaussian 2 1 [31, 45, 69] [81, 26, 71]

/-- The spherical sp shell `Pure` of the unit tests. -/
def test_Pure : BasisShell Int :=
  BasisShell.make .SphericalGaussian (-1) 2 [31, 45, 69] [14, 68, 71, 91, 54, 60]

/-- The number of functions of one contraction of angular momentum `m` as the
documentation of `BasisShell::nfunctions` gives it: 3 multichoose `m` for a Cartesian
shell, `2m+1` for a pure or Slater shell. -/
def function_count (t : ShellType) (m : Nat) : Nat :=
  if t = ShellType.CartesianGaussian then (m + 1) * (m + 2) / 2 else 2 * m + 1

/-- Well-formedness of the flattened layout: `types`, `ls`, `nprims` and `ngens` have
the same length `N`, `centers` has length `3N`, `alphas` has length `Σ nprims[i]` and
`coefs` has length `Σ ngens[i]·nprims[i]`. -/
def well_formed (e : BasisSet R) : Prop :=
  e.types.length = e.ngens.length ∧ e.ls.length = e.ngens.length ∧
  e.nprims.length = e.ngens.length ∧ e.centers.length = 3 * e.ngens.length ∧
  e.alphas.length = e.nprims.sum ∧
  e.coefs.length = (List.zipWith (fun g p => g * p) e.ngens e.nprims).sum

instance (e : BasisSet R) : Decidable (well_formed e) := by
  unfold well_formed
  infer_instance

/-- The number of letters of the string of the code `l` (0 for a code outside the
table). -/
def am_letters (l : Int) : Nat :=
  match am_int2str l with
  | .ok s => s.length
  | .error _ => 0

/-- Valid codes: each `ls[i]` lies in [-5,21], and `ngens[i]` is at most the number of
letters of `ls[i]` when `ls[i] < 0`. -/
def valid_codes (e : BasisSet R) : Prop :=
  ∀ i, i < e.ngens.length →
    -5 ≤ e.ls.getD i 0 ∧ e.ls.getD i 0 ≤ 21 ∧
    (e.ls.getD i 0 < 0 → e.ngens.getD i 0 ≤ am_letters (e.ls.getD i 0))

instance (e : BasisSet R) : Decidable (valid_codes e) := by
  unfold valid_codes
  infer_instance

/-- Start `A_i = Σ_{m<i} nprims[m]` of the exponent block of shell `i`. -/
def alpha_offset (e : BasisSet R) (i : Nat) : Nat :=
  (e.nprims.take i).sum

/-- Start `C_i = Σ_{m<i} ngens[m]·nprims[m]` of the coefficient block of shell `i`. -/
def coef_offset (e : BasisSet R) (i : Nat) : Nat :=
  ((List.zipWith (fun g p => g * p) e.ngens e.nprims).take i).sum

/-- The pairs (shell `i`, contraction `j < ngens[i]`) in shell order and then
contraction order. -/
def sub_shells (e : BasisSet R) : List (Nat × Nat) :=
  (List.range e.ngens.length).flatMap (fun i =>
    (List.range (e.ngens.getD i 0)).map (fun j => (i, j)))

/-- The seven arrays of a list of encoders, laid end to end. -/
def BasisSet.flatten (bl : List (BasisSet R)) : BasisSet R :=
  { centers := bl.flatMap (fun b => b.centers),
    ngens := bl.flatMap (fun b => b.ngens),
    nprims := bl.flatMap (fun b => b.nprims),
    coefs := bl.flatMap (fun b => b.coefs),
    alphas := bl.flatMap (fun b => b.alphas),
    types := bl.flatMap (fun b => b.types),
    ls := bl.flatMap (fun b => b.ls) }

/-- The one-contraction shell that the body of the contraction loop of
`ungeneralize_basis_set` pushes for shell `shell` and contraction `cont` when
`am_2int` gives `m`: the running `offset` of the source is `alpha_offset`, for the
exponents and for the coefficients alike. -/
def emitted_shell (bs : BasisSet R) (shell cont m : Nat) : BasisSet R :=
  { ngens := [1],
    centers := (bs.centers.drop (3 * shell)).take 3,
    nprims := [bs.nprims.getD shell 0],
    types := [bs.types.getD shell default],
    ls := [Int.ofNat m],
    alphas := (bs.alphas.drop (alpha_offset bs shell)).take (bs.nprims.getD shell 0),
    coefs := (bs.coefs.drop (alpha_offset bs shell + cont * bs.nprims.getD shell 0)).take
      (bs.nprims.getD shell 0) }

/-- The value of `am_2int(l, j)` when the call returns (0 when it fails). -/
def am_2int_value (l : Int) (j : Nat) : Nat :=
  match am_2int l j with
  | .ok m => m
  | .error _ => 0

/-- The coefficient reads `bs.coefs[offset+coef]` of `ungeneralize_basis_set` for shell
`i` stay inside `coefs`: there is none, or the last one is inside. -/
def coef_reads_in_bounds (bs : BasisSet R) (i : Nat) : Prop :=
  bs.ngens.getD i 0 = 0 ∨ bs.nprims.getD i 0 = 0 ∨
  alpha_offset bs i + bs.ngens.getD i 0 * bs.nprims.getD i 0 ≤ bs.coefs.length

/-- An sp shell with two contractions over one primitive followed by an s shell with
one contraction over one primitive, both at the origin: the coefficient blocks are
`[1, 2]` and `[3]`. -/
def general_then_plain : BasisSet Int :=
  { centers := [0, 0, 0, 0, 0, 0],
    coefs := [1, 2, 3],
    alphas := [5, 6],
    nprims := [1, 1], ngens := [2, 1],
    types := [.SphericalGaussian, .SphericalGaussian],
    ls := [-1, 0] }

/-- A shell without contraction over one primitive followed by an s shell with one
contraction over one primitive, both at the origin: the only coefficient block is
`[1]`. -/
def empty_then_plain : BasisSet Int :=
  { centers := [0, 0, 0, 0, 0, 0],
    coefs := [1],
    alphas := [5, 6],
    nprims := [1, 1], ngens := [0, 1],
    types := [.SphericalGaussian, .SphericalGaussian],
    ls := [0, 0] }

/-- The encoder of the unit tests: the Cartesian d shell followed by the spherical sp
shell, both at the origin. -/
def test_bs : BasisSet Int :=
  { centers := [0, 0, 0, 0, 0, 0],
    coefs := [81, 26, 71, 14, 68, 71, 91, 54, 60],
    alphas := [31, 45, 69, 31, 45, 69],
    nprims := [3, 3], ngens := [1, 2],
    types := [.CartesianGaussian, .SphericalGaussian],
    ls := [2, -1] }

/-- The 27 recognized angular-momentum strings: the single letters in the order of
the momenta 0..21, then the combined codes. -/
def recognized_strings : List String :=
  ["s", "p", "d", "f", "g", "h", "i", "j", "k", "l", "m", "n", "o", "q", "r", "t", "u",
   "v", "w", "x", "y", "z", "sp", "spd", "spdf", "spdfg", "spdfgh"]

/-- The single letters in the order of the momenta 0..21. -/
def single_letters : List String :=
  ["s", "p", "d", "f", "g", "h", "i", "j", "k", "l", "m", "n", "o", "q", "r", "t", "u",
   "v", "w", "x", "y", "z"]

/-- An encoder whose only shell has the code -2 (spd), three contractions over one
primitive. -/
def spd_only : BasisSet Int :=
  { centers := [0, 0, 0], coefs := [1, 2, 3], alphas := [5], nprims := [1], ngens := [3],
    types := [.SphericalGaussian], ls := [-2] }

/-- An encoder whose only shell has the code 1 (p), one contraction over one
primitive. -/
def p_only : BasisSet Int :=
  { centers := [0, 0, 0], coefs := [1], alphas := [5], nprims := [1], ngens := [1],
    types := [.SphericalGaussian], ls := [1] }

/-- Element-wise equality of two sequences: the same length and the same element at
every index. -/
def elementwise_eq {α : Type} (x y : List α) : Prop :=
  x.length = y.length ∧ ∀ i, i < x.length → x[i]? = y[i]?

/-- The shells stored on the atom `a` under the basis-set name `n` (none when `n` is
not a key of `basis_sets`). -/
def Atom.shells_under (a : Atom R) (n : String) : List (BasisShell R) :=
  (a.basis_sets.lookup n).getD []

/-- The constructor condition under which `BasisSet::add_shell` reads the shell within
its storage: `nprim` exponents and at least `ngen·nprim` coefficients. -/
def BasisShell.readable (s : BasisShell R) : Prop :=
  s.alphas_.length = s.nprim ∧ s.ngen * s.nprim ≤ s.cs_.length

/-- The conversions on the integer stand-ins, ten times the double: 920 for 92.0. -/
def test_conv : DoubleConv Int :=
  { of_size_t := fun n => 10 * (n : Int), to_size_t := fun x => (x / 10).toNat }

/-- A look-up table with the entries of the ghost atom (`Z = 0`) and of uranium, the
masses and radii rounded. -/
def test_tables : AtomicTables Int :=
  { atomic_data_ := [(0, { mass := 0, multiplicity := 10, covradius := 0, vdwradius := 0 }),
      (92, { mass := 2380, multiplicity := 50, covradius := 37, vdwradius := 35 })],
    most_common_isotope := fun Z =>
      if Z = 0 then .ok 0 else if Z = 92 then .ok 238 else .error .out_of_range,
    isotope_mass := fun Z isonum =>
      if Z = 0 ∧ isonum = 0 then .ok 0
      else if Z = 92 ∧ isonum = 238 then .ok 2381 else .error .out_of_range }

/-- The uranium atom `U` of `TestAtom.cpp`, at the origin, the masses and radii
rounded. -/
def test_U : Atom Int :=
  Atom.make (fun _ => 0) 920 238 2380 2381 0 50 920 37 35

/-- A fluorine atom on the x axis, as in `TestSetOfAtoms.cpp`. -/
def test_F : Atom Int :=
  Atom.make (fun i => if i = 0 then 38 else 0) 90 19 190 190 0 20 90 11 28

/-- The shell of `TestAtom.cpp`: one contraction of three primitives. -/
def test_shell : BasisShell Int :=
  BasisShell.make .CartesianGaussian 0 1 [12, 23, 34] [10, 20, 30]

/-- The general sp shell of `TestSetOfAtoms.cpp`: two contractions of two primitives. -/
def test_general_shell : BasisShell Int :=
  BasisShell.make .CartesianGaussian (-1) 2 [30, 40] [50, 60, 70, 80]

/-- The uranium atom with the shell of `TestAtom.cpp` added under `PRIMARY`. -/
def test_U_with_shell : Atom Int :=
  test_U.add_shell "PRIMARY" test_shell

/-- A basis map: the general sp shell on uranium, as in `TestSetOfAtoms.cpp`, and a
plain shell on fluorine. -/
def test_basis : List (Nat × List (BasisShell Int)) :=
  [(9, [test_shell]), (92, [test_general_shell])]

/-- The set of the uranium atom followed by the fluorine atom. -/
def test_UF : SetOfAtoms Int :=
  { atoms_ := [test_U, test_F], charge := 0, multiplicity := 10 }

/-- The set `test_UF` with the basis `test_basis` applied under `PRIMARY`: the atom
carrying the general contraction is followed by an atom with a further shell. -/
def test_UF_with_basis : SetOfAtoms Int :=
  apply_basis_set test_conv "PRIMARY" test_basis test_UF

/-! ## Utilities.hpp with the arithmetic of a 64-bit `size_t` -/

/-- The decrement `x-1` of a 64-bit `size_t`: it wraps to `2^64-1` at zero. -/
def size_t_dec (x : Nat) : Nat :=
  (x + 18446744073709551616 - 1) % 18446744073709551616

/-- The function `binomial_coefficient<size_t>` with the arithmetic of a 64-bit `size_t`:
the decrements and the sum are taken modulo `2^64`. -/
def binomial_coefficient_size_t (n k : Nat) : Nat :=
  if k = 0 ∨ k = n then 1
  else if k > n ∨ k < 0 ∨ n < 0 then 0
  else (binomial_coefficient_size_t (size_t_dec n) (size_t_dec k) +
    binomial_coefficient_size_t (size_t_dec n) k) % 18446744073709551616
termination_by n
decreasing_by
  all_goals simp_wf
  all_goals unfold size_t_dec
  all_goals omega

/-- The function `multinomial_coefficient<size_t>` with the arithmetic of a 64-bit
`size_t`. -/
def multinomial_coefficient_size_t (n k : Nat) : Nat :=
  binomial_coefficient_size_t (size_t_dec ((n + k) % 18446744073709551616)) k

/-! ## Further encoders and sets of the statements -/

/-- An encoder whose only shell has the combined code -1 (sp) and a single contraction
over one primitive. -/
def combined_single : BasisSet Int :=
  { centers := [0, 0, 0], coefs := [1], alphas := [5], nprims := [1], ngens := [1],
    types := [.SphericalGaussian], ls := [-1] }

/-- The first shell of `general_then_plain` alone: the sp shell with two contractions
over one primitive. -/
def general_only : BasisSet Int :=
  { centers := [0, 0, 0], coefs := [1, 2], alphas := [5], nprims := [1], ngens := [2],
    types := [.SphericalGaussian], ls := [-1] }

/-- The second shell of `general_then_plain` alone: the s shell with one contraction
over one primitive. -/
def plain_only : BasisSet Int :=
  { centers := [0, 0, 0], coefs := [3], alphas := [6], nprims := [1], ngens := [1],
    types := [.SphericalGaussian], ls := [0] }

/-- The default-constructed set of atoms: no atom, charge 0.0 and multiplicity 1.0. -/
def test_default_set : SetOfAtoms Int :=
  { atoms_ := [], charge := 0, multiplicity := 10 }

/-! ## Comparisons with the `==` of doubles

`BasisSet.operator_eq` and `Atom.operator_eq` above compare values, which is the C++
comparison as long as no NaN is stored.  The definitions below take the comparison
`eq` of two doubles as a parameter: for the IEEE `==` it is symmetric but false on a
NaN, also against itself. -/

/-- The comparison `operator==` of two `std::vector`s, or of two `std::array`s, whose
elements are compared with `eq`: the same size and `eq` at every index. -/
def vector_eq {α : Type} (eq : α → α → Bool) : List α → List α → Bool
  | [], [] => true
  | x :: xs, y :: ys => eq x y && vector_eq eq xs ys
  | _, _ => false

/-- The member `BasisSet::operator==` with the comparison `eq` of doubles. -/
def BasisSet.operator_eq_ieee (eq : R → R → Bool) (a rhs : BasisSet R) : Bool :=
  vector_eq eq a.centers rhs.centers && decide (a.ngens = rhs.ngens) &&
  decide (a.nprims = rhs.nprims) && vector_eq eq a.coefs rhs.coefs &&
  vector_eq eq a.alphas rhs.alphas && decide (a.types = rhs.types) &&
  decide (a.ls = rhs.ls)

/-- The member `Atom::operator==` with the comparison `eq` of doubles. -/
def Atom.operator_eq_ieee (eq : R → R → Bool) (a rhs : Atom R) : Bool :=
  eq a.Z rhs.Z && decide (a.isotope = rhs.isotope) && eq a.mass rhs.mass &&
  eq a.isotope_mass rhs.isotope_mass && eq a.charge rhs.charge &&
  eq a.multiplicity rhs.multiplicity && eq a.nelectrons rhs.nelectrons &&
  eq a.cov_radius rhs.cov_radius && eq a.vdw_radius rhs.vdw_radius &&
  vector_eq eq [a.coord 0, a.coord 1, a.coord 2] [rhs.coord 0, rhs.coord 1, rhs.coord 2]

/-- The member `SetOfAtoms::count` with the comparison `eq` of doubles. -/
def SetOfAtoms.count_ieee (eq : R → R → Bool) (s : SetOfAtoms R) (atom : Atom R) : Bool :=
  (s.atoms_.find? (fun x => Atom.operator_eq_ieee eq x atom)).isSome

/-- The member `SetOfAtoms::insert` with the comparison `eq` of doubles. -/
def SetOfAtoms.insert_ieee (eq : R → R → Bool) (s : SetOfAtoms R) (atom : Atom R) :
    SetOfAtoms R :=
  if !(SetOfAtoms.count_ieee eq s atom) then { s with atoms_ := s.atoms_ ++ [atom] } else s

/-! ## The parsers (`BasisSetParser.hpp`, `SetOfAtomsParser.hpp`)

The headers declare the strategy classes and the two driver functions; their
implementations are modelled from the specification of the parsing protocol. -/

/-- How parsing can fail: an element symbol, a shell code or an atomic number that the
tables do not know, or a parseable line whose fields cannot be extracted. -/
inductive ParseError where
  | unknown_element
  | unknown_code
  | unknown_atomic_number
  | malformed_line
  deriving DecidableEq, Repr

/-- What the parsers take from outside the sources: the two conversions `size_t` to and
from `double`, the conversions `int` to and from `double`, the numeric reading of a
token (`std::stod`), the table from lower-case element symbols to atomic numbers
(`lut/AtomicInfo.hpp`), and the shell type that `parse_basis_set_file` gives the shells
it makes, which neither the header nor the spec states. -/
structure TextReader (R : Type) where
  conv : DoubleConv R
  of_int : Int → R
  to_int : R → Int
  stod : List Char → Option R
  symbols : List (String × Nat)
  shell_type : ShellType

/-- The lines of a text, split at the newline characters. -/
def text_lines (text : List Char) : List (List Char) :=
  let r := text.foldr (fun c (acc : List Char × List (List Char)) =>
    if c = Char.ofNat 10 then ([], acc.1 :: acc.2) else (c :: acc.1, acc.2)) ([], [])
  r.1 :: r.2

/-- The whitespace-delimited fields of a line. -/
def line_fields (line : List Char) : List (List Char) :=
  let r := line.foldr (fun c (acc : List Char × List (List Char)) =>
    if c.isWhitespace then ([], if acc.1 = [] then acc.2 else acc.1 :: acc.2)
    else (c :: acc.1, acc.2)) ([], [])
  if r.1 = [] then r.2 else r.1 :: r.2

/-- The lookup of an element symbol, whatever its case, in the table of atomic
numbers. -/
def lookup_atomic_number (symbols : List (String × Nat)) (symbol : List Char) :
    Except ParseError Nat :=
  match symbols.lookup (String.mk (symbol.map Char.toLower)) with
  | some Z => .ok Z
  | none => .error .unknown_element

/-- The numeric reading of every field of a list; a field that is not a number makes the
line malformed. -/
def read_numbers {R : Type} (reader : TextReader R) :
    List (List Char) → Except ParseError (List R)
  | [] => .ok []
  | t :: rest =>
    match reader.stod t with
    | none => .error .malformed_line
    | some x => do
      let xs ← read_numbers reader rest
      pure (x :: xs)

/-- The first value stored under the key `key` of the fields extracted from a line. -/
def first_field {κ R : Type} [DecidableEq κ] (fields : List (κ × List R)) (key : κ) :
    Except ParseError R :=
  match fields.lookup key with
  | some (x :: _) => .ok x
  | _ => .error .malformed_line

/-- The operation `m[key]` of `std::map<size_t, T>` followed by an update of the
referenced value; the entries stay ordered by key. -/
def ordered_map_update {ν : Type} (m : List (Nat × ν)) (key : Nat) (dflt : ν) (f : ν → ν) :
    List (Nat × ν) :=
  match m with
  | [] => [(key, f dflt)]
  | (k, v) :: rest =>
    if key = k then (k, f v) :: rest
    else if key < k then (key, f dflt) :: (k, v) :: rest
    else (k, v) :: ordered_map_update rest key dflt f

/-- The enumeration `BasisSetFileParser::action_type`. -/
inductive BasisSetFileParser.action_type where
  | none
  | new_atom
  | new_shell
  | same_shell
  deriving DecidableEq, Repr

/-- The enumeration `BasisSetFileParser::data_type`. -/
inductive BasisSetFileParser.data_type where
  | exponent
  | coefficient
  | angular_momentum
  | Z
  deriving DecidableEq, Repr

/-- The abstract class `BasisSetFileParser`: the two virtual members. -/
structure BasisSetFileParser (R : Type) where
  worth_parsing : List Char → BasisSetFileParser.action_type
  parse : List Char → Except ParseError (List (BasisSetFileParser.data_type × List R))

/-- Modelled from the spec: the member `G94::worth_parsing`, whose implementation is not
among the sources.  Blank lines, comment lines (starting with `!`) and the line `****`
are not worth parsing; `<ElementSymbol> 0` starts an atom; `<ShellLetters> <nprim>
<scale>` starts a shell; a line starting with a number continues the shell. -/
def G94.worth_parsing (line : List Char) : BasisSetFileParser.action_type :=
  match line_fields line with
  | [] => .none
  | first :: rest =>
    match first with
    | [] => .none
    | c :: _ =>
      if c = '!' then .none
      else if first = ['*', '*', '*', '*'] ∧ rest = [] then .none
      else if c.isAlpha then
        (if rest.length = 1 then .new_atom
         else if rest.length = 2 then .new_shell else .none)
      else .same_shell

/-- Modelled from the spec: the member `G94::parse`, whose implementation is not among the
sources.  An atom line gives the atomic number of its element symbol; a shell line
gives the angular-momentum code of its letters; a numeric line gives its first field
as the exponent and the later fields, left to right, as the coefficients. -/
def G94.parse {R : Type} (reader : TextReader R) (line : List Char) :
    Except ParseError (List (BasisSetFileParser.data_type × List R)) :=
  match G94.worth_parsing line, line_fields line with
  | .new_atom, symbol :: _ => do
    let Z ← lookup_atomic_number reader.symbols symbol
    pure [(.Z, [reader.conv.of_size_t Z])]
  | .new_shell, letters :: _ =>
    match am_str2int (String.mk (letters.map Char.toLower)) with
    | .ok l => .ok [(.angular_momentum, [reader.of_int l])]
    | .error _ => .error .unknown_code
  | .same_shell, fields => do
    let xs ← read_numbers reader fields
    match xs with
    | exponent :: c :: cs => pure [(.exponent, [exponent]), (.coefficient, c :: cs)]
    | _ => .error .malformed_line
  | _, _ => .error .malformed_line

/-- The strategy `G94` as a `BasisSetFileParser`. -/
def G94 {R : Type} (reader : TextReader R) : BasisSetFileParser R :=
  { worth_parsing := G94.worth_parsing, parse := G94.parse reader }

/-- The shell in progress of `parse_basis_set_file`: its type, its code, its number of
contractions, its exponents and one coefficient list per contraction. -/
structure ShellAccumulator (R : Type) where
  type : ShellType
  l : Int
  ngen : Nat
  alphas : List R
  cs : List (List R)

/-- The state of `parse_basis_set_file`: the atomic number of the current atom, the shell
in progress and the output map. -/
structure BasisFileState (R : Type) where
  key : Option Nat
  shell : Option (ShellAccumulator R)
  out : List (Nat × List (BasisShell R))

/-- Modelled from the spec: the flush of the shell in progress into the output under the
current key (part of `parse_basis_set_file`): the shell is constructed from the
accumulated type, code, number of contractions, exponents and coefficient lists, the
lists one after the other. -/
def BasisFileState.flush {R : Type} (s : BasisFileState R) : BasisFileState R :=
  match s.key, s.shell with
  | some Z, some acc =>
    { s with shell := none,
             out := ordered_map_update s.out Z []
               (fun shells => shells ++
                 [BasisShell.make acc.type acc.l acc.ngen acc.alphas acc.cs.flatten]) }
  | _, _ => { s with shell := none }

/-- Modelled from the spec: what `parse_basis_set_file` does with one line.  A line not
worth parsing leaves the state untouched; an atom line flushes the shell in progress
and opens the new key; a shell line flushes and starts a shell with one coefficient
list per letter of its code; a numeric line appends its exponent and, to each
coefficient list in order, its coefficient. -/
def parse_basis_set_line {R : Type} (reader : TextReader R) (parser : BasisSetFileParser R)
    (s : BasisFileState R) (line : List Char) : Except ParseError (BasisFileState R) :=
  match parser.worth_parsing line with
  | .none => .ok s
  | .new_atom => do
    let fields ← parser.parse line
    let Z ← first_field fields .Z
    pure { s.flush with key := some (reader.conv.to_size_t Z) }
  | .new_shell => do
    let fields ← parser.parse line
    let l ← first_field fields .angular_momentum
    match s.key, am_int2str (reader.to_int l) with
    | some _, .ok letters =>
      pure { s.flush with
        shell := some { type := reader.shell_type, l := reader.to_int l,
                        ngen := letters.length, alphas := [],
                        cs := List.replicate letters.length [] } }
    | none, _ => .error .malformed_line
    | _, .error _ => .error .unknown_code
  | .same_shell => do
    let fields ← parser.parse line
    let exponent ← first_field fields .exponent
    match s.shell, fields.lookup .coefficient with
    | some acc, some coefs =>
      if coefs.length = acc.ngen then
        pure { s with
          shell := some { acc with alphas := acc.alphas ++ [exponent],
                                   cs := List.zipWith (fun row c => row ++ [c]) acc.cs coefs } }
      else .error .malformed_line
    | _, _ => .error .malformed_line

/-- Modelled from the spec: the driver `parse_basis_set_file` on the lines of a stream;
the end of the stream flushes the shell in progress. -/
def parse_basis_set_lines {R : Type} (reader : TextReader R) (parser : BasisSetFileParser R)
    (lines : List (List Char)) : Except ParseError (List (Nat × List (BasisShell R))) := do
  let s ← lines.foldlM (parse_basis_set_line reader parser)
    { key := none, shell := none, out := [] }
  pure s.flush.out

/-- Modelled from the spec: the function `parse_basis_set_file`, whose implementation is
not among the sources; the stream is the text it holds. -/
def parse_basis_set_file {R : Type} (reader : TextReader R) (is : String)
    (parser : BasisSetFileParser R) : Except ParseError (List (Nat × List (BasisShell R))) :=
  parse_basis_set_lines reader parser (text_lines is.data)

/-- The enumeration `SetOfAtomsFileParser::action_type`. -/
inductive SetOfAtomsFileParser.action_type where
  | none
  | new_atom
  | same_atom
  | overall_system
  deriving DecidableEq, Repr

/-- The enumeration `SetOfAtomsFileParser::data_type`. -/
inductive SetOfAtomsFileParser.data_type where
  | AtNum
  | x
  | y
  | z
  | charge
  | multiplicity
  deriving DecidableEq, Repr

/-- The abstract class `SetOfAtomsFileParser`: the two virtual members. -/
structure SetOfAtomsFileParser (R : Type) where
  worth_parsing : List Char → SetOfAtomsFileParser.action_type
  parse : List Char → Except ParseError (List (SetOfAtomsFileParser.data_type × List R))

/-- Modelled from the spec: the member `XYZParser::worth_parsing`, whose implementation is
not among the sources.  A blank line is skipped, a line of two fields has the shape of
the line of the system (charge and multiplicity), and every other line is an atom
line.  The member is a function of the line alone: that only the first parsed line is
the line of the system is kept by `parse_SetOfAtoms_line`. -/
def XYZParser.worth_parsing (line : List Char) : SetOfAtomsFileParser.action_type :=
  match line_fields line with
  | [] => .none
  | [_, _] => .overall_system
  | _ => .new_atom

/-- Modelled from the spec: the member `XYZParser::parse`, whose implementation is not
among the sources.  The line of the system gives the charge and the multiplicity; an
atom line gives the atomic number, looked up from the element symbol whatever its case
or read as a number, and the three coordinates as given; a line with another number
of fields, or with a field that cannot be read, is malformed. -/
def XYZParser.parse {R : Type} (reader : TextReader R) (line : List Char) :
    Except ParseError (List (SetOfAtomsFileParser.data_type × List R)) :=
  match line_fields line with
  | [c, m] => do
    let xs ← read_numbers reader [c, m]
    match xs with
    | [charge, multiplicity] => pure [(.charge, [charge]), (.multiplicity, [multiplicity])]
    | _ => .error .malformed_line
  | [symbol, x, y, z] => do
    let AtNum ←
      match symbol with
      | c :: _ =>
        if c.isAlpha then do
          let Z ← lookup_atomic_number reader.symbols symbol
          pure (reader.conv.of_size_t Z)
        else
          match reader.stod symbol with
          | some v => pure v
          | none => .error .malformed_line
      | [] => .error .malformed_line
    let xs ← read_numbers reader [x, y, z]
    match xs with
    | [vx, vy, vz] => pure [(.AtNum, [AtNum]), (.x, [vx]), (.y, [vy]), (.z, [vz])]
    | _ => .error .malformed_line
  | _ => .error .malformed_line

/-- The strategy `XYZParser` as a `SetOfAtomsFileParser`. -/
def XYZParser {R : Type} (reader : TextReader R) : SetOfAtomsFileParser R :=
  { worth_parsing := XYZParser.worth_parsing, parse := XYZParser.parse reader }

/-- The three coordinates as a `std::array<double,3>`. -/
def array3 {R : Type} (x y z : R) : Fin 3 → R :=
  fun i => if i = 0 then x else if i = 1 then y else z

/-- The state of `parse_SetOfAtoms_file`: whether the line of the system has been read,
the fields of the atom in progress and the output set. -/
structure AtomsFileState (R : Type) where
  started : Bool
  atom : Option (List (SetOfAtomsFileParser.data_type × List R))
  out : SetOfAtoms R

/-- Modelled from the spec: the flush of the atom in progress of `parse_SetOfAtoms_file`:
the atom is made by `create_atom` from its three coordinates and its atomic number
and inserted into the output set by `SetOfAtoms::insert`, which compares doubles with
`eq`. -/
def AtomsFileState.flush {R : Type} (reader : TextReader R) (eq : R → R → Bool)
    (tables : AtomicTables R) (s : AtomsFileState R) :
    Except ParseError (AtomsFileState R) :=
  match s.atom with
  | none => .ok s
  | some fields => do
    let AtNum ← first_field fields .AtNum
    let x ← first_field fields .x
    let y ← first_field fields .y
    let z ← first_field fields .z
    match create_atom reader.conv tables (array3 x y z) (reader.conv.to_size_t AtNum) with
    | .ok a => pure { s with atom := none, out := SetOfAtoms.insert_ieee eq s.out a }
    | .error _ => .error .unknown_atomic_number

/-- Modelled from the spec: what `parse_SetOfAtoms_file` does with one line.  A skipped
line leaves the state untouched.  The first parsed line is the line of the system: its
charge and multiplicity are written to the output, and a first parsed line of another
shape is malformed.  Every later parsed line is an atom line: it flushes the atom in
progress and starts a new one, and a later line with the shape of the line of the
system is an atom line with a wrong number of fields, hence malformed. -/
def parse_SetOfAtoms_line {R : Type} (reader : TextReader R) (eq : R → R → Bool)
    (tables : AtomicTables R) (parser : SetOfAtomsFileParser R) (s : AtomsFileState R)
    (line : List Char) : Except ParseError (AtomsFileState R) :=
  match parser.worth_parsing line with
  | .none => .ok s
  | .overall_system =>
    if s.started then .error .malformed_line
    else do
      let fields ← parser.parse line
      let charge ← first_field fields .charge
      let multiplicity ← first_field fields .multiplicity
      pure { s with started := true,
                    out := { s.out with charge := charge, multiplicity := multiplicity } }
  | .new_atom =>
    if s.started then do
      let fields ← parser.parse line
      let s1 ← s.flush reader eq tables
      pure { s1 with atom := some fields }
    else .error .malformed_line
  | .same_atom =>
    if s.started then do
      let fields ← parser.parse line
      pure { s with atom := some ((s.atom.getD []) ++ fields) }
    else .error .malformed_line

/-- Modelled from the spec: the driver `parse_SetOfAtoms_file` on the lines of a stream;
the output starts as the default-constructed set (charge 0, multiplicity 1), and the
end of the stream flushes the atom in progress. -/
def parse_SetOfAtoms_lines {R : Type} (reader : TextReader R) (eq : R → R → Bool)
    (tables : AtomicTables R) (parser : SetOfAtomsFileParser R)
    (lines : List (List Char)) : Except ParseError (SetOfAtoms R) := do
  let s ← lines.foldlM (parse_SetOfAtoms_line reader eq tables parser)
    { started := false, atom := none,
      out := { atoms_ := [], charge := reader.conv.of_size_t 0,
               multiplicity := reader.conv.of_size_t 1 } }
  let s1 ← s.flush reader eq tables
  pure s1.out

/-- Modelled from the spec: the function `parse_SetOfAtoms_file`, whose implementation is
not among the sources; the stream is the text it holds. -/
def parse_SetOfAtoms_file {R : Type} (reader : TextReader R) (eq : R → R → Bool)
    (tables : AtomicTables R) (is : String) (parser : SetOfAtomsFileParser R) :
    Except ParseError (SetOfAtoms R) :=
  parse_SetOfAtoms_lines reader eq tables parser (text_lines is.data)

/-! ## Inputs of the parser statements -/

/-- An exact decimal number `mantissa · 10^(-scale)` with the trailing zeros of its
fraction removed: the stand-in for the doubles that the parser tests read. -/
structure Decimal where
  mantissa : Int
  scale : Nat
  deriving DecidableEq, Repr

/-- The number written by a list of decimal digits. -/
def digits_value (ds : List Char) : Option Nat :=
  ds.foldl (fun acc c =>
    match acc with
    | none => none
    | some n => if c.isDigit then some (10 * n + (c.toNat - 48)) else none) (some 0)

/-- The decimal number written by a token: an optional sign, digits, and an optional
point followed by digits. -/
def read_decimal (t : List Char) : Option Decimal :=
  let negative := t.head? = some '-'
  let body := if t.head? = some '-' ∨ t.head? = some '+' then t.tail else t
  let whole := body.takeWhile (fun c => c ≠ '.')
  let fraction := ((body.dropWhile (fun c => c ≠ '.')).tail.reverse.dropWhile
    (fun c => c = '0')).reverse
  if whole = [] ∧ (body.dropWhile (fun c => c ≠ '.')).tail = [] then none
  else
    match digits_value whole, digits_value fraction with
    | some i, some f =>
      some { mantissa := (if negative then -1 else 1) *
               ((i * 10 ^ fraction.length + f : Nat) : Int),
             scale := fraction.length }
    | _, _ => none

/-- The reader of the parser tests: exact decimals, a table with the symbols of
hydrogen, helium and carbon, and `SphericalGaussian`, the type of every shell that the
unit test of the parser expects. -/
def test_reader : TextReader Decimal :=
  { conv := { of_size_t := fun n => { mantissa := (n : Int), scale := 0 },
              to_size_t := fun d => (d.mantissa / ((10 ^ d.scale : Nat) : Int)).toNat },
    of_int := fun l => { mantissa := l, scale := 0 },
    to_int := fun d => d.mantissa / ((10 ^ d.scale : Nat) : Int),
    stod := read_decimal,
    symbols := [("h", 1), ("he", 2), ("c", 6)],
    shell_type := .SphericalGaussian }

/-- A look-up table with the entry of helium, the masses and radii rounded. -/
def test_tables_He : AtomicTables Decimal :=
  { atomic_data_ := [(2, { mass := { mantissa := 4003, scale := 3 },
                           multiplicity := { mantissa := 1, scale := 0 },
                           covradius := { mantissa := 53, scale := 2 },
                           vdwradius := { mantissa := 265, scale := 2 } })],
    most_common_isotope := fun Z => if Z = 2 then .ok 4 else .error .out_of_range,
    isotope_mass := fun Z isonum =>
      if Z = 2 ∧ isonum = 4 then .ok { mantissa := 4003, scale := 3 }
      else .error .out_of_range }

/-- The text `g94_example` of `TestBasisSetParser.cpp`. -/
def g94_example : String :=
  "! Elements                             References\n" ++
  "! --------                             ----------\n" ++
  "! Ca     : J. Koput and K.A. Peterson, J. Phys. Chem. A, 106, 9595 (2002).\n" ++
  "! \n" ++
  "\n" ++
  "****\n" ++
  "H     0 \n" ++
  "S   3   1.00\n" ++
  "     13.0100000              0.0196850        \n" ++
  "      1.9620000              0.1379770        \n" ++
  "      0.4446000              0.4781480        \n" ++
  "S   1   1.00\n" ++
  "      0.1220000              1.0000000        \n" ++
  "****\n" ++
  "C     0 \n" ++
  "S   8   1.00\n" ++
  "   6665.0000000              0.0006920        \n" ++
  "   1000.0000000              0.0053290        \n" ++
  "    228.0000000              0.0270770        \n" ++
  "     64.7100000              0.1017180        \n" ++
  "     21.0600000              0.2747400        \n" ++
  "      7.4950000              0.4485640        \n" ++
  "      2.7970000              0.2850740        \n" ++
  "      0.5215000              0.0152040        \n" ++
  "D   1   1.00\n" ++
  "      0.1510000              1.0000000        \n" ++
  "SP   1   1.00\n" ++
  "    0.1687144              1.0000000              1.0000000 \n" ++
  "****\n" ++
  "\n" ++
  "\n" ++
  "\n"

/-- The text `xyz_example` of `TestSetOfAtomsParser.cpp`. -/
def xyz_example : String :=
  " -6.7 3\n" ++
  "         He 0.1 .1 0.0    \n" ++
  " HE 1.1 0.1 0.0\n"

/-! ## BasisSet::max_am with the arithmetic of a 32-bit `int` -/

/-- The value that an `int` expression with the mathematical result `x` takes when the
result does not fit: the two's-complement wrap to 32 bits (the overflow is undefined
behaviour in C++; this is what the usual targets compute). -/
def int_wrap (x : Int) : Int :=
  (x + 2147483648) % 4294967296 - 2147483648

/-- The conversion of an `int` to a 64-bit `size_t`: the value modulo `2^64`. -/
def size_t_of_int (x : Int) : Nat :=
  (x % 18446744073709551616).toNat

/-- The member `BasisSet::max_am` with the arithmetic of the machine types: the product
`-1*min` is an `int` and the returned `int` is converted to `size_t`. -/
def BasisSet.max_am_int (bs : BasisSet R) : Except Fault Nat :=
  match min_element bs.ls with
  | none => .error .undefined
  | some min =>
    match max_element bs.ls with
    | none => .error .undefined
    | some max =>
      .ok (size_t_of_int (if min < 0 then std_max (int_wrap (-1 * min)) max else max))

/-! ## Inputs of the statements on machine arithmetic and on the comparison of doubles -/

/-- An encoder whose only shell has the smallest `int`, -2147483648, as its code. -/
def int_min_only : BasisSet Int :=
  { centers := [0, 0, 0], coefs := [1], alphas := [5], nprims := [1], ngens := [1],
    types := [.SphericalGaussian], ls := [-2147483648] }

/-- A stand-in for `double` that has a NaN: the NaN or a number. -/
inductive Dbl where
  | nan
  | num (x : Int)
  deriving DecidableEq, Repr

/-- The IEEE `==` on the stand-in: equality of two numbers, false when either side is
the NaN. -/
def Dbl.ieee_eq : Dbl → Dbl → Bool
  | .num x, .num y => decide (x = y)
  | _, _ => false

/-- An encoder with one s shell over one primitive whose coefficient is a NaN. -/
def nan_encoder : BasisSet Dbl :=
  { centers := [.num 0, .num 0, .num 0], coefs := [.nan], alphas := [.num 5],
    nprims := [1], ngens := [1], types := [.SphericalGaussian], ls := [0] }

/-- An atom at the origin whose mass is a NaN. -/
def nan_atom : Atom Dbl :=
  Atom.make (fun _ => .num 0) (.num 920) 238 .nan (.num 2381) (.num 0) (.num 50) (.num 920)
    (.num 37) (.num 35)

/-- The set without atoms over the stand-in with a NaN. -/
def nan_default_set : SetOfAtoms Dbl :=
  { atoms_ := [], charge := .num 0, multiplicity := .num 10 }

/-- An atom with the fractional nuclear charge 9.5, at the origin, without basis set. -/
def test_fractional : Atom Int :=
  Atom.make (fun _ => 0) 95 19 190 190 0 20 95 11 28

/-- The set that holds the atom with the fractional nuclear charge only. -/
def test_fractional_set : SetOfAtoms Int :=
  { atoms_ := [test_fractional], charge := 0, multiplicity := 10 }

/-! ## Well-formed texts of the parser statements -/

/-- A numeric line of a Gaussian94 shell: the line, and the exponent and the
coefficients that it holds. -/
structure G94Prim (R : Type) where
  line : List Char
  exponent : R
  coefs : List R

/-- A shell of a Gaussian94 text: its first line, the code and the number of letters of
its shell letters, and its numeric lines in file order. -/
structure G94Shell (R : Type) where
  line : List Char
  l : Int
  ngen : Nat
  prims : List (G94Prim R)

/-- An element block of a Gaussian94 text: its first line, the atomic number of its
element symbol, and its shells in file order. -/
structure G94Atom (R : Type) where
  line : List Char
  Z : Nat
  shells : List (G94Shell R)

/-- The lines of a shell: its first line and then its numeric lines. -/
def G94Shell.lines (sh : G94Shell R) : List (List Char) :=
  sh.line :: sh.prims.map (fun p => p.line)

/-- The lines of an element block: its first line and then the lines of its shells. -/
def G94Atom.lines (a : G94Atom R) : List (List Char) :=
  a.line :: a.shells.flatMap (fun sh => sh.lines)

/-- The shell that the numeric lines of a Gaussian94 shell describe: the exponents are
the first fields in file order, and the coefficients are stored row by row, the row
of contraction `j` being the field `j` after the exponent of every line in file
order. -/
def G94Shell.shell (reader : TextReader R) (sh : G94Shell R) : BasisShell R :=
  BasisShell.make reader.shell_type sh.l sh.ngen (sh.prims.map (fun p => p.exponent))
    ((List.range sh.ngen).map (fun j => sh.prims.filterMap (fun p => p.coefs[j]?))).flatten

/-- A line of the form `<ElementSymbol> 0` whose symbol the table gives the atomic number
`Z`: two fields, the first starting with a letter. -/
def G94.is_atom_line (reader : TextReader R) (line : List Char) (Z : Nat) : Prop :=
  ∃ c symbol zero, line_fields line = [c :: symbol, zero] ∧ c.isAlpha = true ∧
    lookup_atomic_number reader.symbols (c :: symbol) = .ok Z

/-- A line of the form `<ShellLetters> <nprim> <scale>` whose letters, whatever their
case, are the string of the code `l`: three fields, the first starting with a letter;
`ngen` is the number of letters. -/
def G94.is_shell_line (line : List Char) (l : Int) (ngen : Nat) : Prop :=
  ∃ c letters nprim scale, line_fields line = [c :: letters, nprim, scale] ∧
    c.isAlpha = true ∧
    am_str2int (String.mk ((c :: letters).map Char.toLower)) = .ok l ∧
    ngen = (c :: letters).length

/-- A numeric line: its first field starts with a character that is no letter, no `!` and
no `*`, and its fields read as the exponent followed by at least one coefficient. -/
def G94.is_prim_line (reader : TextReader R) (line : List Char) (exponent : R)
    (coefs : List R) : Prop :=
  ∃ c first rest, line_fields line = (c :: first) :: rest ∧ c.isAlpha = false ∧
    c ≠ '!' ∧ c ≠ '*' ∧
    read_numbers reader ((c :: first) :: rest) = .ok (exponent :: coefs) ∧ coefs ≠ []

/-- A well-formed element block: its first line is an atom line, the first line of every
shell is a shell line, and every numeric line of a shell holds one exponent and one
coefficient per letter of the shell. -/
def G94Atom.valid (reader : TextReader R) (a : G94Atom R) : Prop :=
  G94.is_atom_line reader a.line a.Z ∧
  ∀ sh, sh ∈ a.shells → G94.is_shell_line sh.line sh.l sh.ngen ∧
    ∀ p, p ∈ sh.prims → G94.is_prim_line reader p.line p.exponent p.coefs ∧
      p.coefs.length = sh.ngen

/-- The keys of a map are in increasing order. -/
def keys_increasing {ν : Type} (m : List (Nat × ν)) : Prop :=
  (m.map Prod.fst).Pairwise (fun a b => a < b)

/-- The shells that the element blocks of a Gaussian94 text give the atomic number `Z`:
the shells of every block of that number, in file order. -/
def G94.shells_of (reader : TextReader R) (doc : List (G94Atom R)) (Z : Nat) :
    List (BasisShell R) :=
  (doc.filter (fun a => decide (a.Z = Z))).flatMap
    (fun a => a.shells.map (fun sh => sh.shell reader))

/-- An element block with one general contraction over two primitives: the lines
`H 0`, `SP 2 1.00`, `0.5 1.0 -2.0` and `0.25 3.0 4.0`. -/
def sp_block : G94Atom Decimal :=
  { line := "H     0 ".data, Z := 1,
    shells := [{ line := "SP   2   1.00".data, l := -1, ngen := 2,
                 prims := [{ line := "      0.5000000     1.0000000    -2.0000000 ".data,
                             exponent := ⟨5, 1⟩, coefs := [⟨1, 0⟩, ⟨-2, 0⟩] },
                           { line := "      0.2500000     3.0000000     4.0000000 ".data,
                             exponent := ⟨25, 2⟩, coefs := [⟨3, 0⟩, ⟨4, 0⟩] }] }] }

/-- An atom line of an XYZ text: the line, the atomic number and the three coordinates
that it holds, and the atom that `create_atom` makes of them. -/
structure XYZAtomLine (R : Type) where
  line : List Char
  Z : Nat
  x : R
  y : R
  z : R
  atom : Atom R

/-- The line of the system: two fields that read as the charge and the multiplicity. -/
def XYZParser.is_system_line (reader : TextReader R) (line : List Char)
    (charge multiplicity : R) : Prop :=
  ∃ tc tm, line_fields line = [tc, tm] ∧ reader.stod tc = some charge ∧
    reader.stod tm = some multiplicity

/-- An atom line: four fields, the first an element symbol that the table gives the
atomic number `Z` or a number that converts to `Z`, the other three reading as the
coordinates. -/
def XYZParser.is_atom_line (reader : TextReader R) (line : List Char) (Z : Nat)
    (x y z : R) : Prop :=
  ∃ c symbol tx ty tz, line_fields line = [c :: symbol, tx, ty, tz] ∧
    ((c.isAlpha = true ∧ lookup_atomic_number reader.symbols (c :: symbol) = .ok Z) ∨
     (c.isAlpha = false ∧
       ∃ v, reader.stod (c :: symbol) = some v ∧ reader.conv.to_size_t v = Z)) ∧
    reader.stod tx = some x ∧ reader.stod ty = some y ∧ reader.stod tz = some z

/-- A well-formed atom line whose atom `create_atom` makes. -/
def XYZAtomLine.valid (reader : TextReader R) (tables : AtomicTables R)
    (p : XYZAtomLine R) : Prop :=
  XYZParser.is_atom_line reader p.line p.Z p.x p.y p.z ∧
  create_atom reader.conv tables (array3 p.x p.y p.z) p.Z = .ok p.atom

/-- The helium atom that `create_atom` makes at the coordinates `x`, `y`, `z` with the
table `test_tables_He`. -/
def test_He (x y z : Decimal) : Atom Decimal :=
  Atom.make (array3 x y z) ⟨2, 0⟩ 4 ⟨4003, 3⟩ ⟨4003, 3⟩ ⟨0, 0⟩ ⟨1, 0⟩ ⟨2, 0⟩ ⟨53, 2⟩ ⟨265, 2⟩

/-- An atom line with three different coordinates, one of them negative and one without
a digit before the point: `he 0.1 .2 -0.3`. -/
def he_line : XYZAtomLine Decimal :=
  { line := "  he 0.1 .2 -0.3 ".data, Z := 2, x := ⟨1, 1⟩, y := ⟨2, 1⟩, z := ⟨-3, 1⟩,
    atom := test_He ⟨1, 1⟩ ⟨2, 1⟩ ⟨-3, 1⟩ }

/-- An atom line whose first field is the atomic number itself: `2 1.5 0.0 2.25`. -/
def two_line : XYZAtomLine Decimal :=
  { line := "2 1.5 0.0 2.25".data, Z := 2, x := ⟨15, 1⟩, y := ⟨0, 0⟩, z := ⟨225, 2⟩,
    atom := test_He ⟨15, 1⟩ ⟨0, 0⟩ ⟨225, 2⟩ }

/-! ## Theorems -/

theorem for_loop_zero {σ : Type} (body : Nat → σ → Except Fault σ) (s : σ) :
    for_loop body 0 s = .ok s := rfl

theorem for_loop_succ {σ : Type} (body : Nat → σ → Except Fault σ) (n : Nat) (s : σ) :
    for_loop body (n + 1) s = (for_loop body n s >>= body n) := rfl

theorem vget_eq_ok {α : Type} {v : List α} {i : Nat} {x : α} (h : v[i]? = some x) :
    vget v i = .ok x := by
  simp [vget, h]

theorem vget_lt {α : Type} (v : List α) (i : Nat) (d : α) (h : i < v.length) :
    vget v i = .ok (v.getD i d) := by
  have : v[i]? = some (v.getD i d) := by
    simp [List.getD_eq_getElem?_getD, List.getElem?_eq_getElem h]
  exact vget_eq_ok this

theorem bind_eq_ok {α β : Type} {x : Except Fault α} {f : α → Except Fault β} {b : β}
    (h : (x >>= f) = .ok b) : ∃ a, x = .ok a ∧ f a = .ok b := by
  cases x with
  | error e => simp [bind, Except.bind] at h
  | ok a => exact ⟨a, rfl, h⟩

theorem vget_ok_lt {α : Type} {v : List α} {i : Nat} {x : α} (h : vget v i = .ok x) :
    i < v.length := by
  by_contra hn
  have : v[i]? = none := List.getElem?_eq_none (by omega)
  simp [vget, this] at h

theorem am_2int_value_eq {l : Int} {j x : Nat} (h : am_2int l j = .ok x) :
    am_2int l j = .ok (am_2int_value l j) := by
  simp [am_2int_value, h]

theorem binomial_coefficient_eq_choose (n : Nat) :
    ∀ k, binomial_coefficient n k = Nat.choose n k := by
  induction n with
  | zero =>
    intro k
    rw [binomial_coefficient]
    rcases Nat.eq_zero_or_pos k with h | h
    · simp [h]
    · have h1 : ¬ (k = 0 ∨ k = 0) := by omega
      rw [if_neg h1, if_pos (by omega), Nat.choose_eq_zero_of_lt h]
  | succ n ih =>
    intro k
    rw [binomial_coefficient]
    by_cases h1 : k = 0 ∨ k = n + 1
    · rw [if_pos h1]
      rcases h1 with h | h
      · simp [h]
      · simp [h]
    · rw [if_neg h1]
      by_cases h2 : k > n + 1 ∨ k < 0 ∨ n + 1 < 0
      · rw [if_pos h2, Nat.choose_eq_zero_of_lt (by omega)]
      · rw [if_neg h2]
        obtain ⟨j, rfl⟩ : ∃ j, k = j + 1 := ⟨k - 1, by omega⟩
        simp only [Nat.add_sub_cancel, ih]
        rw [Nat.choose_succ_succ]

theorem multinomial_coefficient_three (m : Nat) :
    multinomial_coefficient 3 m = (m + 1) * (m + 2) / 2 := by
  unfold multinomial_coefficient
  rw [binomial_coefficient_eq_choose]
  have h : 3 + m - 1 = m + 2 := by omega
  rw [h, Nat.choose_symm_add, Nat.choose_two_right]
  congr 1
  simp [Nat.mul_comm]

/-! ### BasisShell::nfunctions -/

/-- C3 (evaluation at the failing input): for the Cartesian d shell of the unit tests
`nfunctions(0)` is `2·2+1 = 5`, where the documentation (3 multichoose 2) and the unit
test `Cart NFunctions` require 6. -/
theorem nfunctions_test_Cart_is_five :
    test_Cart.nfunctions 0 = .ok 5 ∧ function_count test_Cart.type 2 = 6 := by
  constructor
  · rfl
  · decide

/-- C4: when `am_2int(l, i)` is `m`, `nfunctions(i)` returns `2m+1` for a
CartesianGaussian shell and the combinatorial count `C(3+m-1, m)` for a
SphericalGaussian or Slater shell. -/
theorem nfunctions_eq (s : BasisShell R) (i m : Nat) (hm : am_2int s.l i = .ok m) :
    s.nfunctions i =
      .ok (if s.type = ShellType.CartesianGaussian then 2 * m + 1
           else Nat.choose (3 + m - 1) m) := by
  unfold BasisShell.nfunctions
  rw [hm]
  by_cases h : s.type = ShellType.CartesianGaussian
  · simp [h, bind, Except.bind, pure, Except.pure]
  · simp [h, bind, Except.bind, pure, Except.pure, multinomial_coefficient,
      binomial_coefficient_eq_choose]

theorem nfunctions_eq_witness :
    am_2int test_Pure.l 1 = .ok 1 ∧
    test_Pure.nfunctions 1 =
      .ok (if test_Pure.type = ShellType.CartesianGaussian then 2 * 1 + 1
           else Nat.choose (3 + 1 - 1) 1) :=
  ⟨rfl, nfunctions_eq test_Pure 1 1 rfl⟩

/-! ### BasisSet::size -/

theorem am_2int_nonneg (l : Int) (j : Nat) (h : 0 ≤ l) : am_2int l j = .ok l.toNat := by
  have : ¬ l < 0 := by omega
  simp [am_2int, this, pure, Except.pure]

theorem am_2int_valid (l : Int) (j : Nat) (h1 : -5 ≤ l) (h2 : l ≤ 21)
    (h3 : l < 0 → j < am_letters l) : ∃ x, am_2int l j = .ok x := by
  by_cases hl : l < 0
  · have hj := h3 hl
    interval_cases l
    · have : j < 6 := hj
      interval_cases j <;> exact ⟨_, rfl⟩
    · have : j < 5 := hj
      interval_cases j <;> exact ⟨_, rfl⟩
    · have : j < 4 := hj
      interval_cases j <;> exact ⟨_, rfl⟩
    · have : j < 3 := hj
      interval_cases j <;> exact ⟨_, rfl⟩
    · have : j < 2 := hj
      interval_cases j <;> exact ⟨_, rfl⟩
  · exact ⟨_, am_2int_nonneg l j (by omega)⟩

theorem valid_codes_am_2int (e : BasisSet R) (hv : valid_codes e) (i j : Nat)
    (hi : i < e.ngens.length) (hj : j < e.ngens.getD i 0) :
    am_2int (e.ls.getD i 0) j = .ok (am_2int_value (e.ls.getD i 0) j) := by
  obtain ⟨h1, h2, h3⟩ := hv i hi
  obtain ⟨x, hx⟩ := am_2int_valid (e.ls.getD i 0) j h1 h2 (fun h => by
    have := h3 h
    omega)
  exact am_2int_value_eq hx

theorem size_cont_loop (bs : BasisSet R) (i : Nat) (t : ShellType) (l : Int)
    (m : Nat → Nat) (ht : vget bs.types i = .ok t) (hl : vget bs.ls i = .ok l) :
    ∀ (g total : Nat), (∀ j, j < g → am_2int l j = .ok (m j)) →
      for_loop (BasisSet.size_cont bs i) g total =
        .ok (total + Finset.sum (Finset.range g) (fun j => function_count t (m j))) := by
  intro g
  induction g with
  | zero => intro total _; simp [for_loop_zero]
  | succ g ih =>
    intro total hm
    rw [for_loop_succ, ih total (fun j hj => hm j (by omega)), Finset.sum_range_succ]
    have h := hm g (by omega)
    simp only [bind, Except.bind, BasisSet.size_cont, ht, hl, h, pure, Except.pure]
    by_cases hc : t = ShellType.CartesianGaussian
    · simp [hc, function_count, multinomial_coefficient_three, Nat.add_assoc]
    · simp [hc, function_count, Nat.add_assoc]

theorem size_as_sum (e : BasisSet R) (m : Nat → Nat → Nat)
    (ht : e.ngens.length ≤ e.types.length) (hl : e.ngens.length ≤ e.ls.length)
    (hm : ∀ i j, i < e.ngens.length → j < e.ngens.getD i 0 →
      am_2int (e.ls.getD i 0) j = .ok (m i j)) :
    e.size = .ok (Finset.sum (Finset.range e.ngens.length) (fun i =>
      Finset.sum (Finset.range (e.ngens.getD i 0)) (fun j =>
        function_count (e.types.getD i default) (m i j)))) := by
  unfold BasisSet.size
  have key : ∀ n, n ≤ e.ngens.length →
      for_loop (BasisSet.size_shell e) n 0 =
        .ok (Finset.sum (Finset.range n) (fun i =>
          Finset.sum (Finset.range (e.ngens.getD i 0)) (fun j =>
            function_count (e.types.getD i default) (m i j)))) := by
    intro n
    induction n with
    | zero => intro _; simp [for_loop_zero]
    | succ n ih =>
      intro hn
      rw [for_loop_succ, ih (by omega), Finset.sum_range_succ]
      have hg := vget_lt e.ngens n 0 (by omega)
      have htn := vget_lt e.types n default (by omega)
      have hln := vget_lt e.ls n 0 (by omega)
      simp only [bind, Except.bind, BasisSet.size_shell, hg]
      exact size_cont_loop e n _ _ (m n) htn hln _ _ (fun j hj => hm n j (by omega) hj)
  exact key _ (Nat.le_refl _)

theorem size_cont_loop_inv (bs : BasisSet R) (i : Nat) (t : ShellType) (l : Int)
    (ht : vget bs.types i = .ok t) (hl : vget bs.ls i = .ok l) :
    ∀ (g total r : Nat), for_loop (BasisSet.size_cont bs i) g total = .ok r →
      ∀ j, j < g → ∃ x, am_2int l j = .ok x := by
  intro g
  induction g with
  | zero => intro total r _ j hj; omega
  | succ g ih =>
    intro total r h j hj
    rw [for_loop_succ] at h
    obtain ⟨s', hs', hbody⟩ := bind_eq_ok h
    rcases Nat.lt_succ_iff_lt_or_eq.mp hj with hlt | heq
    · exact ih total s' hs' j hlt
    · subst heq
      simp only [BasisSet.size_cont, ht, hl, bind, Except.bind] at hbody
      cases hx : am_2int l j with
      | error err => rw [hx] at hbody; simp at hbody
      | ok x => exact ⟨x, rfl⟩

/-- When `size()` returns, every `am_2int` call it made returned. -/
theorem size_ok_inv (e : BasisSet R) (r : Nat)
    (ht : e.ngens.length ≤ e.types.length) (hl : e.ngens.length ≤ e.ls.length)
    (h : e.size = .ok r) :
    ∀ i j, i < e.ngens.length → j < e.ngens.getD i 0 →
      am_2int (e.ls.getD i 0) j = .ok (am_2int_value (e.ls.getD i 0) j) := by
  have key : ∀ n r, n ≤ e.ngens.length → for_loop (BasisSet.size_shell e) n 0 = .ok r →
      ∀ i j, i < n → j < e.ngens.getD i 0 → ∃ x, am_2int (e.ls.getD i 0) j = .ok x := by
    intro n
    induction n with
    | zero => intro r _ _ i j hi; omega
    | succ n ih =>
      intro r hn h i j hi hj
      rw [for_loop_succ] at h
      obtain ⟨s', hs', hbody⟩ := bind_eq_ok h
      rcases Nat.lt_succ_iff_lt_or_eq.mp hi with hlt | heq
      · exact ih s' (by omega) hs' i j hlt hj
      · subst heq
        simp only [BasisSet.size_shell, vget_lt e.ngens i 0 (by omega), bind,
          Except.bind] at hbody
        exact size_cont_loop_inv e i _ _ (vget_lt e.types i default (by omega))
          (vget_lt e.ls i 0 (by omega)) _ s' r hbody j hj
  intro i j hi hj
  obtain ⟨x, hx⟩ := key _ r (Nat.le_refl _) h i j hi hj
  exact am_2int_value_eq hx

/-- C5: for a well-formed encoder with codes in [-5,21], the value of `size()` is the
sum over shells `i` and contractions `j < ngens[i]` of `(m+1)(m+2)/2` when `types[i]`
is CartesianGaussian and of `2m+1` otherwise, `m` being `am_2int(ls[i], j)`; the call
returns when no `ngens[i]` exceeds the number of letters of a negative `ls[i]`. -/
theorem size_eq_sum (e : BasisSet R) (hwf : well_formed e)
    (_hcodes : ∀ l, l ∈ e.ls → -5 ≤ l ∧ l ≤ 21) :
    (valid_codes e → ∃ n, e.size = .ok n) ∧
    ∀ n, e.size = .ok n →
      (∀ i j, i < e.ngens.length → j < e.ngens.getD i 0 →
        am_2int (e.ls.getD i 0) j = .ok (am_2int_value (e.ls.getD i 0) j)) ∧
      n = Finset.sum (Finset.range e.ngens.length) (fun i =>
        Finset.sum (Finset.range (e.ngens.getD i 0)) (fun j =>
          if e.types.getD i default = ShellType.CartesianGaussian
          then (am_2int_value (e.ls.getD i 0) j + 1) *
                (am_2int_value (e.ls.getD i 0) j + 2) / 2
          else 2 * am_2int_value (e.ls.getD i 0) j + 1)) := by
  have ht : e.ngens.length ≤ e.types.length := by rw [hwf.1]
  have hl : e.ngens.length ≤ e.ls.length := by rw [hwf.2.1]
  refine ⟨fun hv => ⟨_, size_as_sum e _ ht hl (valid_codes_am_2int e hv)⟩, ?_⟩
  intro n h
  have hm := size_ok_inv e n ht hl h
  refine ⟨hm, ?_⟩
  rw [size_as_sum e _ ht hl hm] at h
  injection h with h
  rw [← h]
  rfl

theorem size_eq_sum_witness :
    well_formed test_bs ∧ (∀ l, l ∈ test_bs.ls → -5 ≤ l ∧ l ≤ 21) ∧
    test_bs.size = .ok 10 := by
  have h := size_eq_sum test_bs (by decide) (by decide)
  obtain ⟨n, hn⟩ := h.1 (by decide)
  refine ⟨by decide, by decide, ?_⟩
  rw [hn, (h.2 n hn).2]
  exact congrArg Except.ok (by decide)

/-! ### BasisSet::add_shell -/

theorem take_succ_drop {α : Type} (v : List α) (a n : Nat) (x : α)
    (h : v[a + n]? = some x) :
    List.take (n + 1) (List.drop a v) = List.take n (List.drop a v) ++ [x] := by
  rw [List.take_succ, List.getElem?_drop, h]
  rfl

theorem getElem?_of_lt {α : Type} (v : List α) (i : Nat) (h : i < v.length) :
    ∃ x, v[i]? = some x :=
  ⟨v[i], List.getElem?_eq_getElem h⟩

theorem add_shell_center_loop (center : Fin 3 → R) (bs : BasisSet R) :
    for_loop (BasisSet.add_shell_center center) 3 bs =
      .ok { bs with centers := bs.centers ++ [center 0, center 1, center 2] } := by
  simp [for_loop, BasisSet.add_shell_center, bind, Except.bind]

theorem add_shell_alpha_loop (s : BasisShell R) :
    ∀ (n : Nat) (bs : BasisSet R), n ≤ s.alphas_.length →
      for_loop (BasisSet.add_shell_alpha s) n bs =
        .ok { bs with alphas := bs.alphas ++ s.alphas_.take n } := by
  intro n
  induction n with
  | zero => intro bs _; simp [for_loop_zero]
  | succ n ih =>
    intro bs hn
    obtain ⟨x, hx⟩ := getElem?_of_lt s.alphas_ n (by omega)
    have ht := take_succ_drop s.alphas_ 0 n x (by simpa using hx)
    simp only [List.drop_zero] at ht
    rw [for_loop_succ, ih bs (by omega), ht]
    simp [bind, Except.bind, BasisSet.add_shell_alpha, BasisShell.alpha,
      vget_eq_ok hx, pure, Except.pure]

theorem add_shell_coef_loop (s : BasisShell R) (i : Nat) :
    ∀ (n : Nat) (bs : BasisSet R), i * s.nprim + n ≤ s.cs_.length →
      for_loop (BasisSet.add_shell_coef s i) n bs =
        .ok { bs with coefs := bs.coefs ++ (s.cs_.drop (i * s.nprim)).take n } := by
  intro n
  induction n with
  | zero => intro bs _; simp [for_loop_zero]
  | succ n ih =>
    intro bs hn
    obtain ⟨x, hx⟩ := getElem?_of_lt s.cs_ (i * s.nprim + n) (by omega)
    rw [for_loop_succ, ih bs (by omega), take_succ_drop s.cs_ (i * s.nprim) n x hx]
    simp [bind, Except.bind, BasisSet.add_shell_coef, BasisShell.coef,
      vget_eq_ok hx, pure, Except.pure]

theorem add_shell_coefs_loop (s : BasisShell R) :
    ∀ (n : Nat) (bs : BasisSet R), n * s.nprim ≤ s.cs_.length →
      for_loop (fun i b => for_loop (BasisSet.add_shell_coef s i) s.nprim b) n bs =
        .ok { bs with coefs := bs.coefs ++ s.cs_.take (n * s.nprim) } := by
  intro n
  induction n with
  | zero => intro bs _; simp [for_loop_zero]
  | succ n ih =>
    intro bs hn
    have h1 : (n + 1) * s.nprim = n * s.nprim + s.nprim := by ring
    rw [for_loop_succ, ih bs (by omega)]
    simp only [bind, Except.bind]
    rw [add_shell_coef_loop s n s.nprim _ (by omega), h1, List.take_add]
    simp

theorem add_shell_eq (e : BasisSet R) (center : Fin 3 → R) (s : BasisShell R)
    (hp : s.alphas_.length = s.nprim) (hc : s.ngen * s.nprim ≤ s.cs_.length) :
    e.add_shell center s =
      .ok { centers := e.centers ++ [center 0, center 1, center 2],
            alphas := e.alphas ++ s.alphas_,
            coefs := e.coefs ++ s.cs_.take (s.ngen * s.nprim),
            ls := e.ls ++ [s.l],
            nprims := e.nprims ++ [s.nprim],
            ngens := e.ngens ++ [s.ngen],
            types := e.types ++ [s.type] } := by
  unfold BasisSet.add_shell
  simp only [bind, Except.bind, add_shell_center_loop]
  rw [add_shell_alpha_loop s s.nprim _ (by omega)]
  simp only []
  rw [add_shell_coefs_loop s s.ngen _ hc]
  simp [pure, Except.pure, ← hp]

/-- C6: for a shell with `p = nprim` exponents and at least `g·p` stored coefficients,
`add_shell` keeps every existing element and appends the center to `centers`, the `p`
exponents to `alphas`, the first `g·p` stored coefficients to `coefs` (these are the
values `coef(i,j)` in row-major order, contraction `j` outer and primitive `i` inner),
`l` to `ls`, `p` to `nprims`, `g` to `ngens` and the type to `types`. -/
theorem add_shell_appends (e : BasisSet R) (center : Fin 3 → R) (s : BasisShell R)
    (hp : s.alphas_.length = s.nprim) (hc : s.ngen * s.nprim ≤ s.cs_.length) :
    e.add_shell center s =
      .ok { centers := e.centers ++ [center 0, center 1, center 2],
            alphas := e.alphas ++ s.alphas_,
            coefs := e.coefs ++ s.cs_.take (s.ngen * s.nprim),
            ls := e.ls ++ [s.l],
            nprims := e.nprims ++ [s.nprim],
            ngens := e.ngens ++ [s.ngen],
            types := e.types ++ [s.type] } ∧
    (s.cs_.take (s.ngen * s.nprim)).length = s.ngen * s.nprim ∧
    ∀ i j, i < s.nprim → j < s.ngen →
      ∃ x, s.coef i j = .ok x ∧
        (s.cs_.take (s.ngen * s.nprim))[j * s.nprim + i]? = some x := by
  refine ⟨add_shell_eq e center s hp hc, List.length_take_of_le hc, ?_⟩
  intro i j hi hj
  have h1 : j * s.nprim + i < s.ngen * s.nprim := by
    have : (j + 1) * s.nprim ≤ s.ngen * s.nprim := Nat.mul_le_mul_right _ hj
    have h2 : (j + 1) * s.nprim = j * s.nprim + s.nprim := by ring
    omega
  obtain ⟨x, hx⟩ := getElem?_of_lt s.cs_ (j * s.nprim + i) (by omega)
  refine ⟨x, ?_, ?_⟩
  · simp [BasisShell.coef, vget_eq_ok hx]
  · rw [List.getElem?_take, if_pos h1, hx]

theorem add_shell_appends_witness :
    test_Pure.alphas_.length = test_Pure.nprim ∧
    test_Pure.ngen * test_Pure.nprim ≤ test_Pure.cs_.length ∧
    test_bs.add_shell (fun _ => 7) test_Pure =
      .ok { centers := [0, 0, 0, 0, 0, 0, 7, 7, 7],
            coefs := [81, 26, 71, 14, 68, 71, 91, 54, 60, 14, 68, 71, 91, 54, 60],
            alphas := [31, 45, 69, 31, 45, 69, 31, 45, 69],
            nprims := [3, 3, 3], ngens := [1, 2, 2],
            types := [.CartesianGaussian, .SphericalGaussian, .SphericalGaussian],
            ls := [2, -1, -1] } :=
  ⟨rfl, by decide,
    (add_shell_appends test_bs (fun _ => 7) test_Pure rfl (by decide)).1⟩

/-- C2 (evaluation at the failing input): adding the Cartesian d shell of the unit tests to
the empty encoder raises `size()` from 0 to 6, while the shell's own `nfunctions(0)`
is 5. -/
theorem size_after_add_shell_test_Cart :
    (BasisSet.empty : BasisSet Int).size = .ok 0 ∧
    ((BasisSet.empty : BasisSet Int).add_shell (fun _ => 0) test_Cart >>= BasisSet.size)
      = .ok 6 ∧
    test_Cart.nfunctions 0 = .ok 5 := by
  refine ⟨rfl, ?_, rfl⟩
  rw [add_shell_eq _ _ _ rfl (by decide)]
  simp [bind, Except.bind, BasisSet.size, for_loop, BasisSet.size_shell,
    BasisSet.size_cont, vget, BasisSet.empty, test_Cart, BasisShell.make, am_2int,
    multinomial_coefficient_three, pure, Except.pure]

/-! ### basis_set_concatenate -/

/-- C10: for two distinct objects, `basis_set_concatenate(a, b)` makes each of the
seven arrays of `a` the old array of `a` followed by the array of `b`, returns that
encoder and leaves `b` unchanged. -/
theorem basis_set_concatenate_appends (a b : BasisSet R) :
    (basis_set_concatenate_step a b).1 = basis_set_concatenate a b ∧
    (basis_set_concatenate a b).centers = a.centers ++ b.centers ∧
    (basis_set_concatenate a b).coefs = a.coefs ++ b.coefs ∧
    (basis_set_concatenate a b).alphas = a.alphas ++ b.alphas ∧
    (basis_set_concatenate a b).nprims = a.nprims ++ b.nprims ∧
    (basis_set_concatenate a b).ngens = a.ngens ++ b.ngens ∧
    (basis_set_concatenate a b).types = a.types ++ b.types ∧
    (basis_set_concatenate a b).ls = a.ls ++ b.ls ∧
    (basis_set_concatenate_step a b).2 = b :=
  ⟨rfl, rfl, rfl, rfl, rfl, rfl, rfl, rfl, rfl⟩

/-! ### ungeneralize_basis_set: the loops -/

theorem flatten_nil : BasisSet.flatten ([] : List (BasisSet R)) = BasisSet.empty := rfl

theorem flatten_singleton (b : BasisSet R) : BasisSet.flatten [b] = b := by
  cases b
  simp [BasisSet.flatten]

theorem flatten_append (xs ys : List (BasisSet R)) :
    BasisSet.flatten (xs ++ ys) =
      basis_set_concatenate (BasisSet.flatten xs) (BasisSet.flatten ys) := by
  simp [BasisSet.flatten, basis_set_concatenate, vector_cat]

theorem concatenate_empty_left (b : BasisSet R) :
    basis_set_concatenate BasisSet.empty b = b := by
  cases b
  simp [basis_set_concatenate, vector_cat, BasisSet.empty]

theorem concatenate_assoc (a b c : BasisSet R) :
    basis_set_concatenate (basis_set_concatenate a b) c =
      basis_set_concatenate a (basis_set_concatenate b c) := by
  simp [basis_set_concatenate, vector_cat]

theorem ungeneralize_center_loop (bs : BasisSet R) (shell : Nat) :
    ∀ (n : Nat) (rv : BasisSet R), 3 * shell + n ≤ bs.centers.length →
      for_loop (ungeneralize_center bs shell) n rv =
        .ok { rv with centers := rv.centers ++ (bs.centers.drop (3 * shell)).take n } := by
  intro n
  induction n with
  | zero => intro rv _; simp [for_loop_zero]
  | succ n ih =>
    intro rv hn
    obtain ⟨x, hx⟩ := getElem?_of_lt bs.centers (3 * shell + n) (by omega)
    rw [for_loop_succ, ih rv (by omega), take_succ_drop bs.centers (3 * shell) n x hx]
    simp [bind, Except.bind, ungeneralize_center, vget_eq_ok hx, pure, Except.pure]

theorem ungeneralize_prim_loop (bs : BasisSet R) (offset c0 : Nat) :
    ∀ (n : Nat) (rv : BasisSet R), offset + n ≤ bs.alphas.length →
      (n = 0 ∨ offset + c0 + n ≤ bs.coefs.length) →
      for_loop (ungeneralize_prim bs offset) n (rv, c0) =
        .ok ({ rv with
                alphas := rv.alphas ++ (bs.alphas.drop offset).take n,
                coefs := rv.coefs ++ (bs.coefs.drop (offset + c0)).take n }, c0 + n) := by
  intro n
  induction n with
  | zero => intro rv _ _; simp [for_loop_zero]
  | succ n ih =>
    intro rv ha hc
    have hc' : offset + c0 + (n + 1) ≤ bs.coefs.length := by omega
    obtain ⟨a, hxa⟩ := getElem?_of_lt bs.alphas (offset + n) (by omega)
    obtain ⟨c, hxc⟩ := getElem?_of_lt bs.coefs (offset + c0 + n) (by omega)
    rw [for_loop_succ, ih rv (by omega) (by omega),
      take_succ_drop bs.alphas offset n a hxa,
      take_succ_drop bs.coefs (offset + c0) n c hxc]
    have hxc2 : bs.coefs[offset + (c0 + n)]? = some c := by
      rw [← Nat.add_assoc]; exact hxc
    simp [bind, Except.bind, ungeneralize_prim, vget_eq_ok hxa, vget_eq_ok hxc2, pure,
      Except.pure, Nat.add_assoc]

theorem ungeneralize_prim_loop_inv (bs : BasisSet R) (offset c0 : Nat) :
    ∀ (n : Nat) (rv : BasisSet R) (t : BasisSet R × Nat),
      offset + n ≤ bs.alphas.length →
      for_loop (ungeneralize_prim bs offset) n (rv, c0) = .ok t →
      (n = 0 ∨ offset + c0 + n ≤ bs.coefs.length) := by
  intro n
  induction n with
  | zero => intro rv t _ _; exact Or.inl rfl
  | succ n ih =>
    intro rv t ha h
    rw [for_loop_succ] at h
    obtain ⟨s', hs', hbody⟩ := bind_eq_ok h
    have hn := ih rv s' (by omega) hs'
    rw [ungeneralize_prim_loop bs offset c0 n rv (by omega) hn] at hs'
    injection hs' with hs'
    subst hs'
    unfold ungeneralize_prim at hbody
    obtain ⟨a, _, hbody⟩ := bind_eq_ok hbody
    obtain ⟨c, hc, _⟩ := bind_eq_ok hbody
    have := vget_ok_lt hc
    right
    simp only at this
    omega

theorem ungeneralize_cont_eq (bs : BasisSet R) (shell cont m : Nat) (rv : BasisSet R)
    (hshell : shell < bs.ngens.length)
    (hn : bs.ngens.length ≤ bs.nprims.length) (ht : bs.ngens.length ≤ bs.types.length)
    (hl : bs.ngens.length ≤ bs.ls.length)
    (hc : 3 * shell + 3 ≤ bs.centers.length)
    (ha : alpha_offset bs shell + bs.nprims.getD shell 0 ≤ bs.alphas.length)
    (hco : bs.nprims.getD shell 0 = 0 ∨
      alpha_offset bs shell + cont * bs.nprims.getD shell 0 + bs.nprims.getD shell 0
        ≤ bs.coefs.length)
    (hm : am_2int (bs.ls.getD shell 0) cont = .ok m) :
    ungeneralize_cont bs shell (alpha_offset bs shell) cont
        (rv, cont * bs.nprims.getD shell 0) =
      .ok (basis_set_concatenate rv (emitted_shell bs shell cont m),
           (cont + 1) * bs.nprims.getD shell 0) := by
  unfold ungeneralize_cont
  simp only [bind, Except.bind]
  rw [ungeneralize_center_loop bs shell 3 _ hc]
  simp only [vget_lt bs.nprims shell 0 (by omega), vget_lt bs.types shell default (by omega),
    vget_lt bs.ls shell 0 (by omega), hm]
  rw [ungeneralize_prim_loop bs _ _ _ _ ha hco]
  have h1 : (cont + 1) * bs.nprims.getD shell 0 =
      cont * bs.nprims.getD shell 0 + bs.nprims.getD shell 0 := by ring
  rw [h1]
  simp [basis_set_concatenate, vector_cat, emitted_shell]

theorem ungeneralize_cont_inv (bs : BasisSet R) (shell cont c : Nat) (rv : BasisSet R)
    (t : BasisSet R × Nat) (hshell : shell < bs.ngens.length)
    (hn : bs.ngens.length ≤ bs.nprims.length) (ht : bs.ngens.length ≤ bs.types.length)
    (hl : bs.ngens.length ≤ bs.ls.length)
    (hc : 3 * shell + 3 ≤ bs.centers.length)
    (ha : alpha_offset bs shell + bs.nprims.getD shell 0 ≤ bs.alphas.length)
    (h : ungeneralize_cont bs shell (alpha_offset bs shell) cont (rv, c) = .ok t) :
    (∃ x, am_2int (bs.ls.getD shell 0) cont = .ok x) ∧
    (bs.nprims.getD shell 0 = 0 ∨
      alpha_offset bs shell + c + bs.nprims.getD shell 0 ≤ bs.coefs.length) := by
  unfold ungeneralize_cont at h
  simp only [bind, Except.bind] at h
  rw [ungeneralize_center_loop bs shell 3 _ hc] at h
  simp only [vget_lt bs.nprims shell 0 (by omega), vget_lt bs.types shell default (by omega),
    vget_lt bs.ls shell 0 (by omega)] at h
  cases hx : am_2int (bs.ls.getD shell 0) cont with
  | error e => rw [hx] at h; simp at h
  | ok x =>
    rw [hx] at h
    exact ⟨⟨x, rfl⟩, ungeneralize_prim_loop_inv bs _ c _ _ t ha h⟩

theorem ungeneralize_cont_loop (bs : BasisSet R) (shell : Nat) (m : Nat → Nat)
    (hshell : shell < bs.ngens.length)
    (hn : bs.ngens.length ≤ bs.nprims.length) (ht : bs.ngens.length ≤ bs.types.length)
    (hl : bs.ngens.length ≤ bs.ls.length)
    (hc : 3 * shell + 3 ≤ bs.centers.length)
    (ha : alpha_offset bs shell + bs.nprims.getD shell 0 ≤ bs.alphas.length) :
    ∀ (g : Nat) (rv : BasisSet R),
      (g = 0 ∨ bs.nprims.getD shell 0 = 0 ∨
        alpha_offset bs shell + g * bs.nprims.getD shell 0 ≤ bs.coefs.length) →
      (∀ j, j < g → am_2int (bs.ls.getD shell 0) j = .ok (m j)) →
      for_loop (ungeneralize_cont bs shell (alpha_offset bs shell)) g (rv, 0) =
        .ok (basis_set_concatenate rv
              (BasisSet.flatten ((List.range g).map (fun j =>
                emitted_shell bs shell j (m j)))),
             g * bs.nprims.getD shell 0) := by
  intro g
  induction g with
  | zero =>
    intro rv _ _
    cases rv
    simp [for_loop_zero, BasisSet.flatten, basis_set_concatenate, vector_cat]
  | succ g ih =>
    intro rv hco hm
    have h1 : (g + 1) * bs.nprims.getD shell 0 =
      g * bs.nprims.getD shell 0 + bs.nprims.getD shell 0 := by ring
    have hco' : bs.nprims.getD shell 0 = 0 ∨
        alpha_offset bs shell + (g + 1) * bs.nprims.getD shell 0 ≤ bs.coefs.length := by
      omega
    rw [for_loop_succ, ih rv (by omega) (fun j hj => hm j (by omega))]
    simp only [bind, Except.bind]
    rw [ungeneralize_cont_eq bs shell g (m g) _ hshell hn ht hl hc ha (by omega)
      (hm g (by omega))]
    rw [List.range_succ, List.map_append, flatten_append, concatenate_assoc]
    simp [flatten_singleton]

theorem ungeneralize_cont_loop_inv (bs : BasisSet R) (shell : Nat)
    (hshell : shell < bs.ngens.length)
    (hn : bs.ngens.length ≤ bs.nprims.length) (ht : bs.ngens.length ≤ bs.types.length)
    (hl : bs.ngens.length ≤ bs.ls.length)
    (hc : 3 * shell + 3 ≤ bs.centers.length)
    (ha : alpha_offset bs shell + bs.nprims.getD shell 0 ≤ bs.alphas.length) :
    ∀ (g : Nat) (rv : BasisSet R) (t : BasisSet R × Nat),
      for_loop (ungeneralize_cont bs shell (alpha_offset bs shell)) g (rv, 0) = .ok t →
      (∀ j, j < g → ∃ x, am_2int (bs.ls.getD shell 0) j = .ok x) ∧
      (g = 0 ∨ bs.nprims.getD shell 0 = 0 ∨
        alpha_offset bs shell + g * bs.nprims.getD shell 0 ≤ bs.coefs.length) := by
  intro g
  induction g with
  | zero => intro rv t _; exact ⟨fun j hj => absurd hj (by omega), Or.inl rfl⟩
  | succ g ih =>
    intro rv t h
    rw [for_loop_succ] at h
    obtain ⟨s', hs', hbody⟩ := bind_eq_ok h
    obtain ⟨ham, hco⟩ := ih rv s' hs'
    rw [ungeneralize_cont_loop bs shell (am_2int_value (bs.ls.getD shell 0)) hshell hn ht hl
      hc ha g rv hco (fun j hj => by
        obtain ⟨x, hx⟩ := ham j hj
        exact am_2int_value_eq hx)] at hs'
    injection hs' with hs'
    subst hs'
    obtain ⟨hx, hb⟩ := ungeneralize_cont_inv bs shell g _ _ t hshell hn ht hl hc ha hbody
    have h1 : (g + 1) * bs.nprims.getD shell 0 =
      g * bs.nprims.getD shell 0 + bs.nprims.getD shell 0 := by ring
    refine ⟨fun j hj => ?_, ?_⟩
    · rcases Nat.lt_succ_iff_lt_or_eq.mp hj with hlt | heq
      · exact ham j hlt
      · subst heq; exact hx
    · right
      rcases hb with hb | hb
      · exact Or.inl hb
      · right; omega

theorem sum_take_succ_getD :
    ∀ (xs : List Nat) (i : Nat), i < xs.length →
      (xs.take (i + 1)).sum = (xs.take i).sum + xs.getD i 0
  | [], i, h => by simp at h
  | x :: xs, 0, _ => by simp
  | x :: xs, i + 1, h => by
    have ih := sum_take_succ_getD xs i (by simpa using h)
    simp only [List.take_succ_cons, List.sum_cons, ih, List.getD_cons_succ]
    omega

theorem sum_take_le : ∀ (xs : List Nat) (i : Nat), (xs.take i).sum ≤ xs.sum
  | [], i => by simp
  | x :: xs, 0 => by simp
  | x :: xs, i + 1 => by
    have ih := sum_take_le xs i
    simp only [List.take_succ_cons, List.sum_cons]
    omega

theorem sum_take_le_zipWith :
    ∀ (gs ps : List Nat) (i : Nat), (∀ g, g ∈ gs → 1 ≤ g) → ps.length = gs.length →
      (ps.take i).sum ≤ ((List.zipWith (fun g p => g * p) gs ps).take i).sum
  | [], [], i, _, _ => by simp
  | [], _ :: _, _, _, h => by simp at h
  | _ :: _, [], _, _, h => by simp at h
  | g :: gs, p :: ps, 0, _, _ => by simp
  | g :: gs, p :: ps, i + 1, hpos, h => by
    have ih := sum_take_le_zipWith gs ps i (fun x hx => hpos x (by simp [hx]))
      (by simpa using h)
    have hg : 1 ≤ g := hpos g (by simp)
    have : p ≤ g * p := Nat.le_mul_of_pos_left p hg
    simp only [List.zipWith_cons_cons, List.take_succ_cons, List.sum_cons]
    omega

theorem zipWith_mul_getD :
    ∀ (gs ps : List Nat) (i : Nat), i < gs.length → i < ps.length →
      (List.zipWith (fun g p => g * p) gs ps).getD i 0 = gs.getD i 0 * ps.getD i 0
  | [], _, i, h, _ => by simp at h
  | _ :: _, [], i, _, h => by simp at h
  | g :: gs, p :: ps, 0, _, _ => by simp
  | g :: gs, p :: ps, i + 1, h1, h2 => by
    have ih := zipWith_mul_getD gs ps i (by simpa using h1) (by simpa using h2)
    simpa using ih

/-- In a well-formed encoder the center and exponent reads of
`ungeneralize_basis_set` stay inside the arrays. -/
theorem ungeneralize_in_bounds (e : BasisSet R) (hwf : well_formed e) (i : Nat)
    (hi : i < e.ngens.length) :
    3 * i + 3 ≤ e.centers.length ∧
    alpha_offset e i + e.nprims.getD i 0 ≤ e.alphas.length := by
  obtain ⟨_, _, hn, hc, ha, _⟩ := hwf
  refine ⟨by omega, ?_⟩
  have h1 := sum_take_succ_getD e.nprims i (by omega)
  have h2 := sum_take_le e.nprims (i + 1)
  unfold alpha_offset
  omega

/-- In a well-formed encoder whose shells all have at least one contraction the
coefficient reads of `ungeneralize_basis_set` stay inside `coefs`. -/
theorem coef_reads_in_bounds_of_pos (e : BasisSet R) (hwf : well_formed e)
    (hpos : ∀ g, g ∈ e.ngens → 1 ≤ g) (i : Nat) (hi : i < e.ngens.length) :
    coef_reads_in_bounds e i := by
  obtain ⟨_, _, hn, _, _, hco⟩ := hwf
  have hz : (List.zipWith (fun g p => g * p) e.ngens e.nprims).length =
      e.ngens.length := by simp [hn]
  have h1 := sum_take_succ_getD (List.zipWith (fun g p => g * p) e.ngens e.nprims) i
    (by omega)
  have h2 := sum_take_le (List.zipWith (fun g p => g * p) e.ngens e.nprims) (i + 1)
  have h3 := sum_take_le_zipWith e.ngens e.nprims i hpos hn
  have h4 := zipWith_mul_getD e.ngens e.nprims i hi (by omega)
  unfold coef_reads_in_bounds alpha_offset
  rw [h4] at h1
  right; right
  omega

theorem ungeneralize_shell_eq (bs : BasisSet R) (shell : Nat) (m : Nat → Nat)
    (rv : BasisSet R) (hshell : shell < bs.ngens.length)
    (hn : bs.ngens.length ≤ bs.nprims.length) (ht : bs.ngens.length ≤ bs.types.length)
    (hl : bs.ngens.length ≤ bs.ls.length)
    (hc : 3 * shell + 3 ≤ bs.centers.length)
    (ha : alpha_offset bs shell + bs.nprims.getD shell 0 ≤ bs.alphas.length)
    (hco : coef_reads_in_bounds bs shell)
    (hm : ∀ j, j < bs.ngens.getD shell 0 → am_2int (bs.ls.getD shell 0) j = .ok (m j)) :
    ungeneralize_shell bs shell (rv, alpha_offset bs shell) =
      .ok (basis_set_concatenate rv
            (BasisSet.flatten ((List.range (bs.ngens.getD shell 0)).map (fun j =>
              emitted_shell bs shell j (m j)))),
           alpha_offset bs (shell + 1)) := by
  unfold ungeneralize_shell
  simp only [bind, Except.bind, vget_lt bs.ngens shell 0 hshell]
  rw [ungeneralize_cont_loop bs shell m hshell hn ht hl hc ha _ rv hco hm]
  simp only [vget_lt bs.nprims shell 0 (by omega), pure, Except.pure]
  have h := sum_take_succ_getD bs.nprims shell (by omega)
  unfold alpha_offset
  rw [h]

theorem ungeneralize_shell_inv (bs : BasisSet R) (shell : Nat) (rv : BasisSet R)
    (t : BasisSet R × Nat) (hshell : shell < bs.ngens.length)
    (hn : bs.ngens.length ≤ bs.nprims.length) (ht : bs.ngens.length ≤ bs.types.length)
    (hl : bs.ngens.length ≤ bs.ls.length)
    (hc : 3 * shell + 3 ≤ bs.centers.length)
    (ha : alpha_offset bs shell + bs.nprims.getD shell 0 ≤ bs.alphas.length)
    (h : ungeneralize_shell bs shell (rv, alpha_offset bs shell) = .ok t) :
    (∀ j, j < bs.ngens.getD shell 0 → ∃ x, am_2int (bs.ls.getD shell 0) j = .ok x) ∧
    coef_reads_in_bounds bs shell := by
  unfold ungeneralize_shell at h
  simp only [vget_lt bs.ngens shell 0 hshell] at h
  obtain ⟨g, hg, h⟩ := bind_eq_ok h
  injection hg with hg
  subst hg
  obtain ⟨s', hs', _⟩ := bind_eq_ok h
  exact ungeneralize_cont_loop_inv bs shell hshell hn ht hl hc ha _ rv s' hs'

theorem ungeneralize_shell_loop (bs : BasisSet R) (m : Nat → Nat → Nat)
    (hn : bs.ngens.length ≤ bs.nprims.length) (ht : bs.ngens.length ≤ bs.types.length)
    (hl : bs.ngens.length ≤ bs.ls.length)
    (hb : ∀ i, i < bs.ngens.length →
      3 * i + 3 ≤ bs.centers.length ∧
      alpha_offset bs i + bs.nprims.getD i 0 ≤ bs.alphas.length) :
    ∀ n, n ≤ bs.ngens.length →
      (∀ i, i < n → coef_reads_in_bounds bs i) →
      (∀ i j, i < n → j < bs.ngens.getD i 0 →
        am_2int (bs.ls.getD i 0) j = .ok (m i j)) →
      for_loop (ungeneralize_shell bs) n (BasisSet.empty, 0) =
        .ok (BasisSet.flatten
              (((List.range n).flatMap (fun i =>
                  (List.range (bs.ngens.getD i 0)).map (fun j => (i, j)))).map
                (fun p => emitted_shell bs p.1 p.2 (m p.1 p.2))),
             alpha_offset bs n) := by
  intro n
  induction n with
  | zero => intro _ _ _; simp [for_loop_zero, flatten_nil, alpha_offset]
  | succ n ih =>
    intro hle hco hm
    obtain ⟨hc, ha⟩ := hb n (by omega)
    rw [for_loop_succ, ih (by omega) (fun i hi => hco i (by omega))
      (fun i j hi hj => hm i j (by omega) hj)]
    simp only [bind, Except.bind]
    rw [ungeneralize_shell_eq bs n (m n) _ (by omega) hn ht hl hc ha (hco n (by omega))
      (fun j hj => hm n j (by omega) hj)]
    rw [List.range_succ, List.flatMap_append, List.map_append, flatten_append]
    simp [List.flatMap_singleton, List.map_map, Function.comp_def]

theorem ungeneralize_shell_loop_inv (bs : BasisSet R)
    (hn : bs.ngens.length ≤ bs.nprims.length) (ht : bs.ngens.length ≤ bs.types.length)
    (hl : bs.ngens.length ≤ bs.ls.length)
    (hb : ∀ i, i < bs.ngens.length →
      3 * i + 3 ≤ bs.centers.length ∧
      alpha_offset bs i + bs.nprims.getD i 0 ≤ bs.alphas.length) :
    ∀ (n : Nat) (t : BasisSet R × Nat), n ≤ bs.ngens.length →
      for_loop (ungeneralize_shell bs) n (BasisSet.empty, 0) = .ok t →
      ∀ i, i < n →
        (∀ j, j < bs.ngens.getD i 0 → ∃ x, am_2int (bs.ls.getD i 0) j = .ok x) ∧
        coef_reads_in_bounds bs i := by
  intro n
  induction n with
  | zero => intro t _ _ i hi; omega
  | succ n ih =>
    intro t hle h i hi
    rw [for_loop_succ] at h
    obtain ⟨s', hs', hbody⟩ := bind_eq_ok h
    have hprev := ih s' (by omega) hs'
    rcases Nat.lt_succ_iff_lt_or_eq.mp hi with hlt | heq
    · exact hprev i hlt
    · subst heq
      rw [ungeneralize_shell_loop bs (fun i j => am_2int_value (bs.ls.getD i 0) j) hn ht hl
        hb i (by omega) (fun k hk => (hprev k hk).2) (fun k j hk hj => by
          obtain ⟨x, hx⟩ := (hprev k hk).1 j hj
          exact am_2int_value_eq hx)] at hs'
      injection hs' with hs'
      subst hs'
      obtain ⟨hc, ha⟩ := hb i (by omega)
      exact ungeneralize_shell_inv bs i _ t (by omega) hn ht hl hc ha hbody

/-- What `ungeneralize_basis_set` returns: the emitted one-contraction shells of all
pairs (shell, contraction), laid end to end. -/
theorem ungeneralize_eq (e : BasisSet R) (m : Nat → Nat → Nat) (hwf : well_formed e)
    (hco : ∀ i, i < e.ngens.length → coef_reads_in_bounds e i)
    (hm : ∀ i j, i < e.ngens.length → j < e.ngens.getD i 0 →
      am_2int (e.ls.getD i 0) j = .ok (m i j)) :
    ungeneralize_basis_set e =
      .ok (BasisSet.flatten ((sub_shells e).map
        (fun p => emitted_shell e p.1 p.2 (m p.1 p.2)))) := by
  unfold ungeneralize_basis_set
  have h := ungeneralize_shell_loop e m (by rw [hwf.2.2.1]) (by rw [hwf.1])
    (by rw [hwf.2.1]) (ungeneralize_in_bounds e hwf) e.ngens.length (Nat.le_refl _) hco hm
  simp only [bind, Except.bind, h, pure, Except.pure]
  rfl

/-- When `ungeneralize_basis_set` returns, every `am_2int` call it made returned and
every coefficient read was inside `coefs`. -/
theorem ungeneralize_ok_inv (e : BasisSet R) (rv : BasisSet R) (hwf : well_formed e)
    (h : ungeneralize_basis_set e = .ok rv) :
    (∀ i j, i < e.ngens.length → j < e.ngens.getD i 0 →
      am_2int (e.ls.getD i 0) j = .ok (am_2int_value (e.ls.getD i 0) j)) ∧
    (∀ i, i < e.ngens.length → coef_reads_in_bounds e i) := by
  unfold ungeneralize_basis_set at h
  obtain ⟨s', hs', _⟩ := bind_eq_ok h
  have key := ungeneralize_shell_loop_inv e (by rw [hwf.2.2.1]) (by rw [hwf.1])
    (by rw [hwf.2.1]) (ungeneralize_in_bounds e hwf) e.ngens.length s' (Nat.le_refl _) hs'
  refine ⟨fun i j hi hj => ?_, fun i hi => (key i hi).2⟩
  obtain ⟨x, hx⟩ := (key i hi).1 j hj
  exact am_2int_value_eq hx

/-! ### ungeneralize_basis_set: what is returned -/

theorem mem_sub_shells (e : BasisSet R) (p : Nat × Nat) :
    p ∈ sub_shells e ↔ p.1 < e.ngens.length ∧ p.2 < e.ngens.getD p.1 0 := by
  unfold sub_shells
  simp only [List.mem_flatMap, List.mem_map, List.mem_range]
  constructor
  · rintro ⟨i, hi, j, hj, rfl⟩
    exact ⟨hi, hj⟩
  · rintro ⟨h1, h2⟩
    exact ⟨p.1, h1, p.2, h2, rfl⟩

theorem flatMap_single {α β : Type} (l : List α) (f : α → β) :
    l.flatMap (fun x => [f x]) = l.map f := by
  induction l with
  | nil => rfl
  | cons x l ih => simp [ih]

theorem flatten_emitted_fields (e : BasisSet R) (m : Nat → Nat → Nat)
    (ps : List (Nat × Nat)) (rv : BasisSet R)
    (h : rv = BasisSet.flatten (ps.map (fun p => emitted_shell e p.1 p.2 (m p.1 p.2)))) :
    rv.ngens = ps.map (fun _ => 1) ∧
    rv.centers = ps.flatMap (fun p => (e.centers.drop (3 * p.1)).take 3) ∧
    rv.nprims = ps.map (fun p => e.nprims.getD p.1 0) ∧
    rv.types = ps.map (fun p => e.types.getD p.1 default) ∧
    rv.ls = ps.map (fun p => Int.ofNat (m p.1 p.2)) ∧
    rv.alphas = ps.flatMap (fun p =>
      (e.alphas.drop (alpha_offset e p.1)).take (e.nprims.getD p.1 0)) ∧
    rv.coefs = ps.flatMap (fun p =>
      (e.coefs.drop (alpha_offset e p.1 + p.2 * e.nprims.getD p.1 0)).take
        (e.nprims.getD p.1 0)) := by
  subst h
  simp [BasisSet.flatten, List.flatMap_map, emitted_shell, flatMap_single]

/-- When `ungeneralize_basis_set` returns on a well-formed encoder, the result is the
sequence of the emitted shells with the momenta `am_2int(ls[i], j)`. -/
theorem ungeneralize_ok_eq (e : BasisSet R) (rv : BasisSet R) (hwf : well_formed e)
    (h : ungeneralize_basis_set e = .ok rv) :
    rv = BasisSet.flatten ((sub_shells e).map
      (fun p => emitted_shell e p.1 p.2 (am_2int_value (e.ls.getD p.1 0) p.2))) := by
  obtain ⟨hm, hco⟩ := ungeneralize_ok_inv e rv hwf h
  rw [ungeneralize_eq e (fun i j => am_2int_value (e.ls.getD i 0) j) hwf hco hm] at h
  injection h with h
  exact h.symm

/-- The call `ungeneralize_basis_set(e)` returns on a well-formed encoder with valid codes whose
shells all have at least one contraction. -/
theorem ungeneralize_returns (e : BasisSet R) (hwf : well_formed e) (hv : valid_codes e)
    (hpos : ∀ g, g ∈ e.ngens → 1 ≤ g) : ∃ rv, ungeneralize_basis_set e = .ok rv :=
  ⟨_, ungeneralize_eq e (fun i j => am_2int_value (e.ls.getD i 0) j) hwf
    (coef_reads_in_bounds_of_pos e hwf hpos) (valid_codes_am_2int e hv)⟩

/-- C7: on a well-formed encoder the result of `ungeneralize_basis_set` lists, in
shell order and then contraction order, one sub-shell per pair (shell `i`,
contraction `j < ngens[i]`), with one contraction, the center `centers[3i..3i+3)`,
`nprims[i]` primitives, the type `types[i]`, the angular momentum `am_2int(ls[i], j)`
and the exponent block `alphas[A_i .. A_i+nprims[i])`; the call returns when the codes
are valid and every shell has a contraction. -/
theorem ungeneralize_lists_sub_shells (e : BasisSet R) (hwf : well_formed e) :
    (valid_codes e → (∀ g, g ∈ e.ngens → 1 ≤ g) →
      ∃ rv, ungeneralize_basis_set e = .ok rv) ∧
    ∀ rv, ungeneralize_basis_set e = .ok rv →
      (∀ p, p ∈ sub_shells e →
        am_2int (e.ls.getD p.1 0) p.2 = .ok (am_2int_value (e.ls.getD p.1 0) p.2) ∧
        ((e.centers.drop (3 * p.1)).take 3).length = 3 ∧
        ((e.alphas.drop (alpha_offset e p.1)).take (e.nprims.getD p.1 0)).length =
          e.nprims.getD p.1 0) ∧
      rv.ngens = (sub_shells e).map (fun _ => 1) ∧
      rv.centers = (sub_shells e).flatMap (fun p => (e.centers.drop (3 * p.1)).take 3) ∧
      rv.nprims = (sub_shells e).map (fun p => e.nprims.getD p.1 0) ∧
      rv.types = (sub_shells e).map (fun p => e.types.getD p.1 default) ∧
      rv.ls = (sub_shells e).map (fun p =>
        Int.ofNat (am_2int_value (e.ls.getD p.1 0) p.2)) ∧
      rv.alphas = (sub_shells e).flatMap (fun p =>
        (e.alphas.drop (alpha_offset e p.1)).take (e.nprims.getD p.1 0)) := by
  refine ⟨ungeneralize_returns e hwf, ?_⟩
  intro rv h
  obtain ⟨hm, _⟩ := ungeneralize_ok_inv e rv hwf h
  obtain ⟨f1, f2, f3, f4, f5, f6, _⟩ :=
    flatten_emitted_fields e (fun i j => am_2int_value (e.ls.getD i 0) j) (sub_shells e) rv
      (ungeneralize_ok_eq e rv hwf h)
  refine ⟨fun p hp => ?_, f1, f2, f3, f4, f5, f6⟩
  obtain ⟨hp1, hp2⟩ := (mem_sub_shells e p).mp hp
  obtain ⟨hc, ha⟩ := ungeneralize_in_bounds e hwf p.1 hp1
  refine ⟨hm p.1 p.2 hp1 hp2, ?_, ?_⟩
  · rw [List.length_take, List.length_drop]; omega
  · rw [List.length_take, List.length_drop]; omega

theorem ungeneralize_lists_sub_shells_witness :
    well_formed test_bs ∧
    ∃ rv, ungeneralize_basis_set test_bs = .ok rv ∧
      rv.ls = (sub_shells test_bs).map (fun p =>
        Int.ofNat (am_2int_value (test_bs.ls.getD p.1 0) p.2)) := by
  have h := ungeneralize_lists_sub_shells test_bs (by decide)
  obtain ⟨rv, hrv⟩ := h.1 (by decide) (by decide)
  exact ⟨by decide, rv, hrv, (h.2 rv hrv).2.2.2.2.2.1⟩

/-- C1 (evaluation at the failing input): for an sp shell (coefficient rows `[1]`,
`[2]`) followed by an s shell (row `[3]`), `ungeneralize_basis_set` gives the third
sub-shell the coefficient 2, read at the exponent offset 1, where row 0 of the s shell
is `coefs[C_1] = coefs[2] = 3`. -/
theorem ungeneralize_coefs_after_general_shell :
    well_formed general_then_plain ∧ valid_codes general_then_plain ∧
    ungeneralize_basis_set general_then_plain =
      .ok { centers := [0, 0, 0, 0, 0, 0, 0, 0, 0],
            coefs := [1, 2, 2],
            alphas := [5, 5, 6],
            nprims := [1, 1, 1], ngens := [1, 1, 1],
            types := [.SphericalGaussian, .SphericalGaussian, .SphericalGaussian],
            ls := [0, 1, 0] } ∧
    alpha_offset general_then_plain 1 = 1 ∧
    coef_offset general_then_plain 1 = 2 ∧
    general_then_plain.coefs[coef_offset general_then_plain 1]? = some 3 := by
  refine ⟨by decide, by decide, rfl, rfl, rfl, rfl⟩

/-- After a shell without contraction the coefficient read of the next shell starts
at the exponent offset 1, past the end of `coefs`, whose only element is the one of
that shell. -/
theorem ungeneralize_after_empty_shell :
    well_formed empty_then_plain ∧ valid_codes empty_then_plain ∧
    coef_offset empty_then_plain 1 = 0 ∧
    ungeneralize_basis_set empty_then_plain = .error .undefined := by
  refine ⟨by decide, by decide, rfl, rfl⟩

/-! ### ungeneralize_basis_set and size -/

theorem list_sum_range (f : Nat → Nat) (n : Nat) :
    ((List.range n).map f).sum = Finset.sum (Finset.range n) f := by
  induction n with
  | zero => simp
  | succ n ih => simp [List.range_succ, Finset.sum_range_succ, ih]

theorem sum_getD_range {α : Type} (d : α) (f : α → Nat) :
    ∀ (l : List α),
      Finset.sum (Finset.range l.length) (fun k => f (l.getD k d)) = (l.map f).sum
  | [] => by simp
  | x :: l => by
    have ih := sum_getD_range d f l
    rw [List.length_cons, Finset.sum_range_succ']
    simp only [List.getD_cons_succ, List.getD_cons_zero, List.map_cons, List.sum_cons, ih]
    omega

theorem sum_map_flatMap {α β : Type} (h : α → List β) (G : β → Nat) :
    ∀ (l : List α),
      ((l.flatMap h).map G).sum = (l.map (fun i => ((h i).map G).sum)).sum
  | [] => by simp
  | x :: l => by
    have ih := sum_map_flatMap h G l
    simp [List.sum_append, ih]

theorem getD_map_lt {α β : Type} (l : List α) (f : α → β) (k : Nat) (d : β) (d' : α)
    (h : k < l.length) : (l.map f).getD k d = f (l.getD k d') := by
  simp [List.getD_eq_getElem?_getD, List.getElem?_map, List.getElem?_eq_getElem h]

theorem sum_sub_shells (e : BasisSet R) (G : Nat × Nat → Nat) :
    ((sub_shells e).map G).sum =
      Finset.sum (Finset.range e.ngens.length) (fun i =>
        Finset.sum (Finset.range (e.ngens.getD i 0)) (fun j => G (i, j))) := by
  unfold sub_shells
  rw [sum_map_flatMap, list_sum_range]
  refine Finset.sum_congr rfl (fun i _ => ?_)
  rw [List.map_map, list_sum_range]
  rfl

/-- The size of a sequence of emitted shells: one function count per shell. -/
theorem size_flatten_emitted (e : BasisSet R) (M : Nat × Nat → Nat)
    (ps : List (Nat × Nat)) :
    (BasisSet.flatten (ps.map (fun p => emitted_shell e p.1 p.2 (M p)))).size =
      .ok ((ps.map (fun p => function_count (e.types.getD p.1 default) (M p))).sum) := by
  obtain ⟨f1, _, _, f4, f5, _, _⟩ := flatten_emitted_fields e (fun i j => M (i, j)) ps _ rfl
  have hlen : (BasisSet.flatten (ps.map (fun p => emitted_shell e p.1 p.2 (M p)))).ngens.length
      = ps.length := by rw [f1, List.length_map]
  rw [size_as_sum _ (fun k _ => M (ps.getD k (0, 0))) (by rw [f1, f4]; simp)
    (by rw [f1, f5]; simp)]
  · rw [hlen, ← sum_getD_range (0, 0)]
    congr 1
    refine Finset.sum_congr rfl (fun k hk => ?_)
    have hk' : k < ps.length := Finset.mem_range.mp hk
    rw [f1, f4, getD_map_lt ps _ k 0 (0, 0) hk', getD_map_lt ps _ k default (0, 0) hk']
    simp
  · intro k j hk _
    rw [hlen] at hk
    rw [f5, getD_map_lt ps _ k 0 (0, 0) hk]
    exact am_2int_nonneg _ j (Int.ofNat_nonneg _)

/-- When `ungeneralize_basis_set` returns on a well-formed encoder, the result has
the size of the argument. -/
theorem ungeneralize_size_eq (e rv : BasisSet R) (hwf : well_formed e)
    (h : ungeneralize_basis_set e = .ok rv) :
    ∃ n, e.size = .ok n ∧ rv.size = .ok n := by
  obtain ⟨hm, _⟩ := ungeneralize_ok_inv e rv hwf h
  have hrv := ungeneralize_ok_eq e rv hwf h
  refine ⟨_, size_as_sum e (fun i j => am_2int_value (e.ls.getD i 0) j)
    (by rw [hwf.1]) (by rw [hwf.2.1]) hm, ?_⟩
  rw [hrv, size_flatten_emitted e (fun p => am_2int_value (e.ls.getD p.1 0) p.2),
    sum_sub_shells]

/-- C8: on a well-formed encoder with valid codes `ungeneralize_basis_set(e).size()`
is `e.size()`; the call returns when every shell has a contraction. -/
theorem ungeneralize_preserves_size (e : BasisSet R) (hwf : well_formed e)
    (hv : valid_codes e) :
    ((∀ g, g ∈ e.ngens → 1 ≤ g) → ∃ rv, ungeneralize_basis_set e = .ok rv) ∧
    ∀ rv, ungeneralize_basis_set e = .ok rv → ∃ n, e.size = .ok n ∧ rv.size = .ok n :=
  ⟨ungeneralize_returns e hwf hv, fun rv h => ungeneralize_size_eq e rv hwf h⟩

theorem ungeneralize_preserves_size_witness :
    well_formed test_bs ∧ valid_codes test_bs ∧
    ∃ rv, ungeneralize_basis_set test_bs = .ok rv ∧
      ∃ n, test_bs.size = .ok n ∧ rv.size = .ok n := by
  have h := ungeneralize_preserves_size test_bs (by decide) (by decide)
  obtain ⟨rv, hrv⟩ := h.1 (by decide)
  exact ⟨by decide, by decide, rv, hrv, h.2 rv hrv⟩

/-! ### ungeneralize_basis_set is idempotent -/

theorem well_formed_concatenate (a b : BasisSet R) (ha : well_formed a)
    (hb : well_formed b) : well_formed (basis_set_concatenate a b) := by
  obtain ⟨a1, a2, a3, a4, a5, a6⟩ := ha
  obtain ⟨b1, b2, b3, b4, b5, b6⟩ := hb
  unfold well_formed basis_set_concatenate vector_cat
  simp only [List.length_append, List.sum_append]
  rw [List.zipWith_append _ _ _ _ _ a3.symm, List.sum_append]
  omega

theorem well_formed_flatten :
    ∀ (bl : List (BasisSet R)), (∀ b, b ∈ bl → well_formed b) →
      well_formed (BasisSet.flatten bl)
  | [], _ => by simp [BasisSet.flatten, well_formed]
  | b :: bl, h => by
    have h1 : BasisSet.flatten (b :: bl) =
        basis_set_concatenate (BasisSet.flatten [b]) (BasisSet.flatten bl) :=
      flatten_append [b] bl
    rw [h1, flatten_singleton]
    exact well_formed_concatenate _ _ (h b (by simp))
      (well_formed_flatten bl (fun x hx => h x (by simp [hx])))

theorem well_formed_emitted (e : BasisSet R) (i j m : Nat)
    (hc : 3 * i + 3 ≤ e.centers.length)
    (ha : alpha_offset e i + e.nprims.getD i 0 ≤ e.alphas.length)
    (hco : e.nprims.getD i 0 = 0 ∨
      alpha_offset e i + j * e.nprims.getD i 0 + e.nprims.getD i 0 ≤ e.coefs.length) :
    well_formed (emitted_shell e i j m) := by
  unfold well_formed emitted_shell
  simp only [List.length_take, List.length_drop, List.length_singleton, List.sum_cons,
    List.sum_nil, List.zipWith_cons_cons, List.zipWith_nil_left, Nat.one_mul,
    Nat.add_zero, Nat.mul_one]
  refine ⟨trivial, trivial, trivial, by omega, by omega, ?_⟩
  rcases hco with h | h
  · rw [h]; simp
  · omega

/-- The result of `ungeneralize_basis_set` on a well-formed encoder is well formed,
has one contraction in every shell and no negative code. -/
theorem ungeneralize_result_props (e rv : BasisSet R) (hwf : well_formed e)
    (h : ungeneralize_basis_set e = .ok rv) :
    well_formed rv ∧ (∀ g, g ∈ rv.ngens → g = 1) ∧ (∀ l, l ∈ rv.ls → 0 ≤ l) := by
  obtain ⟨_, hco⟩ := ungeneralize_ok_inv e rv hwf h
  have hrv := ungeneralize_ok_eq e rv hwf h
  obtain ⟨f1, _, _, _, f5, _, _⟩ :=
    flatten_emitted_fields e (fun i j => am_2int_value (e.ls.getD i 0) j) (sub_shells e) rv
      hrv
  refine ⟨?_, ?_, ?_⟩
  · rw [hrv]
    apply well_formed_flatten
    intro b hb
    obtain ⟨p, hp, rfl⟩ := List.mem_map.mp hb
    obtain ⟨hp1, hp2⟩ := (mem_sub_shells e p).mp hp
    obtain ⟨hc, ha⟩ := ungeneralize_in_bounds e hwf p.1 hp1
    refine well_formed_emitted e p.1 p.2 _ hc ha ?_
    rcases hco p.1 hp1 with h0 | h0 | h0
    · omega
    · exact Or.inl h0
    · right
      have h2 : (p.2 + 1) * e.nprims.getD p.1 0 ≤ e.ngens.getD p.1 0 * e.nprims.getD p.1 0 :=
        Nat.mul_le_mul_right _ hp2
      have h3 : (p.2 + 1) * e.nprims.getD p.1 0 =
          p.2 * e.nprims.getD p.1 0 + e.nprims.getD p.1 0 := by ring
      omega
  · intro g hg
    rw [f1] at hg
    obtain ⟨_, _, rfl⟩ := List.mem_map.mp hg
    rfl
  · intro l hl
    rw [f5] at hl
    obtain ⟨_, _, rfl⟩ := List.mem_map.mp hl
    exact Int.ofNat_nonneg _

theorem map_getD_range {α : Type} (d : α) (l : List α) :
    (List.range l.length).map (fun i => l.getD i d) = l := by
  apply List.ext_getElem?
  intro n
  by_cases hn : n < l.length
  · simp [List.getElem?_map, List.getElem?_range hn, List.getElem?_eq_getElem hn]
  · have h1 : l[n]? = none := List.getElem?_eq_none (by omega)
    have h2 : (List.map (fun i => l.getD i d) (List.range l.length))[n]? = none :=
      List.getElem?_eq_none (by simp; omega)
    rw [h1, h2]

theorem getD_mem {α : Type} (d : α) (l : List α) (i : Nat) (h : i < l.length) :
    l.getD i d ∈ l := by
  have : l.getD i d = l[i] := by
    simp [List.getD_eq_getElem?_getD, List.getElem?_eq_getElem h]
  rw [this]
  exact List.getElem_mem h

theorem flatMap_blocks {α : Type} (xs : List α) (off w : Nat → Nat) (h0 : off 0 = 0) :
    ∀ n, (∀ i, i < n → off (i + 1) = off i + w i) →
      (List.range n).flatMap (fun i => (xs.drop (off i)).take (w i)) = xs.take (off n) := by
  intro n
  induction n with
  | zero => intro _; simp [h0]
  | succ n ih =>
    intro hs
    rw [List.range_succ, List.flatMap_append, ih (fun i hi => hs i (by omega)),
      hs n (by omega), List.take_add]
    simp

theorem sum_zipWith_ones :
    ∀ (gs ps : List Nat), (∀ g, g ∈ gs → g = 1) → ps.length = gs.length →
      (List.zipWith (fun g p => g * p) gs ps).sum = ps.sum
  | [], [], _, _ => by simp
  | [], _ :: _, _, h => by simp at h
  | _ :: _, [], _, h => by simp at h
  | g :: gs, p :: ps, h1, h => by
    have ih := sum_zipWith_ones gs ps (fun x hx => h1 x (by simp [hx])) (by simpa using h)
    have hg : g = 1 := h1 g (by simp)
    simp [ih, hg]

theorem sub_shells_ones (e : BasisSet R) (h1 : ∀ g, g ∈ e.ngens → g = 1) :
    sub_shells e = (List.range e.ngens.length).map (fun i => (i, 0)) := by
  unfold sub_shells
  have key : ∀ n, n ≤ e.ngens.length →
      (List.range n).flatMap (fun i =>
        (List.range (e.ngens.getD i 0)).map (fun j => (i, j))) =
      (List.range n).map (fun i => (i, 0)) := by
    intro n
    induction n with
    | zero => intro _; rfl
    | succ n ih =>
      intro hn
      have hg : e.ngens.getD n 0 = 1 := h1 _ (getD_mem 0 e.ngens n (by omega))
      rw [List.range_succ, List.flatMap_append, ih (by omega), List.map_append,
        List.flatMap_singleton, hg]
      rfl
  exact key _ (Nat.le_refl _)

/-- On a well-formed encoder whose shells all have one contraction and a non-negative
code, `ungeneralize_basis_set` returns its argument. -/
theorem ungeneralize_ones (e : BasisSet R) (hwf : well_formed e)
    (h1 : ∀ g, g ∈ e.ngens → g = 1) (hl : ∀ l, l ∈ e.ls → 0 ≤ l) :
    ungeneralize_basis_set e = .ok e := by
  have hpos : ∀ g, g ∈ e.ngens → 1 ≤ g := fun g hg => by rw [h1 g hg]
  rw [ungeneralize_eq e (fun i _ => (e.ls.getD i 0).toNat) hwf
    (coef_reads_in_bounds_of_pos e hwf hpos)
    (fun i j hi _ => am_2int_nonneg _ j (hl _ (getD_mem 0 e.ls i (by rw [hwf.2.1]; exact hi))))]
  congr 1
  suffices hs : ∀ rv : BasisSet R,
      rv = BasisSet.flatten ((sub_shells e).map (fun p =>
        emitted_shell e p.1 p.2 ((fun i (_ : Nat) => (e.ls.getD i 0).toNat) p.1 p.2))) →
      rv = e from hs _ rfl
  intro rv hrv
  obtain ⟨f1, f2, f3, f4, f5, f6, f7⟩ :=
    flatten_emitted_fields e (fun i _ => (e.ls.getD i 0).toNat) (sub_shells e) rv hrv
  clear hrv
  obtain ⟨w1, w2, w3, w4, w5, w6⟩ := hwf
  rw [sub_shells_ones e h1] at f1 f2 f3 f4 f5 f6 f7
  simp only [List.map_map, List.flatMap_map, Function.comp_def] at f1 f2 f3 f4 f5 f6 f7
  have g1 : (List.range e.ngens.length).map (fun _ => 1) = e.ngens := by
    conv_rhs => rw [← map_getD_range 0 e.ngens]
    apply List.map_congr_left
    intro i hi
    exact (h1 _ (getD_mem 0 e.ngens i (List.mem_range.mp hi))).symm
  have g2 : (List.range e.ngens.length).flatMap
      (fun i => (e.centers.drop (3 * i)).take 3) = e.centers := by
    rw [flatMap_blocks e.centers (fun i => 3 * i) (fun _ => 3) rfl _
      (fun i _ => by ring)]
    exact List.take_of_length_le (by omega)
  have g3 : (List.range e.ngens.length).map (fun i => e.nprims.getD i 0) = e.nprims := by
    rw [← w3]; exact map_getD_range 0 e.nprims
  have g4 : (List.range e.ngens.length).map (fun i => e.types.getD i default) = e.types := by
    rw [← w1]; exact map_getD_range default e.types
  have g5 : (List.range e.ngens.length).map
      (fun i => Int.ofNat (e.ls.getD i 0).toNat) = e.ls := by
    conv_rhs => rw [← map_getD_range 0 e.ls, w2]
    apply List.map_congr_left
    intro i hi
    have := hl _ (getD_mem 0 e.ls i (by rw [w2]; exact List.mem_range.mp hi))
    simp only [Int.ofNat_eq_coe]
    omega
  have hA : alpha_offset e e.ngens.length = e.nprims.sum := by
    unfold alpha_offset
    rw [← w3, List.take_length]
  have g6 : (List.range e.ngens.length).flatMap
      (fun i => (e.alphas.drop (alpha_offset e i)).take (e.nprims.getD i 0)) = e.alphas := by
    rw [flatMap_blocks e.alphas (alpha_offset e) (fun i => e.nprims.getD i 0)
      (by simp [alpha_offset]) _
      (fun i hi => sum_take_succ_getD e.nprims i (by omega))]
    exact List.take_of_length_le (by omega)
  have g7 : (List.range e.ngens.length).flatMap
      (fun i => (e.coefs.drop (alpha_offset e i + 0 * e.nprims.getD i 0)).take
        (e.nprims.getD i 0)) = e.coefs := by
    simp only [Nat.zero_mul, Nat.add_zero]
    rw [flatMap_blocks e.coefs (alpha_offset e) (fun i => e.nprims.getD i 0)
      (by simp [alpha_offset]) _
      (fun i hi => sum_take_succ_getD e.nprims i (by omega))]
    have := sum_zipWith_ones e.ngens e.nprims h1 w3
    exact List.take_of_length_le (by omega)
  rw [g1] at f1
  rw [g2] at f2
  rw [g3] at f3
  rw [g4] at f4
  rw [g5] at f5
  rw [g6] at f6
  rw [g7] at f7
  cases rv
  cases e
  simp_all

/-! ### The angular-momentum codec -/

theorem map_at_error_iff {κ ν : Type} [DecidableEq κ] (m : List (κ × ν)) (key : κ) :
    map_at m key = .error .out_of_range ↔ key ∉ m.map Prod.fst := by
  unfold map_at
  cases h : m.lookup key with
  | none =>
    simp only [true_iff]
    rw [List.lookup_eq_none_iff] at h
    intro hmem
    obtain ⟨p, hp, rfl⟩ := List.mem_map.mp hmem
    have := h p hp
    simp at this
  | some v =>
    simp only [reduceCtorEq, false_iff, not_not]
    have : (m.lookup key).isSome := by simp [h]
    rw [List.lookup_isSome_iff] at this
    obtain ⟨p, hp, hk⟩ := this
    have hk' : key = p.1 := by simpa using hk
    rw [hk']
    exact List.mem_map_of_mem _ hp

theorem map_at_ok_mem {κ ν : Type} [DecidableEq κ] (m : List (κ × ν)) (key : κ) (v : ν)
    (h : map_at m key = .ok v) : (key, v) ∈ m := by
  unfold map_at at h
  cases hl : m.lookup key with
  | none => rw [hl] at h; simp at h
  | some w =>
    rw [hl] at h
    injection h with h
    subst h
    obtain ⟨l₁, l₂, heq, _⟩ := List.lookup_eq_some_iff.mp hl
    rw [heq]
    simp

theorem map_at_cases {κ ν : Type} [DecidableEq κ] (m : List (κ × ν)) (key : κ) :
    map_at m key = .error .out_of_range ∨ ∃ v, map_at m key = .ok v := by
  unfold map_at
  cases m.lookup key with
  | none => exact Or.inl rfl
  | some v => exact Or.inr ⟨v, rfl⟩

theorem recognized_iff_key (s : String) :
    s ∈ recognized_strings ↔ s ∈ toi_.map Prod.fst := by
  have h1 : ∀ s, s ∈ recognized_strings → s ∈ toi_.map Prod.fst := by decide
  have h2 : ∀ s, s ∈ toi_.map Prod.fst → s ∈ recognized_strings := by decide
  exact ⟨h1 s, h2 s⟩

theorem am_int2str_error_iff (n : Int) :
    am_int2str n = .error .out_of_range ↔ (n < -5 ∨ 21 < n) := by
  unfold am_int2str
  rw [map_at_error_iff]
  constructor
  · intro h
    by_contra hn
    have h1 : -5 ≤ n := by omega
    have h2 : n ≤ 21 := by omega
    apply h
    interval_cases n <;> decide
  · intro h
    simp only [tostr_, List.map_cons, List.map_nil, List.mem_cons, List.mem_nil_iff,
      or_false, not_or]
    omega

/-- C15: the codec is a bijection between the 27 recognized strings and the integers
-5..21: `am_str2int(am_int2str(n)) == n` for every `n` in [-5,21],
`am_int2str(am_str2int(s)) == s` for every recognized string `s`, and the single
letters s,p,d,...,z map to 0..21 in that order. -/
theorem am_codec_bijection :
    (∀ n : Int, -5 ≤ n → n ≤ 21 →
      ∃ s, am_int2str n = .ok s ∧ s ∈ recognized_strings ∧ am_str2int s = .ok n) ∧
    (∀ s, s ∈ recognized_strings →
      ∃ n : Int, am_str2int s = .ok n ∧ -5 ≤ n ∧ n ≤ 21 ∧ am_int2str n = .ok s) ∧
    recognized_strings.length = 27 ∧ recognized_strings.Nodup ∧
    single_letters.map am_str2int = (List.range 22).map (fun n => .ok (Int.ofNat n)) := by
  refine ⟨?_, ?_, rfl, by decide, rfl⟩
  · intro n h1 h2
    interval_cases n <;> exact ⟨_, rfl, by decide, rfl⟩
  · intro s hs
    have key : ∀ s, s ∈ recognized_strings →
        ∃ p, p ∈ toi_ ∧ (am_str2int s = .ok p.2 ∧ -5 ≤ p.2 ∧ p.2 ≤ 21 ∧
          am_int2str p.2 = .ok s) := by decide
    obtain ⟨p, _, hp⟩ := key s hs
    exact ⟨p.2, hp⟩

theorem am_codec_bijection_witness :
    (-5 : Int) ≤ -1 ∧ (-1 : Int) ≤ 21 ∧
    ∃ s, am_int2str (-1) = .ok s ∧ s ∈ recognized_strings ∧ am_str2int s = .ok (-1) :=
  ⟨by decide, by decide, am_codec_bijection.1 (-1) (by decide) (by decide)⟩

/-- C16: for every `k` in 1..5 the string of the code `-k` has exactly `k+1` letters
and `am_2int(-k, i) == i` for every `i` with `0 ≤ i ≤ k`. -/
theorem am_2int_combined (k : Nat) (h1 : 1 ≤ k) (h5 : k ≤ 5) :
    (∃ s, am_int2str (-(k : Int)) = .ok s ∧ s.length = k + 1) ∧
    ∀ i, i ≤ k → am_2int (-(k : Int)) i = .ok i := by
  interval_cases k
  all_goals
    refine ⟨⟨_, rfl, rfl⟩, ?_⟩
    intro i hi
    interval_cases i <;> rfl

theorem am_2int_combined_witness :
    1 ≤ 1 ∧ 1 ≤ 5 ∧ am_2int (-1) 0 = .ok 0 ∧ am_2int (-1) 1 = .ok 1 :=
  ⟨by decide, by decide,
    (am_2int_combined 1 (by decide) (by decide)).2 0 (by decide),
    (am_2int_combined 1 (by decide) (by decide)).2 1 (by decide)⟩

/-- C17: `am_str2int(s)` fails, with the lookup error, exactly when `s` is not one of
the 27 recognized strings; for a recognized string it returns the value the table
`toi_` gives it. -/
theorem am_str2int_fails_iff (s : String) :
    (am_str2int s = .error .out_of_range ↔ s ∉ recognized_strings) ∧
    (s ∈ recognized_strings ↔ ∃ n, am_str2int s = .ok n) ∧
    (∀ n, am_str2int s = .ok n → (s, n) ∈ toi_) ∧
    (∀ e, am_str2int s = .error e → e = Fault.out_of_range) := by
  have herr := map_at_error_iff toi_ s
  refine ⟨?_, ?_, fun n h => map_at_ok_mem toi_ s n h, ?_⟩
  · rw [recognized_iff_key]
    exact herr
  · rw [recognized_iff_key]
    constructor
    · intro hmem
      rcases map_at_cases toi_ s with h | h
      · exact absurd hmem (herr.mp h)
      · exact h
    · rintro ⟨n, hn⟩
      by_contra hmem
      have h := herr.mpr hmem
      unfold am_str2int at hn
      rw [h] at hn
      simp at hn
  · intro e he
    rcases map_at_cases toi_ s with h | ⟨v, h⟩
    · unfold am_str2int at he
      rw [h] at he
      injection he with he
      exact he.symm
    · unfold am_str2int at he
      rw [h] at he
      simp at he

theorem am_str2int_fails_iff_witness :
    am_str2int "spd" = .ok (-2) ∧ ("spd", (-2 : Int)) ∈ toi_ ∧
    am_str2int "sd" = .error .out_of_range :=
  ⟨rfl, (am_str2int_fails_iff "spd").2.2.1 (-2) rfl,
    (am_str2int_fails_iff "sd").1.mpr (by decide)⟩

/-- C18: `am_int2str(n)` fails, with the lookup error, exactly when `n` is outside
[-5,21]; for every `n` in [-5,21] it returns a string. -/
theorem am_int2str_fails_iff (n : Int) :
    (am_int2str n = .error .out_of_range ↔ (n < -5 ∨ 21 < n)) ∧
    ((-5 ≤ n ∧ n ≤ 21) ↔ ∃ s, am_int2str n = .ok s) ∧
    (∀ e, am_int2str n = .error e → e = Fault.out_of_range) := by
  have herr := am_int2str_error_iff n
  refine ⟨herr, ?_, ?_⟩
  · constructor
    · rintro ⟨h1, h2⟩
      rcases map_at_cases tostr_ n with h | h
      · have := herr.mp h
        omega
      · exact h
    · rintro ⟨s, hs⟩
      by_contra hn
      have h := herr.mpr (by omega)
      rw [h] at hs
      simp at hs
  · intro e he
    rcases map_at_cases tostr_ n with h | ⟨v, h⟩
    · unfold am_int2str at he
      rw [h] at he
      injection he with he
      exact he.symm
    · unfold am_int2str at he
      rw [h] at he
      simp at he

theorem am_int2str_fails_iff_witness :
    am_int2str 22 = .error .out_of_range ∧ ∃ s, am_int2str (-5) = .ok s :=
  ⟨(am_int2str_fails_iff 22).1.mpr (by decide),
    (am_int2str_fails_iff (-5)).2.1.mp (by decide)⟩

theorem string_at_beyond (s : String) (i : Nat) (h : s.data.length < i) :
    string_at s i = .error .undefined := by
  unfold string_at
  have h1 : s.data[i]? = none := List.getElem?_eq_none (by omega)
  have h2 : ¬ i = s.length := by
    show ¬ i = s.data.length
    omega
  rw [h1]
  simp [h2]

theorem am_2int_neg (l : Int) (i : Nat) (s : String) (hl : l < 0)
    (hs : am_int2str l = .ok s) :
    am_2int l i =
      (string_at s i >>= fun am =>
        am_str2int (String.singleton am) >>= fun v => pure v.toNat) := by
  unfold am_2int
  rw [if_pos hl, hs]
  rfl

theorem am_letters_eq (l : Int) (h1 : -5 ≤ l) (h2 : l ≤ 21) :
    am_letters l = if l < 0 then (-l).toNat + 1 else 1 := by
  interval_cases l <;> rfl

/-- C20: for a code `l ≥ 0` and every index `i`, `am_2int(l, i)` returns `l`; for
`l < 0` and `i` within the letters of `l` it returns `am_str2int` of the `i`-th letter
of `am_int2str(l)`. -/
theorem am_2int_spec (l : Int) (i : Nat) :
    (0 ≤ l → ∃ r : Nat, am_2int l i = .ok r ∧ (r : Int) = l) ∧
    (l < 0 → ∀ s, am_int2str l = .ok s → i < s.length →
      ∃ c v, s.data[i]? = some c ∧ am_str2int (String.singleton c) = .ok v ∧ 0 ≤ v ∧
        am_2int l i = .ok v.toNat) := by
  constructor
  · intro h
    exact ⟨l.toNat, am_2int_nonneg l i h, Int.toNat_of_nonneg h⟩
  · intro hl s hs hi
    have h5 : -5 ≤ l := by
      by_contra hn
      have := (am_int2str_error_iff l).mpr (Or.inl (by omega))
      rw [this] at hs
      simp at hs
    have key : ∀ (t : String), am_int2str l = .ok t →
        (∀ k, k < t.data.length → ∃ c v, t.data[k]? = some c ∧
          am_str2int (String.singleton c) = .ok v ∧ 0 ≤ v ∧
          (string_at t k >>= fun am =>
            am_str2int (String.singleton am) >>= fun v => pure v.toNat) =
              (.ok v.toNat : Except Fault Nat)) →
        ∃ c v, s.data[i]? = some c ∧ am_str2int (String.singleton c) = .ok v ∧ 0 ≤ v ∧
          am_2int l i = .ok v.toNat := by
      intro t ht hall
      rw [ht] at hs
      injection hs with hs
      subst hs
      obtain ⟨c, v, h1, h2, h3, h4⟩ := hall i hi
      exact ⟨c, v, h1, h2, h3, by rw [am_2int_neg l i t hl ht, h4]⟩
    interval_cases l
    · refine key "spdfgh" rfl (fun k hk => ?_)
      have hk' : k < 6 := hk
      interval_cases k <;> exact ⟨_, _, rfl, rfl, by decide, rfl⟩
    · refine key "spdfg" rfl (fun k hk => ?_)
      have hk' : k < 5 := hk
      interval_cases k <;> exact ⟨_, _, rfl, rfl, by decide, rfl⟩
    · refine key "spdf" rfl (fun k hk => ?_)
      have hk' : k < 4 := hk
      interval_cases k <;> exact ⟨_, _, rfl, rfl, by decide, rfl⟩
    · refine key "spd" rfl (fun k hk => ?_)
      have hk' : k < 3 := hk
      interval_cases k <;> exact ⟨_, _, rfl, rfl, by decide, rfl⟩
    · refine key "sp" rfl (fun k hk => ?_)
      have hk' : k < 2 := hk
      interval_cases k <;> exact ⟨_, _, rfl, rfl, by decide, rfl⟩

theorem am_2int_spec_witness :
    (∃ r : Nat, am_2int 3 4 = .ok r ∧ (r : Int) = 3) ∧
    ∃ c v, "spd".data[2]? = some c ∧ am_str2int (String.singleton c) = .ok v ∧ 0 ≤ v ∧
      am_2int (-2) 2 = .ok v.toNat :=
  ⟨(am_2int_spec 3 4).1 (by decide),
    (am_2int_spec (-2) 2).2 (by decide) "spd" rfl (by decide)⟩

/-! ### basis_set_concatenate: size and associativity -/

theorem getD_append_lt {α : Type} (l1 l2 : List α) (i : Nat) (d : α) (h : i < l1.length) :
    (l1 ++ l2).getD i d = l1.getD i d := by
  simp [List.getD_eq_getElem?_getD, List.getElem?_append_left h]

theorem getD_append_ge {α : Type} (l1 l2 : List α) (k : Nat) (d : α) :
    (l1 ++ l2).getD (l1.length + k) d = l2.getD k d := by
  simp [List.getD_eq_getElem?_getD, List.getElem?_append_right]

theorem valid_codes_concatenate (a b : BasisSet R) (hwa : well_formed a)
    (hva : valid_codes a) (hvb : valid_codes b) :
    valid_codes (basis_set_concatenate a b) := by
  intro i hi
  have hls : (basis_set_concatenate a b).ls = a.ls ++ b.ls := rfl
  have hng : (basis_set_concatenate a b).ngens = a.ngens ++ b.ngens := rfl
  rw [hng, List.length_append] at hi
  rw [hls, hng]
  by_cases h : i < a.ngens.length
  · rw [getD_append_lt a.ls b.ls i 0 (by rw [hwa.2.1]; exact h),
      getD_append_lt a.ngens b.ngens i 0 h]
    exact hva i h
  · obtain ⟨k, rfl⟩ : ∃ k, i = a.ngens.length + k := ⟨i - a.ngens.length, by omega⟩
    rw [getD_append_ge a.ngens b.ngens k 0]
    have h2 : (a.ls ++ b.ls).getD (a.ngens.length + k) 0 = b.ls.getD k 0 := by
      rw [← hwa.2.1]
      exact getD_append_ge a.ls b.ls k 0
    rw [h2]
    exact hvb k (by omega)

theorem size_concatenate (a b : BasisSet R) (hwa : well_formed a) (hwb : well_formed b)
    (hva : valid_codes a) (hvb : valid_codes b) :
    ∃ na nb, a.size = .ok na ∧ b.size = .ok nb ∧
      (basis_set_concatenate a b).size = .ok (na + nb) := by
  have hwc := well_formed_concatenate a b hwa hwb
  have hvc := valid_codes_concatenate a b hwa hva hvb
  refine ⟨_, _,
    size_as_sum a _ (by rw [hwa.1]) (by rw [hwa.2.1]) (valid_codes_am_2int a hva),
    size_as_sum b _ (by rw [hwb.1]) (by rw [hwb.2.1]) (valid_codes_am_2int b hvb), ?_⟩
  rw [size_as_sum (basis_set_concatenate a b) _ (by rw [hwc.1]) (by rw [hwc.2.1])
    (valid_codes_am_2int _ hvc)]
  congr 1
  have hls : (basis_set_concatenate a b).ls = a.ls ++ b.ls := rfl
  have hng : (basis_set_concatenate a b).ngens = a.ngens ++ b.ngens := rfl
  have hty : (basis_set_concatenate a b).types = a.types ++ b.types := rfl
  rw [hls, hng, hty, List.length_append, Finset.sum_range_add]
  congr 1
  · refine Finset.sum_congr rfl (fun i hi => ?_)
    have h : i < a.ngens.length := Finset.mem_range.mp hi
    rw [getD_append_lt a.ngens b.ngens i 0 h,
      getD_append_lt a.ls b.ls i 0 (by rw [hwa.2.1]; exact h),
      getD_append_lt a.types b.types i default (by rw [hwa.1]; exact h)]
  · refine Finset.sum_congr rfl (fun k _ => ?_)
    have h1 : (a.ls ++ b.ls).getD (a.ngens.length + k) 0 = b.ls.getD k 0 := by
      rw [← hwa.2.1]
      exact getD_append_ge a.ls b.ls k 0
    have h2 : (a.types ++ b.types).getD (a.ngens.length + k) default =
        b.types.getD k default := by
      rw [← hwa.1]
      exact getD_append_ge a.types b.types k default
    rw [getD_append_ge a.ngens b.ngens k 0, h1, h2]

/-- C11: for well-formed encoders `a` and `b` with valid codes, the `size()` of
`basis_set_concatenate(a, b)` is `a.size() + b.size()`, the sizes before the call. -/
theorem basis_set_concatenate_size (a b : BasisSet R) (hwa : well_formed a)
    (hwb : well_formed b) (hva : valid_codes a) (hvb : valid_codes b) :
    ∃ na nb, a.size = .ok na ∧ b.size = .ok nb ∧
      (basis_set_concatenate_step a b).1.size = .ok (na + nb) :=
  size_concatenate a b hwa hwb hva hvb

theorem basis_set_concatenate_size_witness :
    well_formed test_bs ∧ well_formed spd_only ∧ valid_codes test_bs ∧
    valid_codes spd_only ∧
    ∃ na nb, test_bs.size = .ok na ∧ spd_only.size = .ok nb ∧
      (basis_set_concatenate_step test_bs spd_only).1.size = .ok (na + nb) :=
  ⟨by decide, by decide, by decide, by decide,
    basis_set_concatenate_size test_bs spd_only (by decide) (by decide) (by decide)
      (by decide)⟩

/-! ### BasisSet::max_am -/

theorem foldl_min_spec :
    ∀ (rest : List Int) (first : Int),
      rest.foldl (fun smallest x => if x < smallest then x else smallest) first
          ∈ first :: rest ∧
      ∀ l, l ∈ first :: rest →
        rest.foldl (fun smallest x => if x < smallest then x else smallest) first ≤ l
  | [], first => by simp
  | x :: xs, first => by
    obtain ⟨h1, h2⟩ := foldl_min_spec xs (if x < first then x else first)
    simp only [List.foldl_cons]
    have hf : (if x < first then x else first) ≤ first ∧
        (if x < first then x else first) ≤ x ∧
        ((if x < first then x else first) = first ∨
          (if x < first then x else first) = x) := by
      split <;> omega
    constructor
    · rcases List.mem_cons.mp h1 with h | h
      · rcases hf.2.2 with h' | h'
        · rw [h, h']; simp
        · rw [h, h']; simp
      · simp [h]
    · intro l hl
      rcases List.mem_cons.mp hl with h | h
      · have := h2 _ (List.mem_cons_self _ _)
        rw [h]; omega
      · rcases List.mem_cons.mp h with h' | h'
        · have := h2 _ (List.mem_cons_self _ _)
          rw [h']; omega
        · exact h2 l (List.mem_cons_of_mem _ h')

theorem foldl_max_spec :
    ∀ (rest : List Int) (first : Int),
      rest.foldl (fun largest x => if largest < x then x else largest) first
          ∈ first :: rest ∧
      ∀ l, l ∈ first :: rest →
        l ≤ rest.foldl (fun largest x => if largest < x then x else largest) first
  | [], first => by simp
  | x :: xs, first => by
    obtain ⟨h1, h2⟩ := foldl_max_spec xs (if first < x then x else first)
    simp only [List.foldl_cons]
    have hf : first ≤ (if first < x then x else first) ∧
        x ≤ (if first < x then x else first) ∧
        ((if first < x then x else first) = first ∨
          (if first < x then x else first) = x) := by
      split <;> omega
    constructor
    · rcases List.mem_cons.mp h1 with h | h
      · rcases hf.2.2 with h' | h'
        · rw [h, h']; simp
        · rw [h, h']; simp
      · simp [h]
    · intro l hl
      rcases List.mem_cons.mp hl with h | h
      · have := h2 _ (List.mem_cons_self _ _)
        rw [h]; omega
      · rcases List.mem_cons.mp h with h' | h'
        · have := h2 _ (List.mem_cons_self _ _)
          rw [h']; omega
        · exact h2 l (List.mem_cons_of_mem _ h')

theorem min_element_spec (v : List Int) (h : v ≠ []) :
    ∃ n, min_element v = some n ∧ n ∈ v ∧ ∀ l, l ∈ v → n ≤ l := by
  cases v with
  | nil => exact absurd rfl h
  | cons first rest =>
    obtain ⟨h1, h2⟩ := foldl_min_spec rest first
    exact ⟨_, rfl, h1, h2⟩

theorem max_element_spec (v : List Int) (h : v ≠ []) :
    ∃ m, max_element v = some m ∧ m ∈ v ∧ ∀ l, l ∈ v → l ≤ m := by
  cases v with
  | nil => exact absurd rfl h
  | cons first rest =>
    obtain ⟨h1, h2⟩ := foldl_max_spec rest first
    exact ⟨_, rfl, h1, h2⟩

theorem max_am_value (e : BasisSet R) (h : e.ls ≠ []) :
    ∃ m n : Int, (m ∈ e.ls ∧ ∀ l, l ∈ e.ls → l ≤ m) ∧ (n ∈ e.ls ∧ ∀ l, l ∈ e.ls → n ≤ l) ∧
      ∃ r : Nat, e.max_am = .ok r ∧ (r : Int) = if n < 0 then max m (-n) else m := by
  obtain ⟨n, hn, hn1, hn2⟩ := min_element_spec e.ls h
  obtain ⟨m, hm, hm1, hm2⟩ := max_element_spec e.ls h
  refine ⟨m, n, ⟨hm1, hm2⟩, ⟨hn1, hn2⟩,
    (if n < 0 then std_max (-1 * n) m else m).toNat, ?_, ?_⟩
  · unfold BasisSet.max_am
    rw [hn, hm]
  · have hnm : n ≤ m := hn2 m hm1
    have hs : std_max (-1 * n) m = max m (-n) := by
      unfold std_max
      split <;> omega
    rw [hs]
    have h0 : 0 ≤ (if n < 0 then max m (-n) else m) := by
      split <;> omega
    exact Int.toNat_of_nonneg h0

theorem am_2int_within (l : Int) (j : Nat) (h1 : -5 ≤ l) (h2 : l ≤ 21)
    (hj : j < am_letters l) : ∃ x, am_2int l j = .ok x ∧ (x : Int) ≤ max l (-l) := by
  by_cases hl : l < 0
  · interval_cases l
    · have hj' : j < 6 := hj
      interval_cases j <;> exact ⟨_, rfl, by decide⟩
    · have hj' : j < 5 := hj
      interval_cases j <;> exact ⟨_, rfl, by decide⟩
    · have hj' : j < 4 := hj
      interval_cases j <;> exact ⟨_, rfl, by decide⟩
    · have hj' : j < 3 := hj
      interval_cases j <;> exact ⟨_, rfl, by decide⟩
    · have hj' : j < 2 := hj
      interval_cases j <;> exact ⟨_, rfl, by decide⟩
  · refine ⟨l.toNat, am_2int_nonneg l j (by omega), ?_⟩
    rw [Int.toNat_of_nonneg (by omega)]
    omega

theorem am_2int_top (l : Int) (h1 : -5 ≤ l) (h2 : l ≤ 21) :
    ∃ j, j < am_letters l ∧ am_2int l j = .ok (max l (-l)).toNat := by
  by_cases hl : l < 0
  · interval_cases l
    · exact ⟨5, by decide, rfl⟩
    · exact ⟨4, by decide, rfl⟩
    · exact ⟨3, by decide, rfl⟩
    · exact ⟨2, by decide, rfl⟩
    · exact ⟨1, by decide, rfl⟩
  · have hmax : max l (-l) = l := by omega
    refine ⟨0, ?_, ?_⟩
    · rw [am_letters_eq l h1 h2, if_neg hl]
      exact Nat.zero_lt_one
    · rw [hmax]
      exact am_2int_nonneg l 0 (by omega)

theorem mem_getD {α : Type} (d : α) (v : List α) (x : α) (h : x ∈ v) :
    ∃ i, i < v.length ∧ v.getD i d = x := by
  obtain ⟨i, hi, hx⟩ := List.mem_iff_getElem.mp h
  refine ⟨i, hi, ?_⟩
  simp [List.getD_eq_getElem?_getD, List.getElem?_eq_getElem hi, hx]

/-- C14: for a non-empty encoder whose codes all lie in [-5,21], `max_am()` is the
largest single angular momentum contained in any shell: it is `am_2int(ls[i], j)` for
some shell `i` and letter position `j` of the code `ls[i]`, and no such
`am_2int(ls[i], j)` is larger. -/
theorem max_am_largest_momentum (e : BasisSet R) (h : e.ls ≠ [])
    (hc : ∀ l, l ∈ e.ls → -5 ≤ l ∧ l ≤ 21) :
    ∃ r, e.max_am = .ok r ∧
      (∃ i j, i < e.ls.length ∧ j < am_letters (e.ls.getD i 0) ∧
        am_2int (e.ls.getD i 0) j = .ok r) ∧
      (∀ i j, i < e.ls.length → j < am_letters (e.ls.getD i 0) →
        ∃ x, am_2int (e.ls.getD i 0) j = .ok x ∧ x ≤ r) := by
  obtain ⟨m, n, ⟨hm1, hm2⟩, ⟨hn1, hn2⟩, r, hr, hval⟩ := max_am_value e h
  have hnm : n ≤ m := hn2 m hm1
  refine ⟨r, hr, ?_, ?_⟩
  · by_cases hcase : n < 0 ∧ m ≤ -n
    · obtain ⟨i, hi, hget⟩ := mem_getD 0 e.ls n hn1
      obtain ⟨j, hj, hjv⟩ := am_2int_top n (hc n hn1).1 (hc n hn1).2
      have hr' : (max n (-n)).toNat = r := by
        have h0 : ((max n (-n)).toNat : Int) = max n (-n) :=
          Int.toNat_of_nonneg (by omega)
        rw [if_pos hcase.1] at hval
        omega
      refine ⟨i, j, hi, ?_, ?_⟩
      · rw [hget]; exact hj
      · rw [hget, hjv, hr']
    · obtain ⟨i, hi, hget⟩ := mem_getD 0 e.ls m hm1
      obtain ⟨j, hj, hjv⟩ := am_2int_top m (hc m hm1).1 (hc m hm1).2
      have hr' : (max m (-m)).toNat = r := by
        have h0 : ((max m (-m)).toNat : Int) = max m (-m) :=
          Int.toNat_of_nonneg (by omega)
        split at hval <;> omega
      refine ⟨i, j, hi, ?_, ?_⟩
      · rw [hget]; exact hj
      · rw [hget, hjv, hr']
  · intro i j hi hj
    have hmem : e.ls.getD i 0 ∈ e.ls := getD_mem 0 e.ls i hi
    obtain ⟨x, hx, hle⟩ := am_2int_within _ j (hc _ hmem).1 (hc _ hmem).2 hj
    refine ⟨x, hx, ?_⟩
    have hl1 := hm2 _ hmem
    have hl2 := hn2 _ hmem
    split at hval <;> omega

theorem max_am_largest_momentum_witness :
    test_bs.ls ≠ [] ∧ (∀ l, l ∈ test_bs.ls → -5 ≤ l ∧ l ≤ 21) ∧
    ∃ r, test_bs.max_am = .ok r ∧
      (∃ i j, i < test_bs.ls.length ∧ j < am_letters (test_bs.ls.getD i 0) ∧
        am_2int (test_bs.ls.getD i 0) j = .ok r) ∧
      (∀ i j, i < test_bs.ls.length → j < am_letters (test_bs.ls.getD i 0) →
        ∃ x, am_2int (test_bs.ls.getD i 0) j = .ok x ∧ x ≤ r) :=
  ⟨by decide, by decide, max_am_largest_momentum test_bs (by decide) (by decide)⟩

theorem elementwise_eq_iff {α : Type} (x y : List α) : elementwise_eq x y ↔ x = y := by
  constructor
  · rintro ⟨hl, h⟩
    apply List.ext_getElem?
    intro i
    by_cases hi : i < x.length
    · exact h i hi
    · rw [List.getElem?_eq_none (by omega), List.getElem?_eq_none (by omega)]
  · rintro rfl
    exact ⟨rfl, fun _ _ => rfl⟩

theorem nfunctions_of_am_2int (s : BasisShell R) (i : Nat) :
    (∀ m, am_2int s.l i = .ok m → ∃ n, s.nfunctions i = .ok n) ∧
    (∀ e, am_2int s.l i = .error e → s.nfunctions i = .error e) := by
  unfold BasisShell.nfunctions
  constructor
  · intro m hm
    rw [hm]
    by_cases ht : s.type = ShellType.CartesianGaussian
    · exact ⟨2 * m + 1, by simp [ht, bind, Except.bind, pure, Except.pure]⟩
    · exact ⟨multinomial_coefficient 3 m, by simp [ht, bind, Except.bind, pure, Except.pure]⟩
  · intro e he
    rw [he]
    rfl

theorem am_2int_at_letters (c : Int) (h1 : -5 ≤ c) (h2 : c ≤ -1) :
    am_2int c (am_letters c) = .error .out_of_range := by
  interval_cases c <;> rfl

theorem am_2int_beyond_letters (c : Int) (h1 : -5 ≤ c) (h2 : c ≤ -1) (i : Nat)
    (hi : am_letters c < i) : am_2int c i = .error .undefined := by
  have key : ∀ (s : String), am_int2str c = .ok s → am_letters c = s.data.length →
      am_2int c i = .error .undefined := by
    intro s hs hlen
    rw [am_2int_neg c i s (by omega) hs, string_at_beyond s i (by omega)]
    rfl
  interval_cases c
  · exact key "spdfgh" rfl rfl
  · exact key "spdfg" rfl rfl
  · exact key "spdf" rfl rfl
  · exact key "spd" rfl rfl
  · exact key "sp" rfl rfl

/-- C21 (as the claim states it, refuted): the shell `Cart` of the unit tests has one
contraction, and `nfunctions(1)` returns the count 5 instead of failing. -/
theorem nfunctions_not_checked_against_ngen :
    ¬ (∀ (s : BasisShell Int) (i : Nat), s.ngen ≤ i →
        s.nfunctions i = .error .out_of_range) := by
  intro h
  have h1 := h test_Cart 1 (by decide)
  have h2 : test_Cart.nfunctions 1 = .ok 5 := rfl
  rw [h2] at h1
  cases h1

/-- C21 (amended): `BasisShell::nfunctions(i)` never compares `i` with `ngen`.  For a
shell with a code `l ≥ 0` it returns a count at every index `i`; for a combined code
`l` in [-5,-1] it returns a count at every `i` below the number of letters of `l`,
the lookup inside `am_2int` throws `std::out_of_range` at `i` equal to the number of
letters, and the read is undefined behaviour at a larger `i`. -/
theorem nfunctions_index_domain (s : BasisShell R) (i : Nat) :
    (0 ≤ s.l → ∃ n, s.nfunctions i = .ok n) ∧
    (-5 ≤ s.l → s.l ≤ -1 →
      (i < am_letters s.l → ∃ n, s.nfunctions i = .ok n) ∧
      (i = am_letters s.l → s.nfunctions i = .error .out_of_range) ∧
      (am_letters s.l < i → s.nfunctions i = .error .undefined)) := by
  refine ⟨fun h => ?_, fun h1 h2 => ⟨fun hi => ?_, fun hi => ?_, fun hi => ?_⟩⟩
  · exact (nfunctions_of_am_2int s i).1 _ (am_2int_nonneg s.l i h)
  · obtain ⟨x, hx, _⟩ := am_2int_within s.l i h1 (by omega) hi
    exact (nfunctions_of_am_2int s i).1 _ hx
  · rw [hi]
    exact (nfunctions_of_am_2int s _).2 _ (am_2int_at_letters s.l h1 h2)
  · exact (nfunctions_of_am_2int s i).2 _ (am_2int_beyond_letters s.l h1 h2 i hi)

theorem nfunctions_index_domain_witness :
    (0 : Int) ≤ test_Cart.l ∧ test_Cart.ngen ≤ 4 ∧ (∃ n, test_Cart.nfunctions 4 = .ok n) ∧
    (-5 : Int) ≤ test_Pure.l ∧ test_Pure.l ≤ -1 ∧ am_letters test_Pure.l = 2 ∧
    (∃ n, test_Pure.nfunctions 1 = .ok n) ∧
    test_Pure.nfunctions 2 = .error .out_of_range ∧
    test_Pure.nfunctions 3 = .error .undefined :=
  ⟨by decide, by decide, (nfunctions_index_domain test_Cart 4).1 (by decide),
    by decide, by decide, rfl,
    ((nfunctions_index_domain test_Pure 1).2 (by decide) (by decide)).1 (by decide),
    ((nfunctions_index_domain test_Pure 2).2 (by decide) (by decide)).2.1 rfl,
    ((nfunctions_index_domain test_Pure 3).2 (by decide) (by decide)).2.2 (by decide)⟩

/-- C22: on a shell built by a value constructor from `alphas`, `coefs` and the
contraction count `g`, `alpha(i)` returns `alphas[i]` for every `i` below the number
of exponents `p`, and `coef(i, j)` returns `coefs[j·p + i]` for every such `i` and
every `j < g` with `j·p + i` below the number of coefficients. -/
theorem alpha_coef_row_major (type_ : ShellType) (l_ : Int) (g : Nat) (alphas coefs : List R)
    (i : Nat) (hi : i < alphas.length) :
    (∃ x, alphas[i]? = some x ∧
      (BasisShell.make type_ l_ g alphas coefs).alpha i = .ok x) ∧
    (∀ j, j < g → j * alphas.length + i < coefs.length →
      ∃ x, coefs[j * alphas.length + i]? = some x ∧
        (BasisShell.make type_ l_ g alphas coefs).coef i j = .ok x) := by
  constructor
  · obtain ⟨x, hx⟩ := getElem?_of_lt alphas i hi
    exact ⟨x, hx, vget_eq_ok hx⟩
  · intro j _ hj
    obtain ⟨x, hx⟩ := getElem?_of_lt coefs _ hj
    exact ⟨x, hx, vget_eq_ok hx⟩

theorem alpha_coef_row_major_witness :
    (1 : Nat) < ([31, 45, 69] : List Int).length ∧
    (∃ x, ([31, 45, 69] : List Int)[1]? = some x ∧ test_Pure.alpha 1 = .ok x) ∧
    (∀ j, j < 2 → j * ([31, 45, 69] : List Int).length + 1 <
        ([14, 68, 71, 91, 54, 60] : List Int).length →
      ∃ x, ([14, 68, 71, 91, 54, 60] : List Int)[j * ([31, 45, 69] : List Int).length + 1]? =
          some x ∧ test_Pure.coef 1 j = .ok x) :=
  ⟨by decide, alpha_coef_row_major ShellType.SphericalGaussian (-1) 2 [31, 45, 69]
    [14, 68, 71, 91, 54, 60] 1 (by decide)⟩

/-- C23 (as the claim states it, refuted): the constructor called with three exponents,
one contraction and no coefficient builds a shell whose coefficient storage does not
hold `ngen·nprim` values. -/
theorem constructor_keeps_short_coefs :
    ¬ (∀ (type_ : ShellType) (l_ : Int) (g : Nat) (alphas coefs : List Int),
        (BasisShell.make type_ l_ g alphas coefs).nprim =
          (BasisShell.make type_ l_ g alphas coefs).alphas_.length ∧
        (BasisShell.make type_ l_ g alphas coefs).cs_.length =
          (BasisShell.make type_ l_ g alphas coefs).ngen *
            (BasisShell.make type_ l_ g alphas coefs).nprim) := by
  intro h
  have h1 := (h ShellType.CartesianGaussian 0 1 [12, 23, 34] []).2
  revert h1
  decide

/-- C23 (amended): a shell produced by a value constructor has `nprim` equal to the
number of stored exponents and stores the exponents and coefficients it was given
unchanged; its coefficient storage holds `ngen·nprim` values exactly when the caller
passed that many coefficients. -/
theorem constructor_invariant (type_ : ShellType) (l_ : Int) (g : Nat)
    (alphas coefs : List R) :
    (BasisShell.make type_ l_ g alphas coefs).nprim =
      (BasisShell.make type_ l_ g alphas coefs).alphas_.length ∧
    (BasisShell.make type_ l_ g alphas coefs).alphas_ = alphas ∧
    (BasisShell.make type_ l_ g alphas coefs).cs_ = coefs ∧
    (BasisShell.make type_ l_ g alphas coefs).ngen = g ∧
    ((BasisShell.make type_ l_ g alphas coefs).cs_.length =
        (BasisShell.make type_ l_ g alphas coefs).ngen *
          (BasisShell.make type_ l_ g alphas coefs).nprim ↔
      coefs.length = g * alphas.length) :=
  ⟨rfl, rfl, rfl, rfl, Iff.rfl⟩

/-- C24: `a == b` holds exactly when each of the seven arrays of `a` has the same length
and the same element at every index as the array of `b`, and `a != b` is the negation
of `a == b`. -/
theorem operator_eq_iff_elementwise [DecidableEq R] (a b : BasisSet R) :
    (BasisSet.operator_eq a b = true ↔
      elementwise_eq a.centers b.centers ∧ elementwise_eq a.ngens b.ngens ∧
      elementwise_eq a.nprims b.nprims ∧ elementwise_eq a.coefs b.coefs ∧
      elementwise_eq a.alphas b.alphas ∧ elementwise_eq a.types b.types ∧
      elementwise_eq a.ls b.ls) ∧
    BasisSet.operator_ne a b = !(BasisSet.operator_eq a b) := by
  refine ⟨?_, rfl⟩
  simp only [elementwise_eq_iff, BasisSet.operator_eq, Bool.and_eq_true, decide_eq_true_eq]
  tauto

theorem lookup_map_index_update_self {κ ν : Type} [DecidableEq κ] (m : List (κ × ν)) (key : κ)
    (dflt : ν) (f : ν → ν) :
    (map_index_update m key dflt f).lookup key = some (f ((m.lookup key).getD dflt)) := by
  induction m with
  | nil => simp [map_index_update, List.lookup]
  | cons p rest ih =>
    obtain ⟨k, v⟩ := p
    unfold map_index_update
    by_cases hk : key = k
    · subst hk
      simp [List.lookup]
    · have hb : (key == k) = false := by simpa using hk
      simp only [if_neg hk, List.lookup, hb]
      exact ih

theorem lookup_map_index_update_ne {κ ν : Type} [DecidableEq κ] (m : List (κ × ν)) (key n : κ)
    (dflt : ν) (f : ν → ν) (hn : n ≠ key) :
    (map_index_update m key dflt f).lookup n = m.lookup n := by
  induction m with
  | nil =>
    have hb : (n == key) = false := by simpa using hn
    simp [map_index_update, List.lookup, hb]
  | cons p rest ih =>
    obtain ⟨k, v⟩ := p
    unfold map_index_update
    by_cases hk : key = k
    · subst hk
      have hb : (n == key) = false := by simpa using hn
      simp [List.lookup, hb]
    · simp only [if_neg hk, List.lookup]
      cases hnk : (n == k) with
      | true => rfl
      | false => exact ih

theorem shells_under_add_shell (a : Atom R) (m n : String) (s : BasisShell R) :
    (a.add_shell m s).shells_under n =
      if m = n then a.shells_under n ++ [s] else a.shells_under n := by
  unfold Atom.shells_under Atom.add_shell
  by_cases h : m = n
  · subst h
    simp [lookup_map_index_update_self]
  · rw [if_neg h, lookup_map_index_update_ne _ _ _ _ _ (fun hn => h hn.symm)]

theorem lookup_add_shell_ne (a : Atom R) (m n : String) (s : BasisShell R) (h : n ≠ m) :
    (a.add_shell m s).basis_sets.lookup n = a.basis_sets.lookup n :=
  lookup_map_index_update_ne _ _ _ _ _ h

theorem get_basis_eq_fold (a : Atom R) (n : String) :
    a.get_basis n =
      (a.shells_under n).foldlM (fun rv s => BasisSet.add_shell rv a.coord s)
        BasisSet.empty := by
  unfold Atom.get_basis Atom.shells_under
  cases a.basis_sets.lookup n with
  | none => rfl
  | some shells => rfl

theorem foldl_add_shell_history (a0 : Atom R) (history : List (String × BasisShell R))
    (n : String) :
    (history.foldl (fun a p => Atom.add_shell a p.1 p.2) a0).coord = a0.coord ∧
    (history.foldl (fun a p => Atom.add_shell a p.1 p.2) a0).shells_under n =
      a0.shells_under n ++ (history.filter (fun p => decide (p.1 = n))).map Prod.snd := by
  induction history generalizing a0 with
  | nil => simp
  | cons p rest ih =>
    obtain ⟨hc, hs⟩ := ih (Atom.add_shell a0 p.1 p.2)
    rw [List.foldl_cons]
    refine ⟨hc, ?_⟩
    rw [hs, shells_under_add_shell]
    by_cases h : p.1 = n
    · simp [h]
    · simp [h]

theorem fold_add_shell_returns (center : Fin 3 → R) (shells : List (BasisShell R))
    (h : ∀ s, s ∈ shells → BasisShell.readable s) (e : BasisSet R) :
    ∃ rv, shells.foldlM (fun rv s => BasisSet.add_shell rv center s) e = .ok rv := by
  induction shells generalizing e with
  | nil => exact ⟨e, rfl⟩
  | cons s rest ih =>
    obtain ⟨hp, hc⟩ := h s (List.mem_cons_self _ _)
    rw [List.foldlM_cons, add_shell_eq e center s hp hc]
    exact ih (fun t ht => h t (List.mem_cons_of_mem _ ht)) _

theorem operator_eq_refl [DecidableEq R] (a : Atom R) : Atom.operator_eq a a = true := by
  simp [Atom.operator_eq]

theorem operator_eq_add_shell [DecidableEq R] (a : Atom R) (n : String) (s : BasisShell R) :
    Atom.operator_eq (a.add_shell n s) a = true := by
  simp [Atom.operator_eq, Atom.add_shell]

theorem foldl_add_shell_frame (name : String) (shells : List (BasisShell R)) (a : Atom R) :
    (shells.foldl (fun a si => Atom.add_shell a name si) a).shells_under name =
      a.shells_under name ++ shells ∧
    (∀ n, n ≠ name →
      (shells.foldl (fun a si => Atom.add_shell a name si) a).basis_sets.lookup n =
        a.basis_sets.lookup n) ∧
    (shells.foldl (fun a si => Atom.add_shell a name si) a).Z = a.Z ∧
    (shells.foldl (fun a si => Atom.add_shell a name si) a).isotope = a.isotope ∧
    (shells.foldl (fun a si => Atom.add_shell a name si) a).mass = a.mass ∧
    (shells.foldl (fun a si => Atom.add_shell a name si) a).isotope_mass = a.isotope_mass ∧
    (shells.foldl (fun a si => Atom.add_shell a name si) a).charge = a.charge ∧
    (shells.foldl (fun a si => Atom.add_shell a name si) a).multiplicity = a.multiplicity ∧
    (shells.foldl (fun a si => Atom.add_shell a name si) a).nelectrons = a.nelectrons ∧
    (shells.foldl (fun a si => Atom.add_shell a name si) a).cov_radius = a.cov_radius ∧
    (shells.foldl (fun a si => Atom.add_shell a name si) a).vdw_radius = a.vdw_radius ∧
    (shells.foldl (fun a si => Atom.add_shell a name si) a).coord = a.coord := by
  induction shells generalizing a with
  | nil => simp
  | cons s rest ih =>
    rw [List.foldl_cons]
    obtain ⟨h1, h2, h3, h4, h5, h6, h7, h8, h9, h10, h11, h12⟩ :=
      ih (Atom.add_shell a name s)
    refine ⟨?_, ?_, h3, h4, h5, h6, h7, h8, h9, h10, h11, h12⟩
    · rw [h1, shells_under_add_shell, if_pos rfl, List.append_assoc]
      rfl
    · intro n hn
      rw [h2 n hn, lookup_add_shell_ne a name n s hn]

/-- C25 (the code at the failing input): on the set of a uranium atom carrying the
general sp shell followed by a fluorine atom carrying a plain shell, `get_basis` and
`ungeneralize_basis_set(get_general_basis(...))` both return, and the coefficients of
the last shell are 10, 20, 30 in the first and 70, 80, 10 in the second. -/
theorem get_basis_vs_ungeneralized_general_basis :
    get_basis "PRIMARY" test_UF_with_basis =
      .ok { centers := [0, 0, 0, 0, 0, 0, 38, 0, 0], ngens := [1, 1, 1],
            nprims := [2, 2, 3], coefs := [50, 60, 70, 80, 10, 20, 30],
            alphas := [30, 40, 30, 40, 12, 23, 34],
            types := [.CartesianGaussian, .CartesianGaussian, .CartesianGaussian],
            ls := [0, 1, 0] } ∧
    (get_general_basis "PRIMARY" test_UF_with_basis >>= ungeneralize_basis_set) =
      .ok { centers := [0, 0, 0, 0, 0, 0, 38, 0, 0], ngens := [1, 1, 1],
            nprims := [2, 2, 3], coefs := [50, 60, 70, 80, 70, 80, 10],
            alphas := [30, 40, 30, 40, 12, 23, 34],
            types := [.CartesianGaussian, .CartesianGaussian, .CartesianGaussian],
            ls := [0, 1, 0] } ∧
    get_basis "PRIMARY" test_UF_with_basis ≠
      (get_general_basis "PRIMARY" test_UF_with_basis >>= ungeneralize_basis_set) := by
  refine ⟨rfl, rfl, fun h => ?_⟩
  have h1 : get_basis "PRIMARY" test_UF_with_basis =
      .ok { centers := [0, 0, 0, 0, 0, 0, 38, 0, 0], ngens := [1, 1, 1],
            nprims := [2, 2, 3], coefs := [50, 60, 70, 80, 10, 20, 30],
            alphas := [30, 40, 30, 40, 12, 23, 34],
            types := [.CartesianGaussian, .CartesianGaussian, .CartesianGaussian],
            ls := [0, 1, 0] } := rfl
  have h2 : (get_general_basis "PRIMARY" test_UF_with_basis >>= ungeneralize_basis_set) =
      .ok { centers := [0, 0, 0, 0, 0, 0, 38, 0, 0], ngens := [1, 1, 1],
            nprims := [2, 2, 3], coefs := [50, 60, 70, 80, 70, 80, 10],
            alphas := [30, 40, 30, 40, 12, 23, 34],
            types := [.CartesianGaussian, .CartesianGaussian, .CartesianGaussian],
            ls := [0, 1, 0] } := rfl
  rw [h1, h2] at h
  injection h with h
  have hc := congrArg BasisSet.coefs h
  revert hc
  decide

/-- C26 (the code): `Atom::operator==` does not compare the basis sets, so an atom to
which a shell has been added under `n` stores one shell more under `n` and still
compares equal (`!=` returns false) to the atom without that shell. -/
theorem operator_ne_ignores_basis_sets [DecidableEq R] (a : Atom R) (n : String)
    (s : BasisShell R) :
    (a.add_shell n s).shells_under n = a.shells_under n ++ [s] ∧
    (a.add_shell n s).shells_under n ≠ a.shells_under n ∧
    Atom.operator_ne (a.add_shell n s) a = false := by
  have h1 : (a.add_shell n s).shells_under n = a.shells_under n ++ [s] := by
    rw [shells_under_add_shell, if_pos rfl]
  refine ⟨h1, ?_, ?_⟩
  · rw [h1]
    intro h
    have := congrArg List.length h
    simp at this
  · simp [Atom.operator_ne, operator_eq_add_shell]

/-- C28: for an atom built from an atom without basis sets by a sequence of `add_shell`
calls, `get_basis(n)` is the fold of `add_shell(coord, s)` from the empty encoder over
the shells added under `n`, in the order they were added; it is the empty encoder
when no shell was added under `n`, and it returns whenever every shell added under
`n` holds `nprim` exponents and at least `ngen·nprim` coefficients. -/
theorem get_basis_folds_added_shells (a0 : Atom R) (h0 : a0.basis_sets = [])
    (history : List (String × BasisShell R)) (n : String) :
    (history.foldl (fun a p => Atom.add_shell a p.1 p.2) a0).get_basis n =
      ((history.filter (fun p => decide (p.1 = n))).map Prod.snd).foldlM
        (fun rv s => BasisSet.add_shell rv
          (history.foldl (fun a p => Atom.add_shell a p.1 p.2) a0).coord s)
        BasisSet.empty ∧
    ((∀ p, p ∈ history → p.1 ≠ n) →
      (history.foldl (fun a p => Atom.add_shell a p.1 p.2) a0).get_basis n =
        .ok BasisSet.empty) ∧
    ((∀ p, p ∈ history → p.1 = n → BasisShell.readable p.2) →
      ∃ rv, (history.foldl (fun a p => Atom.add_shell a p.1 p.2) a0).get_basis n =
        .ok rv) := by
  obtain ⟨_, hs⟩ := foldl_add_shell_history a0 history n
  have hs0 : a0.shells_under n = [] := by simp [Atom.shells_under, h0]
  rw [hs0, List.nil_append] at hs
  have hg := get_basis_eq_fold (history.foldl (fun a p => Atom.add_shell a p.1 p.2) a0) n
  rw [hs] at hg
  refine ⟨hg, fun hne => ?_, fun hr => ?_⟩
  · have hf : history.filter (fun p => decide (p.1 = n)) = [] := by
      rw [List.filter_eq_nil_iff]
      intro p hp
      simpa using hne p hp
    rw [hg, hf]
    rfl
  · rw [hg]
    apply fold_add_shell_returns
    intro s hmem
    rw [List.mem_map] at hmem
    obtain ⟨p, hp, rfl⟩ := hmem
    rw [List.mem_filter] at hp
    exact hr p hp.1 (by simpa using hp.2)

theorem get_basis_folds_added_shells_witness :
    test_U.basis_sets = [] ∧
    (([("PRIMARY", test_shell), ("OTHER", test_general_shell)] :
        List (String × BasisShell Int)).foldl
      (fun a p => Atom.add_shell a p.1 p.2) test_U).get_basis "PRIMARY" =
      BasisSet.add_shell BasisSet.empty (fun _ => 0) test_shell ∧
    (([("PRIMARY", test_shell), ("OTHER", test_general_shell)] :
        List (String × BasisShell Int)).foldl
      (fun a p => Atom.add_shell a p.1 p.2) test_U).get_basis "SECONDARY" =
      .ok BasisSet.empty :=
  ⟨rfl,
    (get_basis_folds_added_shells test_U rfl
      [("PRIMARY", test_shell), ("OTHER", test_general_shell)] "PRIMARY").1,
    (get_basis_folds_added_shells test_U rfl
      [("PRIMARY", test_shell), ("OTHER", test_general_shell)] "SECONDARY").2.1
      (by decide)⟩

/-- C29 (the code): an atom returned by `create_ghost(a)` is the fresh atom
`create_atom(a.coord, 0)`: it stores no basis set, so its `get_basis(n)` is the empty
encoder for every name `n`, whatever shells `a` carries. -/
theorem create_ghost_drops_basis (conv : DoubleConv R) (tables : AtomicTables R)
    (a g : Atom R) (n : String) (h : create_ghost conv tables a = .ok g) :
    g.basis_sets = [] ∧ g.get_basis n = .ok BasisSet.empty ∧
    g.Z = conv.of_size_t 0 ∧ g.coord = a.coord := by
  unfold create_ghost create_atom at h
  obtain ⟨isonum, _, h⟩ := bind_eq_ok h
  unfold create_atom_isonum at h
  obtain ⟨ai, _, h⟩ := bind_eq_ok h
  obtain ⟨im, _, h⟩ := bind_eq_ok h
  injection h with h
  subst h
  exact ⟨rfl, rfl, rfl, rfl⟩

theorem create_ghost_drops_basis_witness :
    (∃ g, create_ghost test_conv test_tables test_U_with_shell = .ok g ∧
      g.get_basis "PRIMARY" = .ok BasisSet.empty) ∧
    test_U_with_shell.get_basis "PRIMARY" =
      .ok { centers := [0, 0, 0], ngens := [1], nprims := [3], coefs := [10, 20, 30],
            alphas := [12, 23, 34], types := [.CartesianGaussian], ls := [0] } :=
  ⟨⟨Atom.make (fun _ => 0) 0 0 0 0 0 10 0 0 0, rfl,
    (create_ghost_drops_basis test_conv test_tables test_U_with_shell
      (Atom.make (fun _ => 0) 0 0 0 0 0 10 0 0 0) "PRIMARY" rfl).2.1⟩, rfl⟩

theorem size_t_dec_succ (x : Nat) (h : x + 1 < 18446744073709551616) :
    size_t_dec (x + 1) = x := by
  unfold size_t_dec
  omega

theorem binomial_coefficient_size_t_eq (n : Nat) :
    ∀ k, n < 18446744073709551616 →
      binomial_coefficient_size_t n k = Nat.choose n k % 18446744073709551616 := by
  induction n with
  | zero =>
    intro k _
    rw [binomial_coefficient_size_t]
    rcases Nat.eq_zero_or_pos k with h | h
    · simp [h]
    · have h1 : ¬ (k = 0 ∨ k = 0) := by omega
      rw [if_neg h1, if_pos (by omega), Nat.choose_eq_zero_of_lt h]
  | succ n ih =>
    intro k hn
    rw [binomial_coefficient_size_t]
    by_cases h1 : k = 0 ∨ k = n + 1
    · rw [if_pos h1]
      rcases h1 with h | h
      · simp [h]
      · simp [h]
    · rw [if_neg h1]
      by_cases h2 : k > n + 1 ∨ k < 0 ∨ n + 1 < 0
      · rw [if_pos h2, Nat.choose_eq_zero_of_lt (by omega)]
      · rw [if_neg h2]
        obtain ⟨j, rfl⟩ : ∃ j, k = j + 1 := ⟨k - 1, by omega⟩
        rw [size_t_dec_succ n hn, size_t_dec_succ j (by omega), ih j (by omega),
          ih (j + 1) (by omega), Nat.choose_succ_succ, ← Nat.add_mod]

/-- C40 (the code at the failing input): on the default-constructed encoder, whose `ls`
is empty, `max_am` dereferences the end iterator that `std::min_element` returns: the
read is undefined behaviour and no value is returned. -/
theorem max_am_of_default_encoder :
    (BasisSet.empty : BasisSet R).max_am = .error .undefined := by
  rfl

theorem length_sub_shells (e : BasisSet R) : (sub_shells e).length = e.ngens.sum := by
  have h := sum_sub_shells e (fun _ => 1)
  simp only [Finset.sum_const, Finset.card_range, smul_eq_mul, Nat.mul_one] at h
  have h1 : ((sub_shells e).map (fun _ => 1)).sum = (sub_shells e).length := by
    generalize sub_shells e = l
    induction l with
    | nil => rfl
    | cons x l ih => simp [ih]; omega
  rw [← h1, h, ← list_sum_range, map_getD_range]

theorem well_formed_add_shell (e : BasisSet R) (center : Fin 3 → R) (s : BasisShell R)
    (hwf : well_formed e) (hs : BasisShell.readable s) :
    ∃ rv, e.add_shell center s = .ok rv ∧ well_formed rv := by
  obtain ⟨hp, hc⟩ := hs
  refine ⟨_, add_shell_eq e center s hp hc, ?_⟩
  obtain ⟨a1, a2, a3, a4, a5, a6⟩ := hwf
  unfold well_formed
  simp only [List.length_append, List.sum_append, List.length_take, List.length_cons,
    List.length_nil, List.sum_cons, List.sum_nil]
  rw [List.zipWith_append _ _ _ _ _ a3.symm, List.sum_append]
  simp only [List.zipWith_cons_cons, List.zipWith_nil_left, List.sum_cons, List.sum_nil]
  omega

theorem ungeneralize_ls_range (e rv : BasisSet R) (hwf : well_formed e)
    (hv : valid_codes e) (h : ungeneralize_basis_set e = .ok rv) :
    ∀ l, l ∈ rv.ls → 0 ≤ l ∧ l ≤ 21 := by
  obtain ⟨hm, _⟩ := ungeneralize_ok_inv e rv hwf h
  have hrv := ungeneralize_ok_eq e rv hwf h
  obtain ⟨_, _, _, _, f5, _, _⟩ :=
    flatten_emitted_fields e (fun i j => am_2int_value (e.ls.getD i 0) j) (sub_shells e) rv
      hrv
  intro l hl
  rw [f5] at hl
  obtain ⟨p, hp, rfl⟩ := List.mem_map.mp hl
  obtain ⟨hp1, hp2⟩ := (mem_sub_shells e p).mp hp
  obtain ⟨v1, v2, v3⟩ := hv p.1 hp1
  refine ⟨Int.ofNat_nonneg _, ?_⟩
  have hx := hm p.1 p.2 hp1 hp2
  by_cases hneg : e.ls.getD p.1 0 < 0
  · obtain ⟨x, hx1, hx2⟩ := am_2int_within (e.ls.getD p.1 0) p.2 v1 v2
      (Nat.lt_of_lt_of_le hp2 (v3 hneg))
    rw [hx1] at hx
    injection hx with hx
    simp only [Int.ofNat_eq_coe]
    rw [← hx]
    omega
  · rw [am_2int_nonneg _ _ (by omega)] at hx
    injection hx with hx
    simp only [Int.ofNat_eq_coe]
    rw [← hx]
    omega

/-- C33: the empty encoder is well formed; `add_shell` of a shell that holds `nprim`
exponents and at least `ngen·nprim` coefficients returns and keeps an encoder well
formed; `basis_set_concatenate` of two well-formed encoders is well formed; on a
well-formed encoder with valid codes every result of `ungeneralize_basis_set` is well
formed, and the call returns when every shell has a contraction. -/
theorem well_formed_preserved :
    well_formed (BasisSet.empty : BasisSet R) ∧
    (∀ (e : BasisSet R) (center : Fin 3 → R) (s : BasisShell R), well_formed e →
      BasisShell.readable s → ∃ rv, e.add_shell center s = .ok rv ∧ well_formed rv) ∧
    (∀ a b : BasisSet R, well_formed a → well_formed b →
      well_formed (basis_set_concatenate a b)) ∧
    (∀ e : BasisSet R, well_formed e → valid_codes e →
      ((∀ g, g ∈ e.ngens → 1 ≤ g) → ∃ rv, ungeneralize_basis_set e = .ok rv) ∧
      ∀ rv, ungeneralize_basis_set e = .ok rv → well_formed rv) := by
  refine ⟨?_, well_formed_add_shell, well_formed_concatenate, fun e hwf hv => ⟨?_, ?_⟩⟩
  · simp [well_formed, BasisSet.empty]
  · exact ungeneralize_returns e hwf hv
  · exact fun rv h => (ungeneralize_result_props e rv hwf h).1

theorem well_formed_preserved_witness :
    well_formed test_bs ∧ BasisShell.readable test_Pure ∧ valid_codes test_bs ∧
    (∃ rv, test_bs.add_shell (fun _ => 0) test_Pure = .ok rv ∧ well_formed rv) ∧
    well_formed (basis_set_concatenate test_bs test_bs) ∧
    (∃ rv, ungeneralize_basis_set test_bs = .ok rv ∧ well_formed rv) := by
  have h := well_formed_preserved.2.2.2 test_bs (by decide) (by decide)
  obtain ⟨rv, hrv⟩ := h.1 (by decide)
  exact ⟨by decide, ⟨rfl, by decide⟩, by decide,
    well_formed_preserved.2.1 test_bs (fun _ => 0) test_Pure (by decide) ⟨rfl, by decide⟩,
    well_formed_preserved.2.2.1 test_bs test_bs (by decide) (by decide),
    rv, hrv, h.2 rv hrv⟩

/-- C34: on a well-formed encoder with valid codes, every result of
`ungeneralize_basis_set` has exactly `Σ ngens[i]` shells, each with one contraction
and with a single angular momentum in [0,21] as its code; the call returns when
every shell has a contraction. -/
theorem ungeneralize_no_general_contraction (e : BasisSet R) (hwf : well_formed e)
    (hv : valid_codes e) :
    ((∀ g, g ∈ e.ngens → 1 ≤ g) → ∃ rv, ungeneralize_basis_set e = .ok rv) ∧
    ∀ rv, ungeneralize_basis_set e = .ok rv →
      rv.ngens.length = e.ngens.sum ∧ rv.ls.length = e.ngens.sum ∧
      (∀ g, g ∈ rv.ngens → g = 1) ∧ (∀ l, l ∈ rv.ls → 0 ≤ l ∧ l ≤ 21) := by
  refine ⟨ungeneralize_returns e hwf hv, fun rv h => ?_⟩
  obtain ⟨hw, hg, _⟩ := ungeneralize_result_props e rv hwf h
  have hrv := ungeneralize_ok_eq e rv hwf h
  obtain ⟨f1, _, _, _, _, _, _⟩ :=
    flatten_emitted_fields e (fun i j => am_2int_value (e.ls.getD i 0) j) (sub_shells e) rv
      hrv
  have hn : rv.ngens.length = e.ngens.sum := by
    rw [f1, List.length_map, length_sub_shells]
  exact ⟨hn, by rw [hw.2.1, hn], hg, ungeneralize_ls_range e rv hwf hv h⟩

theorem ungeneralize_no_general_contraction_witness :
    well_formed test_bs ∧ valid_codes test_bs ∧
    ∃ rv, ungeneralize_basis_set test_bs = .ok rv ∧ rv.ngens.length = test_bs.ngens.sum ∧
      (∀ g, g ∈ rv.ngens → g = 1) ∧ (∀ l, l ∈ rv.ls → 0 ≤ l ∧ l ≤ 21) := by
  have h := ungeneralize_no_general_contraction test_bs (by decide) (by decide)
  obtain ⟨rv, hrv⟩ := h.1 (by decide)
  exact ⟨by decide, by decide, rv, hrv, (h.2 rv hrv).1, (h.2 rv hrv).2.2⟩

theorem am_2int_first_letter (l : Int) (h1 : -5 ≤ l) (h2 : l ≤ 21) :
    am_2int l 0 = .ok (max l 0).toNat := by
  interval_cases l <;> rfl

theorem ungeneralize_ones_codes (e : BasisSet R) (hwf : well_formed e)
    (h1 : ∀ g, g ∈ e.ngens → g = 1) (hc : ∀ l, l ∈ e.ls → -5 ≤ l ∧ l ≤ 21) :
    ungeneralize_basis_set e = .ok { e with ls := e.ls.map (fun l => max l 0) } := by
  have hpos : ∀ g, g ∈ e.ngens → 1 ≤ g := fun g hg => by rw [h1 g hg]
  have hwf' : well_formed ({ e with ls := e.ls.map (fun l => max l 0) } : BasisSet R) := by
    obtain ⟨a1, a2, a3, a4, a5, a6⟩ := hwf
    exact ⟨a1, by simpa using a2, a3, a4, a5, a6⟩
  have hl' : ∀ l, l ∈ ({ e with ls := e.ls.map (fun l => max l 0) } : BasisSet R).ls →
      0 ≤ l := by
    intro l hl
    obtain ⟨x, _, rfl⟩ := List.mem_map.mp hl
    omega
  have h' := ungeneralize_ones _ hwf' h1 hl'
  have hj0 : ∀ i j, i < e.ngens.length → j < e.ngens.getD i 0 → j = 0 := by
    intro i j hi hj
    have := h1 _ (getD_mem 0 e.ngens i hi)
    omega
  have he := ungeneralize_eq e (fun i _ => (max (e.ls.getD i 0) 0).toNat) hwf
    (coef_reads_in_bounds_of_pos e hwf hpos)
    (fun i j hi hj => by
      obtain ⟨c1, c2⟩ := hc _ (getD_mem 0 e.ls i (by rw [hwf.2.1]; exact hi))
      rw [hj0 i j hi hj]
      exact am_2int_first_letter _ c1 c2)
  have he' := ungeneralize_eq ({ e with ls := e.ls.map (fun l => max l 0) } : BasisSet R)
    (fun i _ => (max (e.ls.getD i 0) 0).toNat) hwf'
    (coef_reads_in_bounds_of_pos _ hwf' hpos)
    (fun i j hi _ => by
      have hi' : i < e.ls.length := by rw [hwf.2.1]; exact hi
      have hg : (e.ls.map (fun l => max l 0)).getD i 0 = max (e.ls.getD i 0) 0 :=
        getD_map_lt e.ls (fun l => max l 0) i 0 0 hi'
      show am_2int ((e.ls.map (fun l => max l 0)).getD i 0) j = _
      rw [hg]
      exact am_2int_nonneg _ j (by omega))
  rw [he'] at h'
  rw [he]
  exact h'

/-- C35 (as the claim states it, refuted): the well-formed encoder whose only shell has
one contraction and the combined code -1 comes back from `ungeneralize_basis_set`
with the code 0, so the result is not equal to the input. -/
theorem ungeneralize_changes_combined_code :
    ¬ (∀ e : BasisSet Int, well_formed e → (∀ g, g ∈ e.ngens → g = 1) →
        (∀ l, l ∈ e.ls → -5 ≤ l ∧ l ≤ 21) → ungeneralize_basis_set e = .ok e) := by
  intro h
  have h1 := h combined_single (by decide) (by decide) (by decide)
  have h2 : ungeneralize_basis_set combined_single =
      .ok { combined_single with ls := [0] } := rfl
  rw [h2] at h1
  injection h1 with h1
  have h3 := congrArg BasisSet.ls h1
  revert h3
  decide

/-- C35 (amended): on a well-formed encoder in which every shell has one contraction
and a code in [-5,21], `ungeneralize_basis_set` returns the encoder with every
combined code replaced by 0, the momentum of its first letter, and everything else
unchanged; the result is equal to the input when no code is negative. -/
theorem ungeneralize_single_contractions (e : BasisSet R) (hwf : well_formed e)
    (h1 : ∀ g, g ∈ e.ngens → g = 1) (hc : ∀ l, l ∈ e.ls → -5 ≤ l ∧ l ≤ 21) :
    ungeneralize_basis_set e = .ok { e with ls := e.ls.map (fun l => max l 0) } ∧
    ((∀ l, l ∈ e.ls → 0 ≤ l) → ungeneralize_basis_set e = .ok e) :=
  ⟨ungeneralize_ones_codes e hwf h1 hc, ungeneralize_ones e hwf h1⟩

theorem ungeneralize_single_contractions_witness :
    well_formed combined_single ∧
    ungeneralize_basis_set combined_single = .ok { combined_single with ls := [0] } ∧
    ungeneralize_basis_set p_only = .ok p_only :=
  ⟨by decide,
    (ungeneralize_single_contractions combined_single (by decide) (by decide)
      (by decide)).1,
    (ungeneralize_single_contractions p_only (by decide) (by decide) (by decide)).2
      (by decide)⟩

/-- C36 (the code at the failing input): for the sp shell with coefficient rows `[1]`,
`[2]` and the s shell with the row `[3]`, both well formed with valid codes,
`ungeneralize_basis_set` of the concatenation has the coefficients 1, 2, 2 while the
concatenation of the two results of `ungeneralize_basis_set` has 1, 2, 3. -/
theorem ungeneralize_concatenate_mismatch :
    well_formed general_only ∧ valid_codes general_only ∧
    well_formed plain_only ∧ valid_codes plain_only ∧
    ungeneralize_basis_set (basis_set_concatenate general_only plain_only) =
      .ok { centers := [0, 0, 0, 0, 0, 0, 0, 0, 0], ngens := [1, 1, 1],
            nprims := [1, 1, 1], coefs := [1, 2, 2], alphas := [5, 5, 6],
            types := [.SphericalGaussian, .SphericalGaussian, .SphericalGaussian],
            ls := [0, 1, 0] } ∧
    (ungeneralize_basis_set general_only >>= fun a =>
      ungeneralize_basis_set plain_only >>= fun b =>
        pure (basis_set_concatenate a b)) =
      .ok { centers := [0, 0, 0, 0, 0, 0, 0, 0, 0], ngens := [1, 1, 1],
            nprims := [1, 1, 1], coefs := [1, 2, 3], alphas := [5, 5, 6],
            types := [.SphericalGaussian, .SphericalGaussian, .SphericalGaussian],
            ls := [0, 1, 0] } :=
  ⟨by decide, by decide, by decide, by decide, rfl, rfl⟩

theorem operator_eq_symm [DecidableEq R] (a b : Atom R) :
    Atom.operator_eq a b = Atom.operator_eq b a := by
  rw [Bool.eq_iff_iff]
  simp only [Atom.operator_eq, Bool.and_eq_true, decide_eq_true_eq]
  constructor
  · rintro ⟨⟨⟨⟨⟨⟨⟨⟨⟨h1, h2⟩, h3⟩, h4⟩, h5⟩, h6⟩, h7⟩, h8⟩, h9⟩, h10⟩
    exact ⟨⟨⟨⟨⟨⟨⟨⟨⟨h1.symm, h2.symm⟩, h3.symm⟩, h4.symm⟩, h5.symm⟩, h6.symm⟩, h7.symm⟩,
      h8.symm⟩, h9.symm⟩, fun i => (h10 i).symm⟩
  · rintro ⟨⟨⟨⟨⟨⟨⟨⟨⟨h1, h2⟩, h3⟩, h4⟩, h5⟩, h6⟩, h7⟩, h8⟩, h9⟩, h10⟩
    exact ⟨⟨⟨⟨⟨⟨⟨⟨⟨h1.symm, h2.symm⟩, h3.symm⟩, h4.symm⟩, h5.symm⟩, h6.symm⟩, h7.symm⟩,
      h8.symm⟩, h9.symm⟩, fun i => (h10 i).symm⟩

theorem insert_pairwise [DecidableEq R] (s : SetOfAtoms R) (a : Atom R)
    (h : s.atoms_.Pairwise (fun x y => Atom.operator_eq x y = false)) :
    (s.insert a).atoms_.Pairwise (fun x y => Atom.operator_eq x y = false) := by
  unfold SetOfAtoms.insert
  cases hc : s.count a with
  | true => simpa using h
  | false =>
    simp only [Bool.not_false, if_true]
    rw [List.pairwise_append]
    refine ⟨h, List.pairwise_singleton _ _, ?_⟩
    intro x hx y hy
    rw [List.mem_singleton] at hy
    subst hy
    unfold SetOfAtoms.count at hc
    cases hf : s.atoms_.find? (fun x => Atom.operator_eq x y) with
    | none =>
      rw [List.find?_eq_none] at hf
      simpa using hf x hx
    | some z =>
      rw [hf] at hc
      simp at hc

theorem foldl_insert_pairwise [DecidableEq R] (l : List (Atom R)) :
    ∀ s : SetOfAtoms R, s.atoms_.Pairwise (fun x y => Atom.operator_eq x y = false) →
      (l.foldl SetOfAtoms.insert s).atoms_.Pairwise
        (fun x y => Atom.operator_eq x y = false) := by
  induction l with
  | nil => exact fun s h => h
  | cons a l ih => exact fun s h => ih (s.insert a) (insert_pairwise s a h)

/-- C39: in a set obtained from a set without atoms by any sequence of `insert` calls,
the atoms at two distinct indices never compare equal under `Atom::operator==`. -/
theorem insert_keeps_atoms_distinct [DecidableEq R] (s0 : SetOfAtoms R)
    (h0 : s0.atoms_ = []) (l : List (Atom R)) (i j : Nat) (a b : Atom R) (hij : i ≠ j)
    (ha : (l.foldl SetOfAtoms.insert s0).atoms_[i]? = some a)
    (hb : (l.foldl SetOfAtoms.insert s0).atoms_[j]? = some b) :
    Atom.operator_eq a b = false := by
  have hp := foldl_insert_pairwise l s0 (by rw [h0]; exact List.Pairwise.nil)
  rw [List.pairwise_iff_getElem] at hp
  obtain ⟨hi, ha⟩ := List.getElem?_eq_some_iff.mp ha
  obtain ⟨hj, hb⟩ := List.getElem?_eq_some_iff.mp hb
  subst ha hb
  rcases Nat.lt_or_gt_of_ne hij with h | h
  · exact hp i j hi hj h
  · rw [operator_eq_symm]
    exact hp j i hj hi h

theorem insert_keeps_atoms_distinct_witness :
    (([test_U, test_F, test_U_with_shell] : List (Atom Int)).foldl SetOfAtoms.insert
      test_default_set).atoms_ = [test_U, test_F] ∧
    Atom.operator_eq test_U test_F = false :=
  ⟨rfl,
    insert_keeps_atoms_distinct test_default_set rfl
      [test_U, test_F, test_U_with_shell] 0 1 test_U test_F (by decide) rfl rfl⟩

theorem parse_basis_set_line_skip (reader : TextReader R) (parser : BasisSetFileParser R)
    (s : BasisFileState R) (line : List Char) (h : parser.worth_parsing line = .none) :
    parse_basis_set_line reader parser s line = .ok s := by
  unfold parse_basis_set_line
  rw [h]

theorem parse_basis_set_lines_skip (reader : TextReader R) (parser : BasisSetFileParser R)
    (before after : List (List Char)) (line : List Char)
    (h : parser.worth_parsing line = .none) :
    parse_basis_set_lines reader parser (before ++ line :: after) =
      parse_basis_set_lines reader parser (before ++ after) := by
  have key : ∀ s0 : BasisFileState R,
      List.foldlM (parse_basis_set_line reader parser) s0 (line :: after) =
        List.foldlM (parse_basis_set_line reader parser) s0 after := by
    intro s0
    rw [List.foldlM_cons, parse_basis_set_line_skip reader parser s0 line h]
    rfl
  unfold parse_basis_set_lines
  rw [List.foldlM_append, List.foldlM_append]
  simp only [key]

theorem max_am_int_eq (e : BasisSet R)
    (hr : ∀ l, l ∈ e.ls → -2147483648 < l ∧ l < 2147483648) :
    e.max_am_int = e.max_am := by
  unfold BasisSet.max_am_int BasisSet.max_am
  cases hmin : min_element e.ls with
  | none => rfl
  | some n =>
    cases hmax : max_element e.ls with
    | none => rfl
    | some m =>
      have hne : e.ls ≠ [] := by
        intro h
        rw [h] at hmin
        simp [min_element] at hmin
      obtain ⟨n', hn', hn1, hn2⟩ := min_element_spec e.ls hne
      obtain ⟨m', hm', hm1, _⟩ := max_element_spec e.ls hne
      rw [hmin] at hn'
      rw [hmax] at hm'
      injection hn' with hn'
      injection hm' with hm'
      subst hn' hm'
      obtain ⟨a1, a2⟩ := hr _ hn1
      obtain ⟨b1, b2⟩ := hr _ hm1
      have hnm := hn2 _ hm1
      have key : ∀ v : Int, 0 ≤ v → v < 2147483648 → size_t_of_int v = v.toNat := by
        intro v v1 v2
        unfold size_t_of_int
        omega
      have hw : int_wrap (-1 * n) = -1 * n := by
        unfold int_wrap
        omega
      simp only
      congr 1
      rw [hw]
      apply key
      · unfold std_max
        split
        · split <;> omega
        · omega
      · unfold std_max
        split
        · split <;> omega
        · omega

/-- C13 (as the claim states it, refuted): for the encoder whose only code is the
smallest `int`, the product `-1*min` does not fit an `int`, and `max_am()` returns
18446744071562067968 where `max(m, -n)` is 2147483648. -/
theorem max_am_overflows_at_int_min :
    ¬ (∀ e : BasisSet Int, e.ls ≠ [] →
        (∀ l, l ∈ e.ls → -2147483648 ≤ l ∧ l < 2147483648) →
        ∃ m n : Int, (m ∈ e.ls ∧ ∀ l, l ∈ e.ls → l ≤ m) ∧
          (n ∈ e.ls ∧ ∀ l, l ∈ e.ls → n ≤ l) ∧
          ∃ r : Nat, e.max_am_int = .ok r ∧
            (r : Int) = if n < 0 then max m (-n) else m) := by
  intro h
  obtain ⟨m, n, ⟨hm, _⟩, ⟨hn, _⟩, r, hr, hv⟩ := h int_min_only (by decide) (by decide)
  have h1 : int_min_only.max_am_int = .ok 18446744071562067968 := by decide
  rw [h1] at hr
  injection hr with hr
  have hm' : m = -2147483648 := by simpa [int_min_only] using hm
  have hn' : n = -2147483648 := by simpa [int_min_only] using hn
  subst hm' hn' hr
  revert hv
  decide

/-- C13 (amended): for an encoder with at least one shell whose codes are `int` values
above the smallest `int`, `max_am()` returns `max(m, -n)` when `n < 0` and `m`
otherwise, `m` being the largest and `n` the smallest element of `ls`; an encoder
holding only the code -2 gives 2, one holding only the code 1 gives 1 and the encoder
of the unit tests, with `ls = {2, -1}`, gives 2. -/
theorem max_am_int_spec (e : BasisSet R) (h : e.ls ≠ [])
    (hr : ∀ l, l ∈ e.ls → -2147483648 < l ∧ l < 2147483648) :
    (∃ m n : Int, (m ∈ e.ls ∧ ∀ l, l ∈ e.ls → l ≤ m) ∧
      (n ∈ e.ls ∧ ∀ l, l ∈ e.ls → n ≤ l) ∧
      ∃ r : Nat, e.max_am_int = .ok r ∧ (r : Int) = if n < 0 then max m (-n) else m) ∧
    spd_only.max_am_int = .ok 2 ∧ p_only.max_am_int = .ok 1 ∧
    test_bs.max_am_int = .ok 2 := by
  refine ⟨?_, by decide, by decide, by decide⟩
  rw [max_am_int_eq e hr]
  exact max_am_value e h

theorem max_am_int_spec_witness :
    test_bs.ls ≠ [] ∧ (∀ l, l ∈ test_bs.ls → -2147483648 < l ∧ l < 2147483648) ∧
    ∃ m n : Int, (m ∈ test_bs.ls ∧ ∀ l, l ∈ test_bs.ls → l ≤ m) ∧
      (n ∈ test_bs.ls ∧ ∀ l, l ∈ test_bs.ls → n ≤ l) ∧
      ∃ r : Nat, test_bs.max_am_int = .ok r ∧
        (r : Int) = if n < 0 then max m (-n) else m :=
  ⟨by decide, by decide, (max_am_int_spec test_bs (by decide) (by decide)).1⟩

theorem binomial_coefficient_size_t_step (n k : Nat) (hn : n < 18446744073709551616)
    (hk : k < 18446744073709551616) (h1 : ¬ (k = 0 ∨ k = n))
    (h2 : ¬ (k > n ∨ k < 0 ∨ n < 0)) :
    0 < n ∧ 0 < k ∧ size_t_dec n = n - 1 ∧ size_t_dec k = k - 1 ∧
    binomial_coefficient_size_t n k =
      (binomial_coefficient_size_t (n - 1) (k - 1) +
        binomial_coefficient_size_t (n - 1) k) % 18446744073709551616 := by
  have d1 : size_t_dec n = n - 1 := by unfold size_t_dec; omega
  have d2 : size_t_dec k = k - 1 := by unfold size_t_dec; omega
  refine ⟨by omega, by omega, d1, d2, ?_⟩
  rw [binomial_coefficient_size_t, if_neg h1, if_neg h2, d1, d2]

theorem choose_68_34 : 18446744073709551616 ≤ Nat.choose 68 34 := by
  rw [Nat.choose_eq_factorial_div_factorial (by norm_num)]
  norm_num [Nat.factorial]

/-- C37 (as the claim states it, refuted): `C(68, 34)` does not fit a 64-bit `size_t`, so
`binomial_coefficient<size_t>(68, 34)`, whose sums wrap modulo `2^64`, is not
`C(68, 34)`. -/
theorem binomial_coefficient_size_t_wraps :
    ¬ (∀ n k : Nat, n < 18446744073709551616 → k < 18446744073709551616 →
        binomial_coefficient_size_t n k = Nat.choose n k) := by
  intro h
  have h1 := h 68 34 (by decide) (by decide)
  rw [binomial_coefficient_size_t_eq 68 34 (by decide)] at h1
  have h2 := Nat.mod_lt (Nat.choose 68 34) (by decide : 0 < 18446744073709551616)
  have h3 := choose_68_34
  omega

/-- C37 (amended): for all 64-bit unsigned `n` and `k`, `binomial_coefficient(n, k)`
terminates (the recursion is on `n`) and returns `C(n, k)` modulo `2^64`, hence
`C(n, k)` itself whenever `C(n, k) < 2^64`, and 0 when `k > n`; the recursive calls
with `n-1` and `k-1` are made only when `n` and `k` are positive, so no zero is
decremented. -/
theorem binomial_coefficient_size_t_spec (n k : Nat) (hn : n < 18446744073709551616)
    (hk : k < 18446744073709551616) :
    binomial_coefficient_size_t n k = Nat.choose n k % 18446744073709551616 ∧
    (Nat.choose n k < 18446744073709551616 →
      binomial_coefficient_size_t n k = Nat.choose n k) ∧
    (n < k → binomial_coefficient_size_t n k = 0) ∧
    (¬ (k = 0 ∨ k = n) → ¬ (k > n ∨ k < 0 ∨ n < 0) →
      0 < n ∧ 0 < k ∧ size_t_dec n = n - 1 ∧ size_t_dec k = k - 1 ∧
      binomial_coefficient_size_t n k =
        (binomial_coefficient_size_t (n - 1) (k - 1) +
          binomial_coefficient_size_t (n - 1) k) % 18446744073709551616) := by
  have he := binomial_coefficient_size_t_eq n k hn
  refine ⟨he, fun hc => ?_, fun h => ?_, binomial_coefficient_size_t_step n k hn hk⟩
  · rw [he, Nat.mod_eq_of_lt hc]
  · rw [he, Nat.choose_eq_zero_of_lt h]

theorem binomial_coefficient_size_t_spec_witness :
    (5 : Nat) < 18446744073709551616 ∧ (2 : Nat) < 18446744073709551616 ∧
    Nat.choose 5 2 = 10 ∧ binomial_coefficient_size_t 5 2 = Nat.choose 5 2 ∧
    binomial_coefficient_size_t 2 3 = 0 ∧
    binomial_coefficient_size_t 5 2 =
      (binomial_coefficient_size_t (5 - 1) (2 - 1) +
        binomial_coefficient_size_t (5 - 1) 2) % 18446744073709551616 :=
  ⟨by decide, by decide, by decide,
    (binomial_coefficient_size_t_spec 5 2 (by decide) (by decide)).2.1 (by decide),
    (binomial_coefficient_size_t_spec 2 3 (by decide) (by decide)).2.2.1 (by decide),
    ((binomial_coefficient_size_t_spec 5 2 (by decide) (by decide)).2.2.2 (by decide)
      (by decide)).2.2.2.2⟩

theorem choose_add_two (m : Nat) : Nat.choose (m + 2) m = (m + 1) * (m + 2) / 2 := by
  rw [Nat.choose_symm_add, Nat.choose_two_right]
  congr 1
  simp [Nat.mul_comm]

theorem multinomial_coefficient_size_t_three (m : Nat) (h : m + 3 < 18446744073709551616) :
    multinomial_coefficient_size_t 3 m =
      ((m + 1) * (m + 2) / 2) % 18446744073709551616 := by
  have hm3 : (3 + m) % 18446744073709551616 = m + 3 := by omega
  unfold multinomial_coefficient_size_t
  rw [hm3, size_t_dec_succ (m + 2) (by omega),
    binomial_coefficient_size_t_eq (m + 2) m (by omega), choose_add_two]

/-- C38 (as the claim states it, refuted): at `m = 2^33` the number `(m+1)(m+2)/2` does
not fit a 64-bit `size_t`, and `multinomial_coefficient<size_t>(3, m)` is that number
modulo `2^64`. -/
theorem multinomial_coefficient_size_t_wraps :
    ¬ (∀ m : Nat, m < 18446744073709551616 →
        multinomial_coefficient_size_t 3 m = (m + 1) * (m + 2) / 2) := by
  intro h
  have h1 := h 8589934592 (by decide)
  rw [multinomial_coefficient_size_t_three 8589934592 (by decide)] at h1
  revert h1
  decide

/-- C38 (amended): for every unsigned `m` with `(m+1)(m+2)/2 < 2^64`,
`multinomial_coefficient(3, m)` equals `C(3+m-1, m) = (m+1)(m+2)/2`, the number of
ways to choose `m` items from 3 with repetition: 1, 3, 6, 10 for `m` = 0, 1, 2, 3;
for a larger `m` below `2^64 - 3` it is that number modulo `2^64`. -/
theorem multinomial_coefficient_size_t_spec (m : Nat) :
    ((m + 1) * (m + 2) / 2 < 18446744073709551616 →
      multinomial_coefficient_size_t 3 m = Nat.choose (3 + m - 1) m ∧
      multinomial_coefficient_size_t 3 m = (m + 1) * (m + 2) / 2) ∧
    (m + 3 < 18446744073709551616 →
      multinomial_coefficient_size_t 3 m =
        ((m + 1) * (m + 2) / 2) % 18446744073709551616) ∧
    multinomial_coefficient_size_t 3 0 = 1 ∧ multinomial_coefficient_size_t 3 1 = 3 ∧
    multinomial_coefficient_size_t 3 2 = 6 ∧ multinomial_coefficient_size_t 3 3 = 10 := by
  have e0 := multinomial_coefficient_size_t_three 0 (by decide)
  have e1 := multinomial_coefficient_size_t_three 1 (by decide)
  have e2 := multinomial_coefficient_size_t_three 2 (by decide)
  have e3 := multinomial_coefficient_size_t_three 3 (by decide)
  refine ⟨fun hm => ?_, multinomial_coefficient_size_t_three m, e0, e1, e2, e3⟩
  have hlt : m + 3 < 18446744073709551616 := by
    by_cases h2 : m < 2
    · omega
    · have h5 : (m + 1) * (m + 2) = m * m + 3 * m + 2 := by ring
      have h4 : 2 * m ≤ m * m := Nat.mul_le_mul_right m (by omega)
      omega
  have h := multinomial_coefficient_size_t_three m hlt
  rw [Nat.mod_eq_of_lt hm] at h
  have hs : 3 + m - 1 = m + 2 := by omega
  exact ⟨by rw [h, hs, choose_add_two], h⟩

theorem multinomial_coefficient_size_t_spec_witness :
    (2 + 1) * (2 + 2) / 2 < 18446744073709551616 ∧
    multinomial_coefficient_size_t 3 2 = (2 + 1) * (2 + 2) / 2 ∧
    (8589934592 : Nat) + 3 < 18446744073709551616 ∧
    multinomial_coefficient_size_t 3 8589934592 =
      ((8589934592 + 1) * (8589934592 + 2) / 2) % 18446744073709551616 :=
  ⟨by decide, ((multinomial_coefficient_size_t_spec 2).1 (by decide)).2, by decide,
    (multinomial_coefficient_size_t_spec 8589934592).2.1 (by decide)⟩

theorem vector_eq_self {α : Type} (eq : α → α → Bool) (l : List α) :
    vector_eq eq l l = true ↔ ∀ x, x ∈ l → eq x x = true := by
  induction l with
  | nil => simp [vector_eq]
  | cons x l ih => simp [vector_eq, ih]

theorem vector_eq_values {α : Type} [DecidableEq α] (l1 l2 : List α) :
    vector_eq (fun x y => decide (x = y)) l1 l2 = decide (l1 = l2) := by
  induction l1 generalizing l2 with
  | nil => cases l2 <;> simp [vector_eq]
  | cons x l1 ih =>
    cases l2 with
    | nil => simp [vector_eq]
    | cons y l2 =>
      simp only [vector_eq, ih, List.cons.injEq]
      by_cases h1 : x = y <;> by_cases h2 : l1 = l2 <;> simp [h1, h2]

theorem operator_eq_ieee_values [DecidableEq R] (a b : BasisSet R) :
    BasisSet.operator_eq_ieee (fun x y => decide (x = y)) a b = BasisSet.operator_eq a b := by
  simp only [BasisSet.operator_eq_ieee, BasisSet.operator_eq, vector_eq_values]

theorem operator_eq_ieee_self (eq : R → R → Bool) (a : BasisSet R) :
    BasisSet.operator_eq_ieee eq a a = true ↔
      ∀ x, x ∈ a.centers ++ a.coefs ++ a.alphas → eq x x = true := by
  simp only [BasisSet.operator_eq_ieee, Bool.and_eq_true, decide_eq_true_eq, vector_eq_self,
    List.mem_append]
  constructor
  · rintro ⟨⟨⟨⟨⟨⟨h1, _⟩, _⟩, h2⟩, h3⟩, _⟩, _⟩ x hx
    rcases hx with (hx | hx) | hx
    · exact h1 x hx
    · exact h2 x hx
    · exact h3 x hx
  · intro h
    exact ⟨⟨⟨⟨⟨⟨fun x hx => h x (Or.inl (Or.inl hx)), trivial⟩, trivial⟩,
      fun x hx => h x (Or.inl (Or.inr hx))⟩, fun x hx => h x (Or.inr hx)⟩, trivial⟩, trivial⟩

theorem ungeneralize_doubles_subset (e rv : BasisSet R) (hwf : well_formed e)
    (h : ungeneralize_basis_set e = .ok rv) (x : R)
    (hx : x ∈ rv.centers ++ rv.coefs ++ rv.alphas) :
    x ∈ e.centers ++ e.coefs ++ e.alphas := by
  have hrv := ungeneralize_ok_eq e rv hwf h
  obtain ⟨_, f2, _, _, _, f6, f7⟩ :=
    flatten_emitted_fields e (fun i j => am_2int_value (e.ls.getD i 0) j) (sub_shells e) rv
      hrv
  simp only [List.mem_append] at hx ⊢
  rcases hx with (hx | hx) | hx
  · rw [f2, List.mem_flatMap] at hx
    obtain ⟨p, _, hp⟩ := hx
    exact Or.inl (Or.inl (List.mem_of_mem_drop (List.mem_of_mem_take hp)))
  · rw [f7, List.mem_flatMap] at hx
    obtain ⟨p, _, hp⟩ := hx
    exact Or.inl (Or.inr (List.mem_of_mem_drop (List.mem_of_mem_take hp)))
  · rw [f6, List.mem_flatMap] at hx
    obtain ⟨p, _, hp⟩ := hx
    exact Or.inr (List.mem_of_mem_drop (List.mem_of_mem_take hp))

/-- C9 (as the claim states it, refuted): for the encoder whose coefficient is a NaN,
`ungeneralize_basis_set` returns the same arrays at the first and at the second call,
and `operator==` finds the two results unequal, the NaN being unequal to itself. -/
theorem ungeneralize_idempotent_fails_on_nan :
    ¬ (∀ e : BasisSet Dbl, well_formed e → valid_codes e →
        ∀ rv, ungeneralize_basis_set e = .ok rv →
          ∃ rv2, ungeneralize_basis_set rv = .ok rv2 ∧
            BasisSet.operator_eq_ieee Dbl.ieee_eq rv2 rv = true) := by
  intro h
  have h1 : ungeneralize_basis_set nan_encoder = .ok nan_encoder := rfl
  obtain ⟨rv2, hrv2, he⟩ := h nan_encoder (by decide) (by decide) nan_encoder h1
  rw [h1] at hrv2
  injection hrv2 with hrv2
  subst hrv2
  revert he
  decide

/-- C9 (amended): on a well-formed encoder with valid codes, un-generalizing the result
of `ungeneralize_basis_set` again returns an encoder with the same seven arrays;
`operator==` finds the two results equal exactly when no stored double of the result
is unequal to itself, in particular when the encoder holds no NaN.  The first call
returns when every shell has a contraction. -/
theorem ungeneralize_idempotent_ieee (eq : R → R → Bool) (e : BasisSet R)
    (hwf : well_formed e) (hv : valid_codes e) :
    ((∀ g, g ∈ e.ngens → 1 ≤ g) → ∃ rv, ungeneralize_basis_set e = .ok rv) ∧
    ∀ rv, ungeneralize_basis_set e = .ok rv →
      ∃ rv2, ungeneralize_basis_set rv = .ok rv2 ∧ rv2 = rv ∧
        (BasisSet.operator_eq_ieee eq rv2 rv = true ↔
          ∀ x, x ∈ rv.centers ++ rv.coefs ++ rv.alphas → eq x x = true) ∧
        ((∀ x, x ∈ e.centers ++ e.coefs ++ e.alphas → eq x x = true) →
          BasisSet.operator_eq_ieee eq rv2 rv = true) := by
  refine ⟨ungeneralize_returns e hwf hv, fun rv h => ?_⟩
  obtain ⟨hw, h1, hl⟩ := ungeneralize_result_props e rv hwf h
  refine ⟨rv, ungeneralize_ones rv hw h1 hl, rfl, operator_eq_ieee_self eq rv, fun hn => ?_⟩
  rw [operator_eq_ieee_self]
  exact fun x hx => hn x (ungeneralize_doubles_subset e rv hwf h x hx)

theorem ungeneralize_idempotent_ieee_witness :
    well_formed test_bs ∧ valid_codes test_bs ∧
    ∃ rv, ungeneralize_basis_set test_bs = .ok rv ∧
      ∃ rv2, ungeneralize_basis_set rv = .ok rv2 ∧ rv2 = rv ∧
        BasisSet.operator_eq_ieee (fun x y => decide (x = y)) rv2 rv = true := by
  have h := ungeneralize_idempotent_ieee (fun x y => decide (x = y)) test_bs (by decide)
    (by decide)
  obtain ⟨rv, hrv⟩ := h.1 (by decide)
  obtain ⟨rv2, h2, h3, _, h5⟩ := h.2 rv hrv
  exact ⟨by decide, by decide, rv, hrv, rv2, h2, h3, h5 (fun x _ => by simp)⟩

/-- C12 (as the claim states it, refuted): for three copies of the encoder whose
coefficient is a NaN, `operator==` finds the two ways of concatenating unequal. -/
theorem basis_set_concatenate_assoc_fails_on_nan :
    ¬ (∀ a b c : BasisSet Dbl,
        BasisSet.operator_eq_ieee Dbl.ieee_eq
          (basis_set_concatenate (basis_set_concatenate a b) c)
          (basis_set_concatenate a (basis_set_concatenate b c)) = true) := by
  intro h
  have h1 := h nan_encoder nan_encoder nan_encoder
  revert h1
  decide

/-- C12 (amended): concatenating (`a` with `b`) and then `c` gives the same seven arrays
as concatenating `a` with (`b` concatenated with `c`); `operator==` finds the two
encoders equal exactly when no double stored in the result is unequal to itself, in
particular when `a`, `b` and `c` hold no NaN. -/
theorem basis_set_concatenate_assoc_ieee (eq : R → R → Bool) (a b c : BasisSet R) :
    basis_set_concatenate (basis_set_concatenate a b) c =
      basis_set_concatenate a (basis_set_concatenate b c) ∧
    (BasisSet.operator_eq_ieee eq
        (basis_set_concatenate (basis_set_concatenate a b) c)
        (basis_set_concatenate a (basis_set_concatenate b c)) = true ↔
      ∀ x, x ∈ (basis_set_concatenate a (basis_set_concatenate b c)).centers ++
          (basis_set_concatenate a (basis_set_concatenate b c)).coefs ++
          (basis_set_concatenate a (basis_set_concatenate b c)).alphas → eq x x = true) ∧
    ((∀ x, x ∈ a.centers ++ a.coefs ++ a.alphas ++ (b.centers ++ b.coefs ++ b.alphas) ++
          (c.centers ++ c.coefs ++ c.alphas) → eq x x = true) →
      BasisSet.operator_eq_ieee eq
        (basis_set_concatenate (basis_set_concatenate a b) c)
        (basis_set_concatenate a (basis_set_concatenate b c)) = true) := by
  have h := concatenate_assoc a b c
  rw [h]
  refine ⟨rfl, operator_eq_ieee_self eq _, fun hn => ?_⟩
  rw [operator_eq_ieee_self]
  intro x hx
  apply hn
  simp only [basis_set_concatenate, vector_cat, List.mem_append] at hx ⊢
  tauto

theorem basis_set_concatenate_assoc_ieee_witness :
    BasisSet.operator_eq_ieee (fun x y => decide (x = y))
      (basis_set_concatenate (basis_set_concatenate test_bs spd_only) p_only)
      (basis_set_concatenate test_bs (basis_set_concatenate spd_only p_only)) = true :=
  (basis_set_concatenate_assoc_ieee (fun x y => decide (x = y)) test_bs spd_only p_only).2.2
    (fun x _ => by simp)

theorem count_ieee_eq_false (eq : R → R → Bool) (s : SetOfAtoms R) (a : Atom R) :
    SetOfAtoms.count_ieee eq s a = false ↔
      ∀ x, x ∈ s.atoms_ → Atom.operator_eq_ieee eq x a = false := by
  unfold SetOfAtoms.count_ieee
  cases hf : s.atoms_.find? (fun x => Atom.operator_eq_ieee eq x a) with
  | none =>
    rw [List.find?_eq_none] at hf
    simp only [Option.isSome_none, true_iff]
    intro x hx
    simpa using hf x hx
  | some z =>
    simp only [Option.isSome_some, Bool.true_eq_false, false_iff]
    intro h
    have h1 := List.find?_some hf
    have h2 := List.mem_of_find?_eq_some hf
    rw [h z h2] at h1
    cases h1

/-- C27 (as the claim states it, refuted): an atom whose mass is a NaN is unequal to
itself under `Atom::operator==`, so after `insert` has appended it to the empty set
`count` still does not find it. -/
theorem insert_then_count_fails_on_nan :
    ¬ (∀ (s : SetOfAtoms Dbl) (a : Atom Dbl),
        SetOfAtoms.count_ieee Dbl.ieee_eq (SetOfAtoms.insert_ieee Dbl.ieee_eq s a) a =
          true) := by
  intro h
  have h1 := h nan_default_set nan_atom
  have h2 : SetOfAtoms.count_ieee Dbl.ieee_eq
      (SetOfAtoms.insert_ieee Dbl.ieee_eq nan_default_set nan_atom) nan_atom = false := rfl
  rw [h2] at h1
  cases h1

/-- C27 (amended): when `s.count(a)` is true `s.insert(a)` leaves `s` unchanged;
otherwise it appends `a` as the atom at index `size()`, the size grows by one and the
earlier atoms, the charge and the multiplicity are unchanged; `count(a)` is true
afterwards exactly when it was true before or `a == a`, which holds for every atom
without a NaN member. -/
theorem insert_spec_ieee (eq : R → R → Bool) (s : SetOfAtoms R) (a : Atom R) :
    (SetOfAtoms.count_ieee eq s a = true → SetOfAtoms.insert_ieee eq s a = s) ∧
    (SetOfAtoms.count_ieee eq s a = false →
      (SetOfAtoms.insert_ieee eq s a).atoms_ = s.atoms_ ++ [a] ∧
      (SetOfAtoms.insert_ieee eq s a).get s.size = .ok a ∧
      (SetOfAtoms.insert_ieee eq s a).size = s.size + 1 ∧
      (∀ i, i < s.size → (SetOfAtoms.insert_ieee eq s a).get i = s.get i) ∧
      (SetOfAtoms.insert_ieee eq s a).charge = s.charge ∧
      (SetOfAtoms.insert_ieee eq s a).multiplicity = s.multiplicity) ∧
    (SetOfAtoms.count_ieee eq (SetOfAtoms.insert_ieee eq s a) a = true ↔
      (SetOfAtoms.count_ieee eq s a = true ∨ Atom.operator_eq_ieee eq a a = true)) ∧
    (Atom.operator_eq_ieee eq a a = true →
      SetOfAtoms.count_ieee eq (SetOfAtoms.insert_ieee eq s a) a = true) := by
  have hafter : SetOfAtoms.count_ieee eq (SetOfAtoms.insert_ieee eq s a) a = true ↔
      (SetOfAtoms.count_ieee eq s a = true ∨ Atom.operator_eq_ieee eq a a = true) := by
    cases h : SetOfAtoms.count_ieee eq s a with
    | true =>
      have hi : SetOfAtoms.insert_ieee eq s a = s := by simp [SetOfAtoms.insert_ieee, h]
      rw [hi, h]
      simp
    | false =>
      have hi : SetOfAtoms.insert_ieee eq s a = { s with atoms_ := s.atoms_ ++ [a] } := by
        simp [SetOfAtoms.insert_ieee, h]
      rw [hi]
      have hn := (count_ieee_eq_false eq s a).mp h
      have hf : s.atoms_.find? (fun x => Atom.operator_eq_ieee eq x a) = none := by
        rw [List.find?_eq_none]
        intro x hx
        simp [hn x hx]
      cases haa : Atom.operator_eq_ieee eq a a <;>
        simp [SetOfAtoms.count_ieee, List.find?_append, hf, haa]
  refine ⟨fun h => ?_, fun h => ?_, hafter, fun h => hafter.mpr (Or.inr h)⟩
  · simp [SetOfAtoms.insert_ieee, h]
  · have hi : SetOfAtoms.insert_ieee eq s a = { s with atoms_ := s.atoms_ ++ [a] } := by
      simp [SetOfAtoms.insert_ieee, h]
    rw [hi]
    refine ⟨rfl, ?_, ?_, ?_, rfl, rfl⟩
    · simp [SetOfAtoms.get, SetOfAtoms.size, vget]
    · simp [SetOfAtoms.size]
    · intro i hlt
      simp only [SetOfAtoms.get, SetOfAtoms.size, vget] at *
      rw [List.getElem?_append_left hlt]

theorem insert_spec_ieee_witness :
    SetOfAtoms.count_ieee (fun x y => decide (x = y)) test_default_set test_U = false ∧
    (SetOfAtoms.insert_ieee (fun x y => decide (x = y)) test_default_set test_U).atoms_ =
      [test_U] ∧
    Atom.operator_eq_ieee (fun x y => decide (x = y)) test_U test_U = true ∧
    SetOfAtoms.count_ieee (fun x y => decide (x = y))
      (SetOfAtoms.insert_ieee (fun x y => decide (x = y)) test_default_set test_U) test_U =
        true ∧
    SetOfAtoms.count_ieee Dbl.ieee_eq nan_default_set nan_atom = false ∧
    (SetOfAtoms.insert_ieee Dbl.ieee_eq nan_default_set nan_atom).atoms_ = [nan_atom] :=
  ⟨rfl,
    ((insert_spec_ieee (fun x y => decide (x = y)) test_default_set test_U).2.1 rfl).1,
    rfl,
    (insert_spec_ieee (fun x y => decide (x = y)) test_default_set test_U).2.2.2 rfl,
    rfl,
    ((insert_spec_ieee Dbl.ieee_eq nan_default_set nan_atom).2.1 rfl).1⟩

theorem apply_basis_set_atom (conv : DoubleConv R) (name : String)
    (bs : List (Nat × List (BasisShell R))) (atoms : SetOfAtoms R) (i : Nat) (a : Atom R)
    (ha : atoms.atoms_[i]? = some a) :
    ∃ b : Atom R, (apply_basis_set conv name bs atoms).atoms_[i]? = some b ∧
      b.Z = a.Z ∧ b.isotope = a.isotope ∧ b.mass = a.mass ∧
      b.isotope_mass = a.isotope_mass ∧ b.charge = a.charge ∧
      b.multiplicity = a.multiplicity ∧ b.nelectrons = a.nelectrons ∧
      b.cov_radius = a.cov_radius ∧ b.vdw_radius = a.vdw_radius ∧ b.coord = a.coord ∧
      (∀ shells, bs.lookup (conv.to_size_t a.Z) = some shells →
        b.shells_under name = a.shells_under name ++ shells ∧
        ∀ n, n ≠ name → b.basis_sets.lookup n = a.basis_sets.lookup n) ∧
      (bs.lookup (conv.to_size_t a.Z) = none → b = a) := by
  simp only [apply_basis_set, List.getElem?_map, ha, Option.map_some']
  cases hl : bs.lookup (conv.to_size_t a.Z) with
  | none =>
    exact ⟨a, rfl, rfl, rfl, rfl, rfl, rfl, rfl, rfl, rfl, rfl, rfl,
      fun _ h => (by cases h), fun _ => rfl⟩
  | some shells =>
    obtain ⟨h1, h2, h3, h4, h5, h6, h7, h8, h9, h10, h11, h12⟩ :=
      foldl_add_shell_frame name shells a
    refine ⟨_, rfl, h3, h4, h5, h6, h7, h8, h9, h10, h11, h12, ?_, fun h => (by cases h)⟩
    intro shells' hs
    injection hs with hs
    subst hs
    exact ⟨h1, h2⟩

/-- C30 (as the claim states it, refuted): with the truncating conversion
`size_t Z=ai.Z`, the atom with the nuclear charge 9.5 gets the shell stored under the
key 9, although no key of the map has 9.5 as its value. -/
theorem apply_basis_set_truncates_fractional_Z :
    ¬ (∀ (name : String) (bs : List (Nat × List (BasisShell Int))) (atoms : SetOfAtoms Int)
        (i : Nat) (a b : Atom Int), atoms.atoms_[i]? = some a →
        (apply_basis_set test_conv name bs atoms).atoms_[i]? = some b →
        (∀ k, k ∈ bs.map Prod.fst → test_conv.of_size_t k ≠ a.Z) →
        b.basis_sets = a.basis_sets) := by
  intro h
  have h1 := h "PRIMARY" test_basis test_fractional_set 0 test_fractional
    (test_fractional.add_shell "PRIMARY" test_shell) rfl rfl (by decide)
  have h2 := congrArg List.length h1
  revert h2
  decide

/-- C30 (amended): `apply_basis_set(name, bs, atoms)` returns a set with the charge, the
multiplicity and the number of atoms of `atoms`; the atom at each index keeps its
scalar members and coordinates; when its atomic number converted to `size_t` is a key
`k` of `bs` it stores under `name` its former shells followed by the shells `bs[k]` in
order and its entries under every other name are unchanged; when the converted number
is not a key the atom is unchanged.  For an atom whose atomic number is the whole
number `n`, the key is `n`, provided the conversion of the double of `n` gives `n`
back. -/
theorem apply_basis_set_converted_key (conv : DoubleConv R) (name : String)
    (bs : List (Nat × List (BasisShell R))) (atoms : SetOfAtoms R) :
    (apply_basis_set conv name bs atoms).charge = atoms.charge ∧
    (apply_basis_set conv name bs atoms).multiplicity = atoms.multiplicity ∧
    (apply_basis_set conv name bs atoms).size = atoms.size ∧
    ∀ (i : Nat) (a : Atom R), atoms.atoms_[i]? = some a →
      ∃ b : Atom R, (apply_basis_set conv name bs atoms).atoms_[i]? = some b ∧
        b.Z = a.Z ∧ b.isotope = a.isotope ∧ b.mass = a.mass ∧
        b.isotope_mass = a.isotope_mass ∧ b.charge = a.charge ∧
        b.multiplicity = a.multiplicity ∧ b.nelectrons = a.nelectrons ∧
        b.cov_radius = a.cov_radius ∧ b.vdw_radius = a.vdw_radius ∧ b.coord = a.coord ∧
        (∀ shells, bs.lookup (conv.to_size_t a.Z) = some shells →
          b.shells_under name = a.shells_under name ++ shells ∧
          ∀ n, n ≠ name → b.basis_sets.lookup n = a.basis_sets.lookup n) ∧
        (bs.lookup (conv.to_size_t a.Z) = none → b = a) ∧
        (∀ n : Nat, conv.to_size_t (conv.of_size_t n) = n → a.Z = conv.of_size_t n →
          (∀ shells, bs.lookup n = some shells →
            b.shells_under name = a.shells_under name ++ shells ∧
            ∀ m, m ≠ name → b.basis_sets.lookup m = a.basis_sets.lookup m) ∧
          (bs.lookup n = none → b = a)) := by
  refine ⟨rfl, rfl, by simp [apply_basis_set, SetOfAtoms.size], ?_⟩
  intro i a ha
  obtain ⟨b, hb, h1, h2, h3, h4, h5, h6, h7, h8, h9, h10, hk, hn⟩ :=
    apply_basis_set_atom conv name bs atoms i a ha
  refine ⟨b, hb, h1, h2, h3, h4, h5, h6, h7, h8, h9, h10, hk, hn, ?_⟩
  intro n hr hz
  rw [hz, hr] at hk hn
  exact ⟨hk, hn⟩

theorem apply_basis_set_converted_key_witness :
    test_UF.atoms_[0]? = some test_U ∧
    test_conv.to_size_t (test_conv.of_size_t 92) = 92 ∧ test_U.Z = test_conv.of_size_t 92 ∧
    test_basis.lookup 92 = some [test_general_shell] ∧
    ∃ b, test_UF_with_basis.atoms_[0]? = some b ∧
      b.shells_under "PRIMARY" = test_U.shells_under "PRIMARY" ++ [test_general_shell] := by
  obtain ⟨b, hb, _, _, _, _, _, _, _, _, _, _, _, _, hw⟩ :=
    (apply_basis_set_converted_key test_conv "PRIMARY" test_basis test_UF).2.2.2 0 test_U rfl
  exact ⟨rfl, rfl, rfl, rfl, b, hb, ((hw 92 rfl rfl).1 [test_general_shell] rfl).1⟩

theorem am_int2str_of_str2int (s : String) (l : Int) (h : am_str2int s = .ok l) :
    am_int2str l = .ok s := by
  have hmem := map_at_ok_mem toi_ s l h
  have hall : ∀ p, p ∈ toi_ → am_int2str p.2 = .ok p.1 := by decide
  exact hall (s, l) hmem

theorem G94_atom_line (reader : TextReader R) (line : List Char) (Z : Nat)
    (h : G94.is_atom_line reader line Z) :
    G94.worth_parsing line = .new_atom ∧
    G94.parse reader line = .ok [(.Z, [reader.conv.of_size_t Z])] := by
  obtain ⟨c, symbol, zero, hf, hc, hl⟩ := h
  have h1 : c ≠ '!' := by
    rintro rfl
    simp at hc
  have hw : G94.worth_parsing line = .new_atom := by
    unfold G94.worth_parsing
    rw [hf]
    simp [h1, hc]
  refine ⟨hw, ?_⟩
  unfold G94.parse
  rw [hw, hf]
  simp only [hl]
  rfl

theorem G94_shell_line (reader : TextReader R) (line : List Char) (l : Int) (ngen : Nat)
    (h : G94.is_shell_line line l ngen) :
    G94.worth_parsing line = .new_shell ∧
    G94.parse reader line = .ok [(.angular_momentum, [reader.of_int l])] ∧
    ∃ letters, am_int2str l = .ok letters ∧ letters.length = ngen := by
  obtain ⟨c, letters, nprim, scale, hf, hc, hl, hg⟩ := h
  have h1 : c ≠ '!' := by
    rintro rfl
    simp at hc
  have hw : G94.worth_parsing line = .new_shell := by
    unfold G94.worth_parsing
    rw [hf]
    simp [h1, hc]
  refine ⟨hw, ?_, _, am_int2str_of_str2int _ l hl, ?_⟩
  · unfold G94.parse
    rw [hw, hf]
    simp only [hl]
  · rw [hg]
    simp [String.length]

theorem G94_prim_line (reader : TextReader R) (line : List Char) (exponent : R)
    (coefs : List R) (h : G94.is_prim_line reader line exponent coefs) :
    G94.worth_parsing line = .same_shell ∧
    G94.parse reader line = .ok [(.exponent, [exponent]), (.coefficient, coefs)] := by
  obtain ⟨c, first, rest, hf, hc, h1, h2, hr, hne⟩ := h
  have hw : G94.worth_parsing line = .same_shell := by
    unfold G94.worth_parsing
    rw [hf]
    simp [h1, h2, hc]
  refine ⟨hw, ?_⟩
  unfold G94.parse
  rw [hw, hf]
  simp only [hr, bind, Except.bind]
  cases coefs with
  | nil => exact absurd rfl hne
  | cons x xs => rfl

theorem flush_key (s : BasisFileState R) : s.flush.key = s.key := by
  unfold BasisFileState.flush
  cases s.key <;> cases s.shell <;> rfl

theorem flush_shell (s : BasisFileState R) : s.flush.shell = none := by
  unfold BasisFileState.flush
  cases s.key <;> cases s.shell <;> rfl

theorem flush_out_of_none (s : BasisFileState R) (h : s.shell = none) :
    s.flush.out = s.out := by
  unfold BasisFileState.flush
  rw [h]
  cases s.key <;> rfl

theorem flush_out_of_some (s : BasisFileState R) (Z : Nat) (acc : ShellAccumulator R)
    (hk : s.key = some Z) (hs : s.shell = some acc) :
    s.flush.out = ordered_map_update s.out Z [] (fun shells => shells ++
      [BasisShell.make acc.type acc.l acc.ngen acc.alphas acc.cs.flatten]) := by
  unfold BasisFileState.flush
  rw [hk, hs]

theorem first_field_head {κ : Type} [DecidableEq κ] (key : κ) (x : R) (xs : List R)
    (rest : List (κ × List R)) :
    first_field ((key, x :: xs) :: rest) key = .ok x := by
  simp [first_field, List.lookup]

theorem step_atom (reader : TextReader R)
    (hZ : ∀ n, reader.conv.to_size_t (reader.conv.of_size_t n) = n)
    (s : BasisFileState R) (line : List Char) (Z : Nat)
    (h : G94.is_atom_line reader line Z) :
    parse_basis_set_line reader (G94 reader) s line =
      .ok { s.flush with key := some Z } := by
  obtain ⟨hw, hp⟩ := G94_atom_line reader line Z h
  unfold parse_basis_set_line
  simp only [G94, hw, hp, bind, Except.bind, first_field_head, hZ]
  rfl

theorem step_shell (reader : TextReader R) (hl : ∀ l, reader.to_int (reader.of_int l) = l)
    (s : BasisFileState R) (line : List Char) (l : Int) (ngen Z : Nat)
    (hk : s.key = some Z) (h : G94.is_shell_line line l ngen) :
    parse_basis_set_line reader (G94 reader) s line =
      .ok { s.flush with
        shell := some { type := reader.shell_type, l := l, ngen := ngen, alphas := [],
                        cs := List.replicate ngen [] } } := by
  obtain ⟨hw, hp, letters, hs, hlen⟩ := G94_shell_line reader line l ngen h
  unfold parse_basis_set_line
  simp only [G94, hw, hp, bind, Except.bind, first_field_head, hl, hk, hs, hlen]
  rfl

theorem step_prim (reader : TextReader R) (s : BasisFileState R) (line : List Char)
    (exponent : R) (coefs : List R) (acc : ShellAccumulator R) (hs : s.shell = some acc)
    (hc : coefs.length = acc.ngen) (h : G94.is_prim_line reader line exponent coefs) :
    parse_basis_set_line reader (G94 reader) s line =
      .ok { s with
        shell := some { acc with alphas := acc.alphas ++ [exponent],
                                 cs := List.zipWith (fun row c => row ++ [c]) acc.cs coefs } } := by
  obtain ⟨hw, hp⟩ := G94_prim_line reader line exponent coefs h
  unfold parse_basis_set_line
  simp only [G94, hw, hp, bind, Except.bind, first_field_head, hs]
  have hlk : List.lookup BasisSetFileParser.data_type.coefficient
      [(BasisSetFileParser.data_type.exponent, [exponent]),
       (BasisSetFileParser.data_type.coefficient, coefs)] = some coefs := rfl
  simp only [hlk, hc, if_true]
  rfl

theorem prims_run (reader : TextReader R) :
    ∀ (prims : List (G94Prim R)) (s : BasisFileState R) (acc : ShellAccumulator R),
      s.shell = some acc →
      (∀ p, p ∈ prims → G94.is_prim_line reader p.line p.exponent p.coefs ∧
        p.coefs.length = acc.ngen) →
      (prims.map (fun p => p.line)).foldlM (parse_basis_set_line reader (G94 reader)) s =
        .ok { s with
          shell := some { acc with
            alphas := acc.alphas ++ prims.map (fun p => p.exponent),
            cs := prims.foldl
              (fun cs p => List.zipWith (fun row c => row ++ [c]) cs p.coefs) acc.cs } } := by
  intro prims
  induction prims with
  | nil =>
    intro s acc hs _
    simp only [List.map_nil, List.foldlM_nil, List.append_nil, List.foldl_nil]
    cases s
    simp only at hs
    subst hs
    rfl
  | cons p prims ih =>
    intro s acc hs hv
    obtain ⟨hp, hc⟩ := hv p (List.mem_cons_self _ _)
    rw [List.map_cons, List.foldlM_cons, step_prim reader s p.line p.exponent p.coefs acc hs hc hp]
    simp only [bind, Except.bind]
    rw [ih _ { acc with alphas := acc.alphas ++ [p.exponent],
                        cs := List.zipWith (fun row c => row ++ [c]) acc.cs p.coefs } rfl
      (fun q hq => hv q (List.mem_cons_of_mem _ hq))]
    simp only [List.map_cons, List.foldl_cons, List.append_assoc, List.singleton_append]

theorem zipWith_snoc_range {α : Type} (g : Nat) (F : Nat → List α) (coefs : List α)
    (h : coefs.length = g) :
    List.zipWith (fun row c => row ++ [c]) ((List.range g).map F) coefs =
      (List.range g).map (fun j => F j ++ (coefs[j]?).toList) := by
  apply List.ext_getElem
  · simp [h]
  · intro i h1 h2
    have hi : i < g := by simpa using h2
    have hc : i < coefs.length := by omega
    simp [List.getElem?_eq_getElem hc]

theorem columns_fold {α β : Type} (coefs_of : β → List α) (g : Nat) :
    ∀ (prims : List β) (F : Nat → List α),
      (∀ p, p ∈ prims → (coefs_of p).length = g) →
      prims.foldl (fun cs p => List.zipWith (fun row c => row ++ [c]) cs (coefs_of p))
          ((List.range g).map F) =
        (List.range g).map (fun j => F j ++ prims.filterMap (fun p => (coefs_of p)[j]?)) := by
  intro prims
  induction prims with
  | nil => intro F _; simp
  | cons p prims ih =>
    intro F hv
    rw [List.foldl_cons, zipWith_snoc_range g F _ (hv p (List.mem_cons_self _ _)),
      ih _ (fun q hq => hv q (List.mem_cons_of_mem _ hq))]
    apply List.map_congr_left
    intro j _
    rw [List.append_assoc]
    congr 1
    cases hj : (coefs_of p)[j]? <;> simp [List.filterMap_cons, hj]

theorem shell_run (reader : TextReader R) (hl : ∀ l, reader.to_int (reader.of_int l) = l)
    (sh : G94Shell R) (s : BasisFileState R) (Z : Nat) (hk : s.key = some Z)
    (h1 : G94.is_shell_line sh.line sh.l sh.ngen)
    (h2 : ∀ p, p ∈ sh.prims → G94.is_prim_line reader p.line p.exponent p.coefs ∧
      p.coefs.length = sh.ngen) :
    ∃ t, sh.lines.foldlM (parse_basis_set_line reader (G94 reader)) s = .ok t ∧
      t.key = some Z ∧
      t.flush.out = ordered_map_update s.flush.out Z [] (fun shells => shells ++ [sh.shell reader]) := by
  unfold G94Shell.lines
  rw [List.foldlM_cons, step_shell reader hl s sh.line sh.l sh.ngen Z hk h1]
  simp only [bind, Except.bind]
  rw [prims_run reader sh.prims _ _ rfl h2]
  refine ⟨_, rfl, ?_, ?_⟩
  · simp only [flush_key, hk]
  · rw [flush_out_of_some _ Z _ (by simp only [flush_key, hk]) rfl]
    have hrep : List.replicate sh.ngen ([] : List R) = (List.range sh.ngen).map (fun _ => []) := by
      apply List.ext_getElem
      · simp
      · intro i h1 h2
        simp
    simp only [List.nil_append, hrep]
    rw [columns_fold (fun p : G94Prim R => p.coefs) sh.ngen sh.prims (fun _ => [])
      (fun p hp => (h2 p hp).2)]
    simp only [List.nil_append]
    rfl

theorem shells_run (reader : TextReader R) (hl : ∀ l, reader.to_int (reader.of_int l) = l)
    (Z : Nat) :
    ∀ (shells : List (G94Shell R)) (s : BasisFileState R), s.key = some Z →
      (∀ sh, sh ∈ shells → G94.is_shell_line sh.line sh.l sh.ngen ∧
        ∀ p, p ∈ sh.prims → G94.is_prim_line reader p.line p.exponent p.coefs ∧
          p.coefs.length = sh.ngen) →
      ∃ t, (shells.flatMap (fun sh => sh.lines)).foldlM
          (parse_basis_set_line reader (G94 reader)) s = .ok t ∧
        t.key = some Z ∧
        t.flush.out = shells.foldl
          (fun out sh => ordered_map_update out Z [] (fun l => l ++ [sh.shell reader])) s.flush.out := by
  intro shells
  induction shells with
  | nil => intro s hk _; exact ⟨s, rfl, hk, rfl⟩
  | cons sh shells ih =>
    intro s hk hv
    obtain ⟨v1, v2⟩ := hv sh (List.mem_cons_self _ _)
    obtain ⟨t1, ht1, hk1, ho1⟩ := shell_run reader hl sh s Z hk v1 v2
    obtain ⟨t, ht, hkt, hot⟩ := ih t1 hk1 (fun q hq => hv q (List.mem_cons_of_mem _ hq))
    refine ⟨t, ?_, hkt, ?_⟩
    · rw [List.flatMap_cons, List.foldlM_append, ht1]
      exact ht
    · rw [hot, ho1, List.foldl_cons]

theorem atom_run (reader : TextReader R)
    (hZ : ∀ n, reader.conv.to_size_t (reader.conv.of_size_t n) = n)
    (hl : ∀ l, reader.to_int (reader.of_int l) = l) (a : G94Atom R)
    (s : BasisFileState R) (hv : a.valid reader) :
    ∃ t, a.lines.foldlM (parse_basis_set_line reader (G94 reader)) s = .ok t ∧
      t.flush.out = a.shells.foldl
        (fun out sh => ordered_map_update out a.Z [] (fun l => l ++ [sh.shell reader]))
        s.flush.out := by
  obtain ⟨v1, v2⟩ := hv
  unfold G94Atom.lines
  rw [List.foldlM_cons, step_atom reader hZ s a.line a.Z v1]
  simp only [bind, Except.bind]
  obtain ⟨t, ht, _, hot⟩ := shells_run reader hl a.Z a.shells { s.flush with key := some a.Z }
    rfl v2
  refine ⟨t, ht, ?_⟩
  rw [hot]
  congr 1
  exact flush_out_of_none _ (flush_shell s)

theorem doc_run (reader : TextReader R)
    (hZ : ∀ n, reader.conv.to_size_t (reader.conv.of_size_t n) = n)
    (hl : ∀ l, reader.to_int (reader.of_int l) = l) :
    ∀ (doc : List (G94Atom R)) (s : BasisFileState R),
      (∀ a, a ∈ doc → a.valid reader) →
      ∃ t, (doc.flatMap (fun a => a.lines)).foldlM
          (parse_basis_set_line reader (G94 reader)) s = .ok t ∧
        t.flush.out = doc.foldl (fun out a => a.shells.foldl
          (fun out sh => ordered_map_update out a.Z [] (fun l => l ++ [sh.shell reader])) out)
          s.flush.out := by
  intro doc
  induction doc with
  | nil => intro s _; exact ⟨s, rfl, rfl⟩
  | cons a doc ih =>
    intro s hv
    obtain ⟨t1, ht1, ho1⟩ := atom_run reader hZ hl a s (hv a (List.mem_cons_self _ _))
    obtain ⟨t, ht, hot⟩ := ih t1 (fun q hq => hv q (List.mem_cons_of_mem _ hq))
    refine ⟨t, ?_, ?_⟩
    · rw [List.flatMap_cons, List.foldlM_append, ht1]
      exact ht
    · rw [hot, ho1, List.foldl_cons]

theorem ordered_map_update_keys {ν : Type} (key : Nat) (dflt : ν) (f : ν → ν) :
    ∀ (m : List (Nat × ν)) (x : Nat),
      x ∈ (ordered_map_update m key dflt f).map Prod.fst → x = key ∨ x ∈ m.map Prod.fst := by
  intro m
  induction m with
  | nil =>
    intro x hx
    simp [ordered_map_update] at hx
    exact Or.inl hx
  | cons p rest ih =>
    obtain ⟨k, v⟩ := p
    intro x hx
    unfold ordered_map_update at hx
    by_cases h1 : key = k
    · rw [if_pos h1] at hx
      exact Or.inr (by simpa using hx)
    · rw [if_neg h1] at hx
      by_cases h2 : key < k
      · rw [if_pos h2] at hx
        simp only [List.map_cons, List.mem_cons] at hx ⊢
        rcases hx with h | h | h
        · exact Or.inl h
        · exact Or.inr (Or.inl h)
        · exact Or.inr (Or.inr h)
      · rw [if_neg h2] at hx
        simp only [List.map_cons, List.mem_cons] at hx ⊢
        rcases hx with h | h
        · exact Or.inr (Or.inl h)
        · rcases ih x h with h' | h'
          · exact Or.inl h'
          · exact Or.inr (Or.inr h')

theorem ordered_map_update_increasing {ν : Type} (key : Nat) (dflt : ν) (f : ν → ν) :
    ∀ (m : List (Nat × ν)), keys_increasing m →
      keys_increasing (ordered_map_update m key dflt f) := by
  intro m
  induction m with
  | nil => intro _; simp [ordered_map_update, keys_increasing]
  | cons p rest ih =>
    obtain ⟨k, v⟩ := p
    intro hm
    unfold keys_increasing at hm ⊢
    rw [List.map_cons, List.pairwise_cons] at hm
    obtain ⟨hk, hrest⟩ := hm
    unfold ordered_map_update
    by_cases h1 : key = k
    · rw [if_pos h1]
      simp only [List.map_cons, List.pairwise_cons]
      exact ⟨hk, hrest⟩
    · rw [if_neg h1]
      by_cases h2 : key < k
      · rw [if_pos h2]
        simp only [List.map_cons, List.pairwise_cons, List.mem_cons]
        refine ⟨?_, hk, hrest⟩
        intro x hx
        rcases hx with h | h
        · omega
        · have := hk x h
          omega
      · rw [if_neg h2]
        simp only [List.map_cons, List.pairwise_cons]
        refine ⟨?_, ih hrest⟩
        intro x hx
        rcases ordered_map_update_keys key dflt f rest x hx with h | h
        · omega
        · exact hk x h

theorem lookup_none_of_lt {ν : Type} (key : Nat) :
    ∀ (m : List (Nat × ν)), (∀ x, x ∈ m.map Prod.fst → key < x) → m.lookup key = none := by
  intro m h
  rw [List.lookup_eq_none_iff]
  intro p hp
  have h1 := h p.1 (List.mem_map_of_mem _ hp)
  simp only [bne_iff_ne, ne_eq]
  omega

theorem ordered_map_update_lookup {ν : Type} (key : Nat) (dflt : ν) (f : ν → ν) (k : Nat) :
    ∀ (m : List (Nat × ν)), keys_increasing m →
      (ordered_map_update m key dflt f).lookup k =
        if k = key then some (f ((m.lookup key).getD dflt)) else m.lookup k := by
  intro m
  induction m with
  | nil =>
    intro _
    unfold ordered_map_update
    by_cases hk : k = key
    · simp [hk, List.lookup]
    · have hb : (k == key) = false := by simpa using hk
      simp [hk, List.lookup, hb]
  | cons p rest ih =>
    obtain ⟨k0, v⟩ := p
    intro hm
    unfold keys_increasing at hm
    rw [List.map_cons, List.pairwise_cons] at hm
    obtain ⟨hk0, hrest⟩ := hm
    unfold ordered_map_update
    by_cases h1 : key = k0
    · rw [if_pos h1]
      subst h1
      by_cases hk : k = key
      · simp [hk, List.lookup]
      · have hb : (k == key) = false := by simpa using hk
        simp [hk, List.lookup, hb]
    · rw [if_neg h1]
      have hb1 : (key == k0) = false := by simpa using h1
      by_cases h2 : key < k0
      · rw [if_pos h2]
        have hnone : ((k0, v) :: rest).lookup key = none := by
          apply lookup_none_of_lt
          intro x hx
          simp only [List.map_cons, List.mem_cons] at hx
          rcases hx with h | h
          · omega
          · have := hk0 x h
            omega
        by_cases hk : k = key
        · subst hk
          rw [hnone]
          simp [List.lookup]
        · have hb : (k == key) = false := by simpa using hk
          rw [if_neg hk]
          simp only [List.lookup, hb]
      · rw [if_neg h2]
        by_cases hk0' : k = k0
        · subst hk0'
          have hne : ¬ k = key := fun h => h1 h.symm
          rw [if_neg hne]
          simp [List.lookup]
        · have hb : (k == k0) = false := by simpa using hk0'
          simp only [List.lookup, hb, hb1]
          exact ih hrest

theorem shells_fold_lookup (reader : TextReader R) (Zk : Nat) :
    ∀ (shells : List (G94Shell R)) (m : List (Nat × List (BasisShell R))),
      keys_increasing m →
      keys_increasing (shells.foldl
        (fun out sh => ordered_map_update out Zk [] (fun l => l ++ [sh.shell reader])) m) ∧
      ∀ Z, (shells.foldl
          (fun out sh => ordered_map_update out Zk [] (fun l => l ++ [sh.shell reader]))
          m).lookup Z =
        if Z = Zk ∧ 0 < shells.length then
          some ((m.lookup Z).getD [] ++ shells.map (fun sh => sh.shell reader))
        else m.lookup Z := by
  intro shells
  induction shells with
  | nil => intro m hm; exact ⟨hm, fun Z => by simp⟩
  | cons sh shells ih =>
    intro m hm
    have hm1 := ordered_map_update_increasing Zk [] (fun l => l ++ [sh.shell reader]) m hm
    obtain ⟨i1, i2⟩ := ih _ hm1
    refine ⟨i1, fun Z => ?_⟩
    rw [List.foldl_cons, i2 Z, ordered_map_update_lookup Zk [] _ Z m hm]
    by_cases hz : Z = Zk
    · subst hz
      cases shells with
      | nil => simp
      | cons sh2 shells => simp
    · simp [hz]

theorem doc_fold_lookup (reader : TextReader R) :
    ∀ (doc : List (G94Atom R)) (m : List (Nat × List (BasisShell R))),
      keys_increasing m → (∀ k v, m.lookup k = some v → v ≠ []) →
      keys_increasing (doc.foldl (fun out a => a.shells.foldl
          (fun out sh => ordered_map_update out a.Z [] (fun l => l ++ [sh.shell reader])) out) m) ∧
      (∀ k v, (doc.foldl (fun out a => a.shells.foldl
          (fun out sh => ordered_map_update out a.Z [] (fun l => l ++ [sh.shell reader])) out)
          m).lookup k = some v → v ≠ []) ∧
      ∀ Z, ((doc.foldl (fun out a => a.shells.foldl
          (fun out sh => ordered_map_update out a.Z [] (fun l => l ++ [sh.shell reader])) out)
          m).lookup Z).getD [] = (m.lookup Z).getD [] ++ G94.shells_of reader doc Z := by
  intro doc
  induction doc with
  | nil => intro m hm hne; exact ⟨hm, hne, fun Z => by simp [G94.shells_of]⟩
  | cons a doc ih =>
    intro m hm hne
    obtain ⟨s1, s2⟩ := shells_fold_lookup reader a.Z a.shells m hm
    have hne1 : ∀ k v, (a.shells.foldl
        (fun out sh => ordered_map_update out a.Z [] (fun l => l ++ [sh.shell reader])) m).lookup k =
          some v → v ≠ [] := by
      intro k v hkv
      rw [s2 k] at hkv
      by_cases hc : k = a.Z ∧ 0 < a.shells.length
      · rw [if_pos hc] at hkv
        injection hkv with hkv
        rw [← hkv]
        intro h0
        have h1 := congrArg List.length h0
        have h2 := hc.2
        rw [List.length_append, List.length_map, List.length_nil] at h1
        omega
      · rw [if_neg hc] at hkv
        exact hne k v hkv
    obtain ⟨i1, i2, i3⟩ := ih _ s1 hne1
    refine ⟨i1, i2, fun Z => ?_⟩
    rw [List.foldl_cons, i3 Z, s2 Z]
    unfold G94.shells_of
    by_cases hz : a.Z = Z
    · subst hz
      by_cases hlen : 0 < a.shells.length
      · simp [hlen]
      · have hs : a.shells = [] := List.length_eq_zero.mp (by omega)
        simp [hs]
    · have hz' : ¬ Z = a.Z := fun h => hz h.symm
      simp [hz, hz']

theorem parse_basis_set_lines_doc (reader : TextReader R)
    (hZ : ∀ n, reader.conv.to_size_t (reader.conv.of_size_t n) = n)
    (hl : ∀ l, reader.to_int (reader.of_int l) = l)
    (doc : List (G94Atom R)) (hdoc : ∀ a, a ∈ doc → a.valid reader) :
    ∃ out, parse_basis_set_lines reader (G94 reader) (doc.flatMap (fun a => a.lines)) =
        .ok out ∧
      keys_increasing out ∧
      ∀ Z, (G94.shells_of reader doc Z = [] → out.lookup Z = none) ∧
        (G94.shells_of reader doc Z ≠ [] →
          out.lookup Z = some (G94.shells_of reader doc Z)) := by
  obtain ⟨t, ht, hot⟩ := doc_run reader hZ hl doc { key := none, shell := none, out := [] } hdoc
  obtain ⟨i1, i2, i3⟩ := doc_fold_lookup reader doc ([] : List (Nat × List (BasisShell R)))
    (by simp [keys_increasing]) (by intro k v h; simp [List.lookup] at h)
  have h0 : ({ key := none, shell := none, out := [] } : BasisFileState R).flush.out = [] := rfl
  rw [h0] at hot
  refine ⟨t.flush.out, ?_, ?_, ?_⟩
  · unfold parse_basis_set_lines
    rw [ht]
    rfl
  · rw [hot]; exact i1
  · intro Z
    rw [hot]
    have h3 := i3 Z
    simp only [List.lookup, Option.getD_none, List.nil_append] at h3
    constructor
    · intro he
      rw [he] at h3
      cases hlk : (doc.foldl (fun out a => a.shells.foldl
          (fun out sh => ordered_map_update out a.Z [] (fun l => l ++ [sh.shell reader])) out)
          ([] : List (Nat × List (BasisShell R)))).lookup Z with
      | none => rfl
      | some v =>
        rw [hlk] at h3
        exact absurd h3 (i2 Z v hlk)
    · intro hne
      cases hlk : (doc.foldl (fun out a => a.shells.foldl
          (fun out sh => ordered_map_update out a.Z [] (fun l => l ++ [sh.shell reader])) out)
          ([] : List (Nat × List (BasisShell R)))).lookup Z with
      | none =>
        rw [hlk] at h3
        exact absurd h3.symm hne
      | some v =>
        rw [hlk] at h3
        simp only [Option.getD_some] at h3
        rw [h3]

theorem XYZ_system_line (reader : TextReader R) (line : List Char) (charge multiplicity : R)
    (h : XYZParser.is_system_line reader line charge multiplicity) :
    XYZParser.worth_parsing line = .overall_system ∧
    XYZParser.parse reader line = .ok [(.charge, [charge]), (.multiplicity, [multiplicity])] := by
  obtain ⟨tc, tm, hf, hc, hm⟩ := h
  constructor
  · unfold XYZParser.worth_parsing
    rw [hf]
  · unfold XYZParser.parse
    rw [hf]
    simp only [read_numbers, hc, hm, bind, Except.bind, pure, Except.pure]

theorem XYZ_atom_line (reader : TextReader R)
    (hZ : ∀ n, reader.conv.to_size_t (reader.conv.of_size_t n) = n) (line : List Char)
    (Z : Nat) (x y z : R) (h : XYZParser.is_atom_line reader line Z x y z) :
    XYZParser.worth_parsing line = .new_atom ∧
    ∃ v, reader.conv.to_size_t v = Z ∧
      XYZParser.parse reader line = .ok [(.AtNum, [v]), (.x, [x]), (.y, [y]), (.z, [z])] := by
  obtain ⟨c, symbol, tx, ty, tz, hf, hz, hx, hy, hzz⟩ := h
  constructor
  · unfold XYZParser.worth_parsing
    rw [hf]
  · rcases hz with ⟨hc, hl⟩ | ⟨hc, v, hv, hvz⟩
    · refine ⟨reader.conv.of_size_t Z, hZ Z, ?_⟩
      unfold XYZParser.parse
      rw [hf]
      simp only [hc, if_true, hl, read_numbers, hx, hy, hzz, bind, Except.bind, pure,
        Except.pure]
    · refine ⟨v, hvz, ?_⟩
      unfold XYZParser.parse
      rw [hf]
      simp only [hc, hv, read_numbers, hx, hy, hzz, bind, Except.bind, pure, Except.pure]
      rfl

theorem xyz_step_system (reader : TextReader R) (eq : R → R → Bool) (tables : AtomicTables R)
    (s : AtomsFileState R) (line : List Char) (charge multiplicity : R)
    (hs : s.started = false)
    (h : XYZParser.is_system_line reader line charge multiplicity) :
    parse_SetOfAtoms_line reader eq tables (XYZParser reader) s line =
      .ok { s with started := true,
                   out := { s.out with charge := charge, multiplicity := multiplicity } } := by
  obtain ⟨hw, hp⟩ := XYZ_system_line reader line charge multiplicity h
  unfold parse_SetOfAtoms_line
  simp only [XYZParser, hw, hp, hs, bind, Except.bind]
  rfl

theorem xyz_flush_atom (reader : TextReader R) (eq : R → R → Bool) (tables : AtomicTables R)
    (s : AtomsFileState R) (v x y z : R) (a : Atom R)
    (hs : s.atom = some [(.AtNum, [v]), (.x, [x]), (.y, [y]), (.z, [z])])
    (ha : create_atom reader.conv tables (array3 x y z) (reader.conv.to_size_t v) = .ok a) :
    s.flush reader eq tables = .ok { s with atom := none, out := SetOfAtoms.insert_ieee eq s.out a } := by
  unfold AtomsFileState.flush
  rw [hs]
  have h1 : first_field ([(.AtNum, [v]), (.x, [x]), (.y, [y]), (.z, [z])] :
      List (SetOfAtomsFileParser.data_type × List R)) .AtNum = .ok v := rfl
  have h2 : first_field ([(.AtNum, [v]), (.x, [x]), (.y, [y]), (.z, [z])] :
      List (SetOfAtomsFileParser.data_type × List R)) .x = .ok x := rfl
  have h3 : first_field ([(.AtNum, [v]), (.x, [x]), (.y, [y]), (.z, [z])] :
      List (SetOfAtomsFileParser.data_type × List R)) .y = .ok y := rfl
  have h4 : first_field ([(.AtNum, [v]), (.x, [x]), (.y, [y]), (.z, [z])] :
      List (SetOfAtomsFileParser.data_type × List R)) .z = .ok z := rfl
  simp only [h1, h2, h3, h4, bind, Except.bind, ha]
  rfl

theorem xyz_atoms_run (reader : TextReader R) (eq : R → R → Bool) (tables : AtomicTables R)
    (hZ : ∀ n, reader.conv.to_size_t (reader.conv.of_size_t n) = n) :
    ∀ (atoms : List (XYZAtomLine R)) (s : AtomsFileState R) (O : SetOfAtoms R),
      s.started = true →
      s.flush reader eq tables = .ok { started := true, atom := none, out := O } →
      (∀ p, p ∈ atoms → p.valid reader tables) →
      ∃ t, (atoms.map (fun p => p.line)).foldlM
          (parse_SetOfAtoms_line reader eq tables (XYZParser reader)) s = .ok t ∧
        t.flush reader eq tables =
          .ok { started := true, atom := none,
                out := (atoms.map (fun p => p.atom)).foldl (SetOfAtoms.insert_ieee eq) O } := by
  intro atoms
  induction atoms with
  | nil => intro s O _ hf _; exact ⟨s, rfl, hf⟩
  | cons p atoms ih =>
    intro s O hs hf hv
    obtain ⟨hl, ha⟩ := hv p (List.mem_cons_self _ _)
    obtain ⟨hw, v, hvz, hp⟩ := XYZ_atom_line reader hZ p.line p.Z p.x p.y p.z hl
    have hstep : parse_SetOfAtoms_line reader eq tables (XYZParser reader) s p.line =
        .ok { started := true,
              atom := some [(.AtNum, [v]), (.x, [p.x]), (.y, [p.y]), (.z, [p.z])],
              out := O } := by
      unfold parse_SetOfAtoms_line
      simp only [XYZParser, hw, hp, hs, hf, bind, Except.bind, if_true]
      rfl
    have hflush := xyz_flush_atom reader eq tables
      { started := true,
        atom := some [(.AtNum, [v]), (.x, [p.x]), (.y, [p.y]), (.z, [p.z])],
        out := O } v p.x p.y p.z p.atom rfl (by rw [hvz]; exact ha)
    obtain ⟨t, ht, hft⟩ := ih _ (SetOfAtoms.insert_ieee eq O p.atom) rfl hflush
      (fun q hq => hv q (List.mem_cons_of_mem _ hq))
    refine ⟨t, ?_, ?_⟩
    · rw [List.map_cons, List.foldlM_cons, hstep]
      exact ht
    · rw [hft, List.map_cons, List.foldl_cons]

theorem parse_SetOfAtoms_lines_xyz (reader : TextReader R) (eq : R → R → Bool)
    (tables : AtomicTables R)
    (hZ : ∀ n, reader.conv.to_size_t (reader.conv.of_size_t n) = n)
    (first : List Char) (charge multiplicity : R) (atoms : List (XYZAtomLine R))
    (hfirst : XYZParser.is_system_line reader first charge multiplicity)
    (hatoms : ∀ p, p ∈ atoms → p.valid reader tables) :
    parse_SetOfAtoms_lines reader eq tables (XYZParser reader)
        (first :: atoms.map (fun p => p.line)) =
      .ok ((atoms.map (fun p => p.atom)).foldl (SetOfAtoms.insert_ieee eq)
        { atoms_ := [], charge := charge, multiplicity := multiplicity }) := by
  unfold parse_SetOfAtoms_lines
  rw [List.foldlM_cons, xyz_step_system reader eq tables _ first charge multiplicity rfl hfirst]
  obtain ⟨t, ht, hft⟩ := xyz_atoms_run reader eq tables hZ atoms
    { started := true, atom := none,
      out := { atoms_ := [], charge := charge, multiplicity := multiplicity } }
    { atoms_ := [], charge := charge, multiplicity := multiplicity } rfl rfl hatoms
  simp only [bind, Except.bind] at ht ⊢
  rw [ht]
  simp only [hft]
  rfl

theorem parse_SetOfAtoms_lines_skip (reader : TextReader R) (eq : R → R → Bool)
    (tables : AtomicTables R) (parser : SetOfAtomsFileParser R)
    (before after : List (List Char)) (line : List Char)
    (h : parser.worth_parsing line = .none) :
    parse_SetOfAtoms_lines reader eq tables parser (before ++ line :: after) =
      parse_SetOfAtoms_lines reader eq tables parser (before ++ after) := by
  have key : ∀ s0 : AtomsFileState R,
      List.foldlM (parse_SetOfAtoms_line reader eq tables parser) s0 (line :: after) =
        List.foldlM (parse_SetOfAtoms_line reader eq tables parser) s0 after := by
    intro s0
    have hs : parse_SetOfAtoms_line reader eq tables parser s0 line = .ok s0 := by
      unfold parse_SetOfAtoms_line
      rw [h]
    rw [List.foldlM_cons, hs]
    rfl
  unfold parse_SetOfAtoms_lines
  rw [List.foldlM_append, List.foldlM_append]
  simp only [key]

theorem lookup_atomic_number_case (symbols : List (String × Nat)) (s t : List Char)
    (h : s.map Char.toLower = t.map Char.toLower) :
    lookup_atomic_number symbols s = lookup_atomic_number symbols t := by
  unfold lookup_atomic_number
  rw [h]

theorem test_reader_size_t (n : Nat) :
    test_reader.conv.to_size_t (test_reader.conv.of_size_t n) = n := by
  simp [test_reader]

theorem test_reader_int (l : Int) : test_reader.to_int (test_reader.of_int l) = l := by
  simp [test_reader]

/-- C31: for a Gaussian94 text made of well-formed element blocks, the parser returns a
map with increasing keys that gives every atomic number the shells of its blocks in
file order and has no other key; every shell has the code of its letters, one
contraction per letter, the exponents of its numeric lines (first fields) in file
order and, for each letter of its code, one coefficient row (the later fields, left
to right) over the numeric lines in file order; its type is the one the reader
names.  A line that is not worth parsing never changes the result, and blank lines,
comment lines and `****` lines are not worth parsing.  With `SphericalGaussian` as
the type, the text of the unit test gives the map with the keys 1 and 6 that the
test expects. -/
theorem parse_basis_set_file_g94 (reader : TextReader R)
    (hZ : ∀ n, reader.conv.to_size_t (reader.conv.of_size_t n) = n)
    (hl : ∀ l, reader.to_int (reader.of_int l) = l)
    (doc : List (G94Atom R)) (hdoc : ∀ a, a ∈ doc → a.valid reader) :
    (∃ out, parse_basis_set_lines reader (G94 reader) (doc.flatMap (fun a => a.lines)) =
        .ok out ∧
      keys_increasing out ∧
      ∀ Z, (G94.shells_of reader doc Z = [] → out.lookup Z = none) ∧
        (G94.shells_of reader doc Z ≠ [] →
          out.lookup Z = some (G94.shells_of reader doc Z))) ∧
    (∀ (before after : List (List Char)) (line : List Char),
      G94.worth_parsing line = .none →
      parse_basis_set_lines reader (G94 reader) (before ++ line :: after) =
        parse_basis_set_lines reader (G94 reader) (before ++ after)) ∧
    G94.worth_parsing "".data = .none ∧
    G94.worth_parsing "! Elements      References".data = .none ∧
    G94.worth_parsing "****".data = .none ∧
    parse_basis_set_file test_reader g94_example (G94 test_reader) =
      .ok [(1, [BasisShell.make .SphericalGaussian 0 1
                  [⟨1301, 2⟩, ⟨1962, 3⟩, ⟨4446, 4⟩] [⟨19685, 6⟩, ⟨137977, 6⟩, ⟨478148, 6⟩],
                BasisShell.make .SphericalGaussian 0 1 [⟨122, 3⟩] [⟨1, 0⟩]]),
           (6, [BasisShell.make .SphericalGaussian 0 1
                  [⟨6665, 0⟩, ⟨1000, 0⟩, ⟨228, 0⟩, ⟨6471, 2⟩, ⟨2106, 2⟩, ⟨7495, 3⟩,
                   ⟨2797, 3⟩, ⟨5215, 4⟩]
                  [⟨692, 6⟩, ⟨5329, 6⟩, ⟨27077, 6⟩, ⟨101718, 6⟩, ⟨27474, 5⟩, ⟨448564, 6⟩,
                   ⟨285074, 6⟩, ⟨15204, 6⟩],
                BasisShell.make .SphericalGaussian 2 1 [⟨151, 3⟩] [⟨1, 0⟩],
                BasisShell.make .SphericalGaussian (-1) 2 [⟨1687144, 7⟩]
                  [⟨1, 0⟩, ⟨1, 0⟩]])] :=
  ⟨parse_basis_set_lines_doc reader hZ hl doc hdoc,
    fun before after line h =>
      parse_basis_set_lines_skip reader (G94 reader) before after line h,
    rfl, rfl, rfl, rfl⟩

theorem parse_basis_set_file_g94_witness :
    G94Atom.valid test_reader sp_block ∧
    ∃ out, parse_basis_set_lines test_reader (G94 test_reader)
        ["H     0 ".data, "SP   2   1.00".data,
         "      0.5000000     1.0000000    -2.0000000 ".data,
         "      0.2500000     3.0000000     4.0000000 ".data] = .ok out ∧
      out.lookup 1 = some [BasisShell.make .SphericalGaussian (-1) 2 [⟨5, 1⟩, ⟨25, 2⟩]
        [⟨1, 0⟩, ⟨3, 0⟩, ⟨-2, 0⟩, ⟨4, 0⟩]] ∧
      out.lookup 6 = none := by
  have hv : G94Atom.valid test_reader sp_block := by
    refine ⟨⟨'H', [], "0".data, rfl, rfl, rfl⟩, ?_⟩
    intro sh hsh
    have hs : sh =
        { line := "SP   2   1.00".data, l := -1, ngen := 2,
          prims := [{ line := "      0.5000000     1.0000000    -2.0000000 ".data,
                      exponent := ⟨5, 1⟩, coefs := [⟨1, 0⟩, ⟨-2, 0⟩] },
                    { line := "      0.2500000     3.0000000     4.0000000 ".data,
                      exponent := ⟨25, 2⟩, coefs := [⟨3, 0⟩, ⟨4, 0⟩] }] } := by
      simpa [sp_block] using hsh
    subst hs
    refine ⟨⟨'S', "P".data, "2".data, "1.00".data, rfl, rfl, rfl, rfl⟩, ?_⟩
    intro p hp
    simp only [List.mem_cons, List.mem_singleton, List.not_mem_nil, or_false] at hp
    rcases hp with rfl | rfl
    · exact ⟨⟨'0', ".5000000".data, ["1.0000000".data, "-2.0000000".data], rfl, rfl,
        by decide, by decide, rfl, by simp⟩, rfl⟩
    · exact ⟨⟨'0', ".2500000".data, ["3.0000000".data, "4.0000000".data], rfl, rfl,
        by decide, by decide, rfl, by simp⟩, rfl⟩
  obtain ⟨out, hout, _, hlk⟩ :=
    (parse_basis_set_file_g94 test_reader test_reader_size_t test_reader_int [sp_block]
      (fun a ha => by
        rw [List.mem_singleton] at ha
        rw [ha]
        exact hv)).1
  refine ⟨hv, out, hout, ?_, ?_⟩
  · exact (hlk 1).2 (by simp [G94.shells_of, sp_block])
  · exact (hlk 6).1 rfl

theorem create_atom_coord (conv : DoubleConv R) (tables : AtomicTables R) (xyz : Fin 3 → R)
    (Z : Nat) (a : Atom R) (h : create_atom conv tables xyz Z = .ok a) : a.coord = xyz := by
  unfold create_atom at h
  obtain ⟨isonum, _, h⟩ := bind_eq_ok h
  unfold create_atom_isonum at h
  obtain ⟨ai, _, h⟩ := bind_eq_ok h
  obtain ⟨im, _, h⟩ := bind_eq_ok h
  injection h with h
  subst h
  rfl

theorem insert_ieee_of_coord_ne (eq : R → R → Bool) (a b : Atom R) (charge multiplicity : R)
    (h : eq (a.coord 0) (b.coord 0) = false) :
    SetOfAtoms.insert_ieee eq
        (SetOfAtoms.insert_ieee eq
          { atoms_ := [], charge := charge, multiplicity := multiplicity } a) b =
      { atoms_ := [a, b], charge := charge, multiplicity := multiplicity } := by
  have hab : Atom.operator_eq_ieee eq a b = false := by
    simp [Atom.operator_eq_ieee, vector_eq, h]
  simp [SetOfAtoms.insert_ieee, SetOfAtoms.count_ieee, hab]

/-- C32: for an XYZ text whose first parsed line is the line of the system and whose
later lines are atom lines, the parser returns the set with the charge and the
multiplicity of the first line and with the atoms that `create_atom` makes of the
atomic number and of the three coordinates of each atom line, inserted in file order
by `SetOfAtoms::insert`.  Skipped lines never change the result, and the look-up of
an element symbol does not depend on its case.  Whatever the tables and the
comparison of doubles, as long as it tells 0.1 from 1.1, the text of the unit test
gives the charge -6.7, the multiplicity 3 and exactly the two atoms that
`create_atom` makes for the atomic number 2 at (0.1, 0.1, 0.0) and at
(1.1, 0.1, 0.0), in this order. -/
theorem parse_SetOfAtoms_file_xyz (reader : TextReader R) (eq : R → R → Bool)
    (tables : AtomicTables R)
    (hZ : ∀ n, reader.conv.to_size_t (reader.conv.of_size_t n) = n)
    (first : List Char) (charge multiplicity : R) (atoms : List (XYZAtomLine R))
    (hfirst : XYZParser.is_system_line reader first charge multiplicity)
    (hatoms : ∀ p, p ∈ atoms → p.valid reader tables) :
    parse_SetOfAtoms_lines reader eq tables (XYZParser reader)
        (first :: atoms.map (fun p => p.line)) =
      .ok ((atoms.map (fun p => p.atom)).foldl (SetOfAtoms.insert_ieee eq)
        { atoms_ := [], charge := charge, multiplicity := multiplicity }) ∧
    (∀ (before after : List (List Char)) (line : List Char),
      XYZParser.worth_parsing line = .none →
      parse_SetOfAtoms_lines reader eq tables (XYZParser reader) (before ++ line :: after) =
        parse_SetOfAtoms_lines reader eq tables (XYZParser reader) (before ++ after)) ∧
    (∀ s t : List Char, s.map Char.toLower = t.map Char.toLower →
      lookup_atomic_number reader.symbols s = lookup_atomic_number reader.symbols t) ∧
    (∀ (eq0 : Decimal → Decimal → Bool) (tables0 : AtomicTables Decimal)
        (a1 a2 : Atom Decimal),
      eq0 ⟨1, 1⟩ ⟨11, 1⟩ = false →
      create_atom test_reader.conv tables0 (array3 ⟨1, 1⟩ ⟨1, 1⟩ ⟨0, 0⟩) 2 = .ok a1 →
      create_atom test_reader.conv tables0 (array3 ⟨11, 1⟩ ⟨1, 1⟩ ⟨0, 0⟩) 2 = .ok a2 →
      parse_SetOfAtoms_file test_reader eq0 tables0 xyz_example (XYZParser test_reader) =
        .ok { atoms_ := [a1, a2], charge := ⟨-67, 1⟩, multiplicity := ⟨3, 0⟩ }) := by
  refine ⟨parse_SetOfAtoms_lines_xyz reader eq tables hZ first charge multiplicity atoms
      hfirst hatoms,
    fun before after line h =>
      parse_SetOfAtoms_lines_skip reader eq tables (XYZParser reader) before after line h,
    lookup_atomic_number_case reader.symbols, ?_⟩
  intro eq0 tables0 a1 a2 hne h1 h2
  have hlines : text_lines xyz_example.data =
      (" -6.7 3".data ::
        [({ line := "         He 0.1 .1 0.0    ".data, Z := 2,
            x := ⟨1, 1⟩, y := ⟨1, 1⟩, z := ⟨0, 0⟩, atom := a1 } : XYZAtomLine Decimal),
         { line := " HE 1.1 0.1 0.0".data, Z := 2,
           x := ⟨11, 1⟩, y := ⟨1, 1⟩, z := ⟨0, 0⟩, atom := a2 }].map (fun p => p.line)) ++
        [] :: [] := rfl
  have hsys : XYZParser.is_system_line test_reader " -6.7 3".data ⟨-67, 1⟩ ⟨3, 0⟩ :=
    ⟨"-6.7".data, "3".data, rfl, rfl, rfl⟩
  have hat : ∀ p : XYZAtomLine Decimal,
      p ∈ [({ line := "         He 0.1 .1 0.0    ".data, Z := 2,
              x := ⟨1, 1⟩, y := ⟨1, 1⟩, z := ⟨0, 0⟩, atom := a1 } : XYZAtomLine Decimal),
           { line := " HE 1.1 0.1 0.0".data, Z := 2,
             x := ⟨11, 1⟩, y := ⟨1, 1⟩, z := ⟨0, 0⟩, atom := a2 }] →
      p.valid test_reader tables0 := by
    intro p hp
    simp only [List.mem_cons, List.mem_singleton, List.not_mem_nil, or_false] at hp
    rcases hp with rfl | rfl
    · exact ⟨⟨'H', "e".data, "0.1".data, ".1".data, "0.0".data, rfl,
        Or.inl ⟨rfl, rfl⟩, rfl, rfl, rfl⟩, h1⟩
    · exact ⟨⟨'H', "E".data, "1.1".data, "0.1".data, "0.0".data, rfl,
        Or.inl ⟨rfl, rfl⟩, rfl, rfl, rfl⟩, h2⟩
  have hc : eq0 (a1.coord 0) (a2.coord 0) = false := by
    rw [create_atom_coord _ _ _ _ _ h1, create_atom_coord _ _ _ _ _ h2]
    exact hne
  unfold parse_SetOfAtoms_file
  rw [hlines, parse_SetOfAtoms_lines_skip test_reader eq0 tables0 (XYZParser test_reader) _
    [] [] rfl, List.append_nil,
    parse_SetOfAtoms_lines_xyz test_reader eq0 tables0 test_reader_size_t _ _ _ _ hsys hat]
  exact congrArg Except.ok (insert_ieee_of_coord_ne eq0 a1 a2 _ _ hc)

theorem parse_SetOfAtoms_file_xyz_witness :
    XYZParser.is_system_line test_reader "1.5 2".data ⟨15, 1⟩ ⟨2, 0⟩ ∧
    he_line.valid test_reader test_tables_He ∧ two_line.valid test_reader test_tables_He ∧
    parse_SetOfAtoms_lines test_reader (fun x y => decide (x = y)) test_tables_He
        (XYZParser test_reader)
        ["1.5 2".data, "  he 0.1 .2 -0.3 ".data, "2 1.5 0.0 2.25".data] =
      .ok { atoms_ := [test_He ⟨1, 1⟩ ⟨2, 1⟩ ⟨-3, 1⟩, test_He ⟨15, 1⟩ ⟨0, 0⟩ ⟨225, 2⟩],
            charge := ⟨15, 1⟩, multiplicity := ⟨2, 0⟩ } := by
  have h0 : XYZParser.is_system_line test_reader "1.5 2".data ⟨15, 1⟩ ⟨2, 0⟩ :=
    ⟨"1.5".data, "2".data, rfl, rfl, rfl⟩
  have h1 : he_line.valid test_reader test_tables_He :=
    ⟨⟨'h', "e".data, "0.1".data, ".2".data, "-0.3".data, rfl, Or.inl ⟨rfl, rfl⟩, rfl, rfl,
      rfl⟩, rfl⟩
  have h2 : two_line.valid test_reader test_tables_He :=
    ⟨⟨'2', [], "1.5".data, "0.0".data, "2.25".data, rfl, Or.inr ⟨rfl, ⟨2, 0⟩, rfl, rfl⟩,
      rfl, rfl, rfl⟩, rfl⟩
  refine ⟨h0, h1, h2, ?_⟩
  have h := (parse_SetOfAtoms_file_xyz test_reader (fun x y => decide (x = y))
    test_tables_He test_reader_size_t
    "1.5 2".data ⟨15, 1⟩ ⟨2, 0⟩ [he_line, two_line] h0
    (fun p hp => by
      simp only [List.mem_cons, List.mem_singleton, List.not_mem_nil, or_false] at hp
      rcases hp with rfl | rfl
      · exact h1
      · exact h2)).1
  exact h

/-- The model of the XYZ parser on texts that are not well formed: an atom line with
three fields, a second line of two fields, and a first parsed line that is an atom
line are malformed lines; an unknown element symbol is reported as such. -/
theorem parse_SetOfAtoms_lines_malformed (eq : Decimal → Decimal → Bool) :
    parse_SetOfAtoms_lines test_reader eq test_tables_He (XYZParser test_reader)
        ["0 1".data, "He 0.1 0.2".data] = .error .malformed_line ∧
    parse_SetOfAtoms_lines test_reader eq test_tables_He (XYZParser test_reader)
        ["0 1".data, "He 0.1 0.2 0.3".data, "1 3".data] = .error .malformed_line ∧
    parse_SetOfAtoms_lines test_reader eq test_tables_He (XYZParser test_reader)
        ["He 0.1 0.2 0.3".data, "0 1".data] = .error .malformed_line ∧
    parse_SetOfAtoms_lines test_reader eq test_tables_He (XYZParser test_reader)
        ["0 1".data, "He 0.1 0.2 x".data] = .error .malformed_line ∧
    parse_SetOfAtoms_lines test_reader eq test_tables_He (XYZParser test_reader)
        ["0 1".data, "Xx 0.1 0.2 0.3".data] = .error .unknown_element :=
  ⟨rfl, rfl, rfl, rfl, rfl⟩

/-- The model of the Gaussian94 parser on texts that are not well formed: a numeric
line with a coefficient too few for the letters of its shell, a numeric line with a
field that is no number, and a shell line before any element line are malformed
lines; an unknown element symbol and unknown shell letters are reported as such. -/
theorem parse_basis_set_lines_malformed :
    parse_basis_set_lines test_reader (G94 test_reader)
        ["H 0".data, "SP 1 1.00".data, "0.5 1.0".data] = .error .malformed_line ∧
    parse_basis_set_lines test_reader (G94 test_reader)
        ["H 0".data, "S 1 1.00".data, "0.5 x".data] = .error .malformed_line ∧
    parse_basis_set_lines test_reader (G94 test_reader)
        ["S 1 1.00".data, "0.5 1.0".data] = .error .malformed_line ∧
    parse_basis_set_lines test_reader (G94 test_reader)
        ["Xx 0".data, "S 1 1.00".data, "0.5 1.0".data] = .error .unknown_element ∧
    parse_basis_set_lines test_reader (G94 test_reader)
        ["H 0".data, "SX 1 1.00".data, "0.5 1.0".data] = .error .unknown_code :=
  ⟨rfl, rfl, rfl, rfl, rfl⟩

end LibChemist
